import Mathlib

/-!
# xv6 buffer cache (kernel/bio.c): a shallow embedding

The C state of `bio.c` is the array `bufs.buf[NBUF]`, the bucket heads
`bcache[NBUCKET].head` and the `prev`/`next` pointers that thread the buffers
through the circular bucket lists.  It is embedded as a memory `Ptr → Buf`
addressed by symbolic pointers, and every C statement that reads or writes a
field becomes a read or an update of this memory, in the order of the source.

Conventions.
* Spin locks (`bcache[i].lock`, `bufs.lock`) delimit critical sections; each
  critical section is executed atomically here, so `acquire`/`release` leave no
  trace in the state.
* `refcnt` is a `uint`: `b->refcnt++` and the decrements are taken modulo
  `2^32`, so that incrementing `2^32 - 1` gives `0` and decrementing `0` gives
  `2^32 - 1`.
* `valid` is a flag the code only ever sets to `0` or `1`; it is a `Bool`.
* `NBUF` (param.h) is not part of the sources and is a parameter.
-/

namespace Bio

/-- A symbolic address of a `struct buf`: the null pointer, the list head of
bucket `k` (`&bcache[k].head`), or slot `i` of the pool (`&bufs.buf[i]`). -/
inductive Ptr where
  | null : Ptr
  | head (k : Nat) : Ptr
  | buf (i : Nat) : Ptr
  deriving DecidableEq, Repr

/-- Contents of one disk block (`uchar data[BSIZE]`). -/
abbrev Data := List Nat

/-- Modelled from the spec: `struct buf` is declared in buf.h, which is not among
the sources.  The fields are those `bio.c` reads and writes: `valid` (whether
`data` reflects the disk), the key `dev`/`blockno`, the sleep-lock (`none` when
free, `some pid` when process `pid` holds it), `refcnt` (the number of active
holders), the list links and `data`. -/
structure Buf where
  valid : Bool
  dev : Nat
  blockno : Nat
  lock : Option Nat
  refcnt : Nat
  prev : Ptr
  next : Ptr
  data : Data

/-- One call of `virtio_disk_rw(b, write)`, recorded with the key of `b`. -/
structure DiskOp where
  write : Bool
  dev : Nat
  blockno : Nat
  deriving DecidableEq, Repr

/-- The state `bio.c` works on: the memory holding every `struct buf`, the disk as
a map from `(dev, blockno)` to block contents, and the trace of driver calls in
the order they were issued. -/
structure State where
  mem : Ptr → Buf
  disk : Nat → Nat → Data
  io : List DiskOp

/-- What a call does: it returns a value and leaves a state; it goes to sleep in
`acquiresleep` on the lock of buffer `b`, leaving the state of that moment; it
stops the kernel with `panic(msg)`; or its walk of a bucket list does not come
back to the head of the bucket. -/
inductive Res (α : Type) where
  | ret (a : α) (s : State) : Res α
  | sleep (b : Ptr) (s : State) : Res α
  | panic (msg : String) : Res α
  | diverge : Res α

/-- The state a call leaves when it returns (and `s` when it does not). -/
def Res.state {α : Type} (r : Res α) (s : State) : State :=
  match r with
  | Res.ret _ t => t
  | _ => s

/-- The state a call leaves when it returns or goes to sleep (and `s` when it does
neither). -/
def Res.reached {α : Type} (r : Res α) (s : State) : State :=
  match r with
  | Res.ret _ t => t
  | Res.sleep _ t => t
  | _ => s

/-- The constant `NBUCKET` of bio.c. -/
def NBUCKET : Nat := 13

/-- A statically allocated, zero-initialised `struct buf`. -/
def zeroBuf : Buf :=
  { valid := false, dev := 0, blockno := 0, lock := none, refcnt := 0,
    prev := Ptr.null, next := Ptr.null, data := [] }

/-- Memory before `binit`: every static object is zero. -/
def boot (disk : Nat → Nat → Data) : State :=
  { mem := fun _ => zeroBuf, disk := disk, io := [] }

/-- A store to the `struct buf` at address `p`: it becomes `f` of what it was, and
nothing else in memory changes. -/
def State.upd (s : State) (p : Ptr) (f : Buf → Buf) : State :=
  { s with mem := fun q => if q = p then f (s.mem p) else s.mem q }

/-- Assignment `p->prev = q`. -/
def State.setPrev (s : State) (p q : Ptr) : State :=
  s.upd p (fun b => { b with prev := q })

/-- Assignment `p->next = q`. -/
def State.setNext (s : State) (p q : Ptr) : State :=
  s.upd p (fun b => { b with next := q })

/-- Assignment `p->refcnt = n`. -/
def State.setRefcnt (s : State) (p : Ptr) (n : Nat) : State :=
  s.upd p (fun b => { b with refcnt := n })

/-- Assignment `p->valid = v`. -/
def State.setValid (s : State) (p : Ptr) (v : Bool) : State :=
  s.upd p (fun b => { b with valid := v })

/-- Assignment `p->dev = d`. -/
def State.setDev (s : State) (p : Ptr) (d : Nat) : State :=
  s.upd p (fun b => { b with dev := d })

/-- Assignment `p->blockno = n`. -/
def State.setBlockno (s : State) (p : Ptr) (n : Nat) : State :=
  s.upd p (fun b => { b with blockno := n })

/-- The sleep-lock of `p` changes hands. -/
def State.setLock (s : State) (p : Ptr) (l : Option Nat) : State :=
  s.upd p (fun b => { b with lock := l })

/-- The bytes of `p->data` are overwritten. -/
def State.setData (s : State) (p : Ptr) (d : Data) : State :=
  s.upd p (fun b => { b with data := d })

/-- The value of `n - 1` in `uint` arithmetic: `(n - 1) mod 2^32` for every
`n < 2^32`. -/
def dec32 (n : Nat) : Nat := if n = 0 then 2 ^ 32 - 1 else n - 1

/-- The value of `n + 1` in `uint` arithmetic: `(n + 1) mod 2^32`. -/
def inc32 (n : Nat) : Nat := (n + 1) % 2 ^ 32

/-- Function `binit`: every bucket head is linked to itself, then the sleep-lock
of every pool buffer is initialised. -/
def binit (NBUF : Nat) (s : State) : State :=
  let s1 := (List.range NBUCKET).foldl
    (fun t i => (t.setPrev (Ptr.head i) (Ptr.head i)).setNext (Ptr.head i) (Ptr.head i)) s
  (List.range NBUF).foldl (fun t i => t.setLock (Ptr.buf i) none) s1

/-- Function `hash`. -/
def hash (blockno : Nat) : Nat := (blockno >>> 2) % NBUCKET

/-- Modelled from the spec: `holdingsleep` (sleeplock.c is not among the sources)
tells whether the calling process holds the sleep-lock of `b`. -/
def holdingsleep (pid : Nat) (s : State) (b : Ptr) : Bool :=
  (s.mem b).lock == some pid

/-- Modelled from the spec: `acquiresleep` (sleeplock.c is not among the sources).
A free lock is taken by the caller; on a lock that is held the caller is
suspended until it is released. -/
def acquiresleep (pid : Nat) (s : State) (b : Ptr) : Res Ptr :=
  match (s.mem b).lock with
  | none => Res.ret b (s.setLock b (some pid))
  | some _ => Res.sleep b s

/-- Modelled from the spec: `releasesleep` (sleeplock.c is not among the sources)
frees the sleep-lock of `b`. -/
def releasesleep (s : State) (b : Ptr) : State := s.setLock b none

/-- Modelled from the spec: the disk driver `virtio_disk_rw(b, write)` is an
external collaborator.  A read fills `b->data` with the block stored under the
key of `b`; a write stores `b->data` under that key.  Either is recorded. -/
def virtio_disk_rw (s : State) (b : Ptr) ( write : Bool) : State :=
  let k := s.mem b
  let op : DiskOp := { write := write, dev := k.dev, blockno := k.blockno }
  if write then
    { s with
      disk := fun d n => if d = k.dev ∧ n = k.blockno then k.data else s.disk d n,
      io := s.io ++ [op] }
  else
    { (s.setData b (s.disk k.dev k.blockno)) with io := s.io ++ [op] }

/-- The first loop of `bget`,
`for(b = head.next; b != &head; b = b->next) if(b->dev == dev && b->blockno == blockno)`,
started at `b` and run for at most `fuel` iterations: `some (some b)` when the
loop stops at a matching `b`, `some none` when it gets back to the head, `none`
when the iterations are used up. -/
def scan (s : State) (bucket dev blockno : Nat) : Nat → Ptr → Option (Option Ptr)
  | 0, _ => none
  | fuel + 1, b =>
    if b = Ptr.head bucket then some none
    else if (s.mem b).dev = dev ∧ (s.mem b).blockno = blockno then some (some b)
    else scan s bucket dev blockno fuel (s.mem b).next

/-- The second loop of `bget`,
`for(b = bufs.buf; b < bufs.buf + NBUF; ++b) if(b->refcnt == 0)`: the lowest
index of the pool whose buffer has `refcnt == 0`. -/
def firstFree (NBUF : Nat) (s : State) : Option Nat :=
  (List.range NBUF).find? (fun i => (s.mem (Ptr.buf i)).refcnt == 0)

/-- The body of the second loop of `bget` for the buffer it picked: the new key,
`valid = 0`, `refcnt = 1`, then the four assignments that put `b` behind the
head of the bucket. -/
def recycle (s : State) (bucket dev blockno : Nat) (b : Ptr) : State :=
  let s1 := s.setDev b dev
  let s2 := s1.setBlockno b blockno
  let s3 := s2.setValid b false
  let s4 := s3.setRefcnt b 1
  let s5 := s4.setNext b (s4.mem (Ptr.head bucket)).next
  let s6 := s5.setPrev b (Ptr.head bucket)
  let s7 := s6.setPrev (s6.mem (Ptr.head bucket)).next b
  s7.setNext (Ptr.head bucket) b

/-- Function `bget`.  A list of pool buffers that closes on its head has at most
`NBUF` members, so the walk is given `NBUF + 1` iterations; a walk that needs
more has met a pool buffer twice, and then goes round for ever, or has left the
pool.  Every theorem below that speaks of a bucket list assumes or proves that
the walk does end (`bucketList` is `some`). -/
def bget (NBUF pid : Nat) (s : State) (dev blockno : Nat) : Res Ptr :=
  let bucket := hash blockno
  match scan s bucket dev blockno (NBUF + 1) (s.mem (Ptr.head bucket)).next with
  | none => Res.diverge
  | some (some b) =>
    acquiresleep pid (s.setRefcnt b (inc32 (s.mem b).refcnt)) b
  | some none =>
    match firstFree NBUF s with
    | some i => acquiresleep pid (recycle s bucket dev blockno (Ptr.buf i)) (Ptr.buf i)
    | none => Res.panic "bget: no buffers"

/-- Function `bread`. -/
def bread (NBUF pid : Nat) (s : State) (dev blockno : Nat) : Res Ptr :=
  match bget NBUF pid s dev blockno with
  | Res.ret b s1 =>
    if !(s1.mem b).valid then
      Res.ret b ((virtio_disk_rw s1 b false).setValid b true)
    else Res.ret b s1
  | r => r

/-- Function `bwrite`. -/
def bwrite (pid : Nat) (s : State) (b : Ptr) : Res Unit :=
  if !holdingsleep pid s b then Res.panic "bwrite"
  else Res.ret () (virtio_disk_rw s b true)

/-- Function `brelse`. -/
def brelse (pid : Nat) (s : State) (b : Ptr) : Res Unit :=
  if !holdingsleep pid s b then Res.panic "brelse"
  else
    let s1 := releasesleep s b
    let refcnt := dec32 (s1.mem b).refcnt
    let s3 :=
      if refcnt = 0 then
        let s2 := s1.setPrev (s1.mem b).next (s1.mem b).prev
        s2.setNext (s2.mem b).prev (s2.mem b).next
      else s1
    Res.ret () (s3.setRefcnt b refcnt)

/-- Function `bpin`. -/
def bpin (s : State) (b : Ptr) : State :=
  s.setRefcnt b (inc32 (s.mem b).refcnt)

/-- Function `bunpin`. -/
def bunpin (s : State) (b : Ptr) : Res Unit :=
  let s1 := s.setRefcnt b (dec32 (s.mem b).refcnt)
  if (s1.mem b).refcnt = 0 then Res.panic "Not supposed to be zero!!"
  else Res.ret () s1

/-- The list of bucket `bucket` as the first loop of `bget` walks it: the nodes
met from `b` on by following `next` until the head of the bucket, within `fuel`
steps. -/
def walk (s : State) (bucket : Nat) : Nat → Ptr → Option (List Ptr)
  | 0, _ => none
  | fuel + 1, b =>
    if b = Ptr.head bucket then some []
    else (walk s bucket fuel (s.mem b).next).map (fun l => b :: l)

/-- The list of bucket `k`, from `head.next` round to the head again, walked with
the iterations `bget` is given. -/
def bucketList (NBUF : Nat) (s : State) (k : Nat) : Option (List Ptr) :=
  walk s k (NBUF + 1) (s.mem (Ptr.head k)).next

/-- Whether the buffer at `p` carries the key `(dev, blockno)`: the test of the
first loop of `bget`. -/
def hasKey (s : State) (dev blockno : Nat) (p : Ptr) : Prop :=
  (s.mem p).dev = dev ∧ (s.mem p).blockno = blockno

instance (s : State) (dev blockno : Nat) : DecidablePred (hasKey s dev blockno) :=
  fun p => by unfold hasKey; exact inferInstance

/-- The number of calls `virtio_disk_rw(b, 0)` made so far. -/
def diskReads (s : State) : Nat := (s.io.filter (fun op => !op.write)).length

/-- The call `bread(dev, blockno)` followed by `brelse` of the buffer it returned;
the value is the data of that buffer while the caller held it. -/
def readRelease (NBUF pid : Nat) (s : State) (dev blockno : Nat) : Res Data :=
  match bread NBUF pid s dev blockno with
  | Res.ret b s1 =>
    match brelse pid s1 b with
    | Res.ret _ s2 => Res.ret (s1.mem b).data s2
    | Res.sleep c t => Res.sleep c t
    | Res.panic m => Res.panic m
    | Res.diverge => Res.diverge
  | Res.sleep c t => Res.sleep c t
  | Res.panic m => Res.panic m
  | Res.diverge => Res.diverge

/-- The scenario of the specification: a pool of 4 buffers, 13 buckets, block 5
of device 0 read three times with a release after each read, starting from the
state `binit` leaves.  The value is the data of the three buffers returned. -/
def scenario (pid : Nat) (disk : Nat → Nat → Data) : Res (List Data) :=
  match readRelease 4 pid (binit 4 (boot disk)) 0 5 with
  | Res.ret d1 s1 =>
    match readRelease 4 pid s1 0 5 with
    | Res.ret d2 s2 =>
      match readRelease 4 pid s2 0 5 with
      | Res.ret d3 s3 => Res.ret [d1, d2, d3] s3
      | Res.sleep c t => Res.sleep c t
      | Res.panic m => Res.panic m
      | Res.diverge => Res.diverge
    | Res.sleep c t => Res.sleep c t
    | Res.panic m => Res.panic m
    | Res.diverge => Res.diverge
  | Res.sleep c t => Res.sleep c t
  | Res.panic m => Res.panic m
  | Res.diverge => Res.diverge

/-- The states the cache goes through when its calls run to completion one after
the other and no reference count wraps around: the state `binit` leaves on
zeroed memory, and from there every completed call of `bread`, and of `brelse`,
`bwrite`, `bpin`, `bunpin` on a buffer whose sleep-lock the caller holds; the
holder of a buffer may also overwrite its `data`.  An increment of `refcnt` (in
`bpin`, and in a `bread` that finds the block cached) is only ever applied to a
`refcnt` below `2^32 - 1`, the largest value of the field. -/
inductive Reachable (NBUF : Nat) : State → Prop where
  | init (disk : Nat → Nat → Data) : Reachable NBUF (binit NBUF (boot disk))
  | bread {s s1 : State} (pid dev blockno : Nat) (b : Ptr) :
      Reachable NBUF s → bread NBUF pid s dev blockno = Res.ret b s1 →
      (s.mem b).refcnt < 2 ^ 32 - 1 → Reachable NBUF s1
  | brelse {s s1 : State} (pid : Nat) (b : Ptr) :
      Reachable NBUF s → brelse pid s b = Res.ret () s1 → Reachable NBUF s1
  | bwrite {s s1 : State} (pid : Nat) (b : Ptr) :
      Reachable NBUF s → bwrite pid s b = Res.ret () s1 → Reachable NBUF s1
  | bpin {s : State} (pid : Nat) (b : Ptr) :
      Reachable NBUF s → holdingsleep pid s b = true → (s.mem b).refcnt < 2 ^ 32 - 1 →
      Reachable NBUF (bpin s b)
  | bunpin {s s1 : State} (pid : Nat) (b : Ptr) :
      Reachable NBUF s → holdingsleep pid s b = true → bunpin s b = Res.ret () s1 →
      Reachable NBUF s1
  | modify {s : State} (pid : Nat) (b : Ptr) (d : Data) :
      Reachable NBUF s → holdingsleep pid s b = true → Reachable NBUF (s.setData b d)

/-- The call `bpin(b)` made `n` times in a row. -/
def pins : Nat → State → Ptr → State
  | 0, s, _ => s
  | n + 1, s, b => bpin (pins n s b) b

/-- A call of `bread` that went to sleep in `acquiresleep` on the lock of `b` is
resumed, once that lock is free again: `acquiresleep` takes the lock, `bget`
returns `b`, and `bread` goes on from there. -/
def breadWake (pid : Nat) (s : State) (b : Ptr) : Res Ptr :=
  match acquiresleep pid s b with
  | Res.ret c s1 =>
    if !(s1.mem c).valid then
      Res.ret c ((virtio_disk_rw s1 c false).setValid c true)
    else Res.ret c s1
  | r => r

/-- The states the cache goes through when several processes use it and no
reference count wraps around, together with the number `S b` of calls of `bread`
that are asleep on the lock of `b` and the number `P b` of calls of `bpin(b)` not
yet undone by a `bunpin(b)`.  A call runs to completion once it has started,
except that a `bread` that finds the lock of its buffer held goes to sleep, in
the state of that moment, and is resumed later (`breadWake`).  `brelse`, `bwrite`
and `bpin` are called on a buffer whose sleep-lock the caller holds, and so is
`bunpin`, to undo an earlier `bpin`; the holder of a buffer may also overwrite
its `data`. -/
inductive Run (NBUF : Nat) : State → (Ptr → Nat) → (Ptr → Nat) → Prop where
  | init (disk : Nat → Nat → Data) :
      Run NBUF (binit NBUF (boot disk)) (fun _ => 0) (fun _ => 0)
  | bread {s s1 : State} {S P : Ptr → Nat} (pid dev blockno : Nat) (b : Ptr) :
      Run NBUF s S P → bread NBUF pid s dev blockno = Res.ret b s1 →
      (s.mem b).refcnt < 2 ^ 32 - 1 → Run NBUF s1 S P
  | sleep {s s1 : State} {S P : Ptr → Nat} (pid dev blockno : Nat) (b : Ptr) :
      Run NBUF s S P → bread NBUF pid s dev blockno = Res.sleep b s1 →
      (s.mem b).refcnt < 2 ^ 32 - 1 → Run NBUF s1 (Function.update S b (S b + 1)) P
  | wake {s s1 : State} {S P : Ptr → Nat} (pid : Nat) (b : Ptr) :
      Run NBUF s S P → 0 < S b → breadWake pid s b = Res.ret b s1 →
      Run NBUF s1 (Function.update S b (S b - 1)) P
  | brelse {s s1 : State} {S P : Ptr → Nat} (pid : Nat) (b : Ptr) :
      Run NBUF s S P → brelse pid s b = Res.ret () s1 → Run NBUF s1 S P
  | bwrite {s s1 : State} {S P : Ptr → Nat} (pid : Nat) (b : Ptr) :
      Run NBUF s S P → bwrite pid s b = Res.ret () s1 → Run NBUF s1 S P
  | bpin {s : State} {S P : Ptr → Nat} (pid : Nat) (b : Ptr) :
      Run NBUF s S P → holdingsleep pid s b = true → (s.mem b).refcnt < 2 ^ 32 - 1 →
      Run NBUF (bpin s b) S (Function.update P b (P b + 1))
  | bunpin {s s1 : State} {S P : Ptr → Nat} (pid : Nat) (b : Ptr) :
      Run NBUF s S P → holdingsleep pid s b = true → 0 < P b →
      bunpin s b = Res.ret () s1 → Run NBUF s1 S (Function.update P b (P b - 1))
  | modify {s : State} {S P : Ptr → Nat} (pid : Nat) (b : Ptr) (d : Data) :
      Run NBUF s S P → holdingsleep pid s b = true → Run NBUF (s.setData b d) S P

/-! ### The shape of the bucket lists -/

/-- Nodes `a` and `b` are neighbours: `a->next == b` and `b->prev == a`. -/
def Linked (s : State) (a b : Ptr) : Prop :=
  (s.mem a).next = b ∧ (s.mem b).prev = a

/-- From node `a` the pool buffers with indices `l` follow in this order, each
linked to the next, and the last one is linked to `h`. -/
def ChainFrom (s : State) (h : Ptr) : Ptr → List Nat → Prop
  | a, [] => Linked s a h
  | a, i :: l => Linked s a (Ptr.buf i) ∧ ChainFrom s h (Ptr.buf i) l

/-- The representation invariant of the cache, for the bucket contents `L`:
bucket `k` is the circular list of the buffers `L k`, without repetition; a
buffer is in the list of the bucket its block number hashes to exactly when its
`refcnt` is positive; referenced buffers have distinct keys and valid data; a
sleep-lock is only ever held on a referenced buffer of the pool. -/
structure Inv (NBUF : Nat) (s : State) (L : Nat → List Nat) : Prop where
  chain : ∀ k, k < NBUCKET → ChainFrom s (Ptr.head k) (Ptr.head k) (L k)
  nodup : ∀ k, k < NBUCKET → (L k).Nodup
  lt : ∀ k, k < NBUCKET → ∀ i ∈ L k, i < NBUF
  home : ∀ k, k < NBUCKET → ∀ i ∈ L k, hash (s.mem (Ptr.buf i)).blockno = k
  pos : ∀ k, k < NBUCKET → ∀ i ∈ L k, 0 < (s.mem (Ptr.buf i)).refcnt
  listed : ∀ i, i < NBUF → 0 < (s.mem (Ptr.buf i)).refcnt →
    i ∈ L (hash (s.mem (Ptr.buf i)).blockno)
  uniq : ∀ i j, i < NBUF → j < NBUF →
    0 < (s.mem (Ptr.buf i)).refcnt → 0 < (s.mem (Ptr.buf j)).refcnt →
    (s.mem (Ptr.buf i)).dev = (s.mem (Ptr.buf j)).dev →
    (s.mem (Ptr.buf i)).blockno = (s.mem (Ptr.buf j)).blockno → i = j
  lock : ∀ p, (s.mem p).lock ≠ none →
    ∃ i, i < NBUF ∧ p = Ptr.buf i ∧ 0 < (s.mem p).refcnt
  valid : ∀ i, i < NBUF → 0 < (s.mem (Ptr.buf i)).refcnt → (s.mem (Ptr.buf i)).valid = true

/-! ### Concrete states, on which the theorems below are exercised -/

/-- A disk on which block `n` of device `d` holds the bytes `d, n, 7`. -/
def disk0 : Nat → Nat → Data := fun d n => [d, n, 7]

/-- A pool of 4 buffers right after `binit`. -/
def st0 : State := binit 4 (boot disk0)

/-- The state `st0` after process 1 has called `bread(0, 5)`: it holds buffer 0. -/
def st1 : State := (bread 4 1 st0 0 5).state st0

/-- The state `st1` after process 2 has called `bget(0, 9)`; it holds buffer 1. -/
def st2 : State := (bget 4 2 st1 0 9).state st1

/-- The state `st1` after process 2 has called `bread(0, 9)`; it holds buffer 1. -/
def st3 : State := (bread 4 2 st1 0 9).state st1

/-- The state `st3` after processes 3 and 4 have called `bread(0, 13)` and
`bread(0, 17)`: all 4 buffers of the pool are referenced. -/
def st5 : State :=
  (bread 4 4 ((bread 4 3 st3 0 13).state st3) 0 17).state st3

/-- The state `st1` after process 1 has released buffer 0: the pool is as `binit`
left it, but for the key and the data buffer 0 still carries. -/
def st1r : State := (brelse 1 st1 (Ptr.buf 0)).state st1

/-- The state `st1` after process 1 has pinned buffer 0 once and released it:
buffer 0 stays in its list, unlocked, with `refcnt = 1` and valid data. -/
def st1h : State := (brelse 1 (bpin st1 (Ptr.buf 0)) (Ptr.buf 0)).state st1

/-- The state `st1` after process 1 has pinned buffer 0 `2^32 - 1` times, which
takes `refcnt` from 1 round to 0, and released it, which takes `refcnt` from 0
to `2^32 - 1`: buffer 0 is in its list, unlocked, with the largest `refcnt`. -/
def stTop : State := (brelse 1 (st1.setRefcnt (Ptr.buf 0) 0) (Ptr.buf 0)).state st1

/-- The state `st1` after process 2 has called `bread(0, 5)` and gone to sleep on
the lock of buffer 0, which process 1 holds: `refcnt` of buffer 0 is 2. -/
def stA : State := (bread 4 2 st1 0 5).reached st1

/-- The state `stA` after process 1 has called `bunpin` on buffer 0, which it has
never pinned: `refcnt` of buffer 0 is 1. -/
def stB : State := (bunpin stA (Ptr.buf 0)).state stA

/-- The state `stB` after process 1 has released buffer 0: `refcnt` is 0 and the
buffer is out of its list. -/
def stC : State := (brelse 1 stB (Ptr.buf 0)).state stB

/-- The state `stC` after the `bread` of process 2 has been resumed and has
returned buffer 0. -/
def stD : State := (breadWake 2 stC (Ptr.buf 0)).state stC

/-- The state `stD` after process 2 has pinned buffer 0, which it holds. -/
def stE : State := bpin stD (Ptr.buf 0)

/-- The state `stE` after process 3 has called `bread(0, 5)`: it holds buffer 1. -/
def stF : State := (bread 4 3 stE 0 5).state stE

end Bio

/-!
# xv6 physical page allocator (kernel/kalloc.c): a shallow embedding

The C state of `kalloc.c` is the array `kmem[NCPU]` of free-list heads and the
physical memory in which the free pages themselves carry the `next` pointers.
Memory is embedded byte by byte, `r->next` is the 8-byte little-endian word at
address `r`, and a free list is whatever the chain of these words is.

Conventions.
* The spin locks `kmem[i].lock` delimit critical sections that are executed
  atomically here.
* `lk_cpuid()` is the index of the calling CPU; it is an argument of `kfree` and
  `kalloc`.
* `NCPU` (param.h), `PHYSTOP` (memlayout.h) and the linker symbol `end` (here
  `kend`) are not part of the sources and are parameters.
* Addresses are natural numbers below `2^64`.  The sums `p + PGSIZE` and
  `cpuid++` of `freerange` and the sum inside `PGROUNDUP` are taken modulo
  `2^64`, as 64-bit arithmetic does.
-/

namespace Kalloc

/-- The state `kalloc.c` works on: physical memory, one byte per address, and
`kmem[i].freelist` for every `i` (address 0 is the null pointer). -/
structure KState where
  mem : Nat → Nat
  freelist : Nat → Nat

/-- What a call does: it returns a value and leaves a state; it stops the kernel
with `panic(msg)`, in the state of that moment; or its loop never ends. -/
inductive KRes (α : Type) where
  | ret (a : α) (s : KState) : KRes α
  | panic (msg : String) (s : KState) : KRes α
  | diverge : KRes α

/-- The state a call leaves when it returns (and `s` when it does not). -/
def KRes.state {α : Type} (r : KRes α) (s : KState) : KState :=
  match r with
  | KRes.ret _ t => t
  | _ => s

/-- The size of a page; kalloc.c "allocates whole 4096-byte pages". -/
def PGSIZE : Nat := 4096

/-- Modelled from the spec: the macro `PGROUNDUP` (riscv.h is not among the
sources) rounds an address up to page alignment: it adds `PGSIZE - 1`, in
`uint64` arithmetic, and clears the low bits. -/
def PGROUNDUP (sz : Nat) : Nat := (sz + PGSIZE - 1) % 2 ^ 64 / PGSIZE * PGSIZE

/-- Library function `memset(dst, c, n)`. -/
def memset (s : KState) (dst c n : Nat) : KState :=
  { s with mem := fun x => if dst ≤ x ∧ x < dst + n then c else s.mem x }

/-- The pointer stored at address `r`, that is `((struct run*)r)->next`: eight
bytes, least significant first. -/
def load64 (mem : Nat → Nat) (r : Nat) : Nat :=
  mem r + 2 ^ 8 * mem (r + 1) + 2 ^ 16 * mem (r + 2) + 2 ^ 24 * mem (r + 3) +
    2 ^ 32 * mem (r + 4) + 2 ^ 40 * mem (r + 5) + 2 ^ 48 * mem (r + 6) + 2 ^ 56 * mem (r + 7)

/-- Assignment `((struct run*)r)->next = v`. -/
def store64 (s : KState) (r v : Nat) : KState :=
  { s with mem := fun x => if r ≤ x ∧ x < r + 8 then v / 2 ^ (8 * (x - r)) % 256 else s.mem x }

/-- Assignment `kmem[i].freelist = v`. -/
def KState.setFreelist (s : KState) (i v : Nat) : KState :=
  { s with freelist := fun j => if j = i then v else s.freelist j }

/-- The statements of `kfreehelper` after its check: fill the page with the byte
1, store the old head of list `icpu` in the page, make the page the head. -/
def pushPage (s : KState) (pa icpu : Nat) : KState :=
  let s1 := memset s pa 1 PGSIZE
  let s2 := store64 s1 pa (s1.freelist icpu)
  s2.setFreelist icpu pa

/-- Function `kfreehelper`. -/
def kfreehelper (kend PHYSTOP : Nat) (s : KState) (pa icpu : Nat) : KRes Unit :=
  if pa % PGSIZE ≠ 0 ∨ pa < kend ∨ pa ≥ PHYSTOP then KRes.panic "kfree" s
  else KRes.ret () (pushPage s pa icpu)

/-- Function `kfree`, called on CPU `cpu`. -/
def kfree (kend PHYSTOP cpu : Nat) (s : KState) (pa : Nat) : KRes Unit :=
  kfreehelper kend PHYSTOP s pa cpu

/-- The loop of `freerange`, `for(; p + PGSIZE <= pa_end; p += PGSIZE)`, run for at
most `fuel` tests of its condition. -/
def freerangeLoop (NCPU kend PHYSTOP pa_end : Nat) : Nat → Nat → Nat → KState → KRes Unit
  | 0, _, _, _ => KRes.diverge
  | fuel + 1, p, cpuid, s =>
    if (p + PGSIZE) % 2 ^ 64 ≤ pa_end then
      match kfreehelper kend PHYSTOP s p (cpuid % NCPU) with
      | KRes.ret _ s1 =>
        freerangeLoop NCPU kend PHYSTOP pa_end fuel ((p + PGSIZE) % 2 ^ 64)
          ((cpuid + 1) % 2 ^ 64) s1
      | KRes.panic m t => KRes.panic m t
      | KRes.diverge => KRes.diverge
    else KRes.ret () s

/-- Function `freerange`.  The pointer `p` is a multiple of `PGSIZE` below `2^64`,
one of `2^52` values, and whether the loop goes on only depends on `p`: a loop
that has tested its condition `2^52 + 1` times never ends. -/
def freerange (NCPU kend PHYSTOP : Nat) (s : KState) (pa_start pa_end : Nat) : KRes Unit :=
  freerangeLoop NCPU kend PHYSTOP pa_end (2 ^ 52 + 1) (PGROUNDUP pa_start) 0 s

/-- Function `kinit`. -/
def kinit (NCPU kend PHYSTOP : Nat) (s : KState) : KRes Unit :=
  freerange NCPU kend PHYSTOP s kend PHYSTOP

/-- The stealing loop of `kalloc`,
`for(int i = (id + 1) % NCPU; i != id; i = (i + 1) % NCPU)`, from index `i` on and
for at most `fuel` tests of its condition.  The value is the `r` the loop ends
with, 0 when it found every list empty. -/
def steal (NCPU id : Nat) : Nat → Nat → KState → Option (Nat × KState)
  | 0, _, _ => none
  | fuel + 1, i, s =>
    if i = id then some (0, s)
    else if s.freelist i ≠ 0 then
      some (s.freelist i, s.setFreelist i (load64 s.mem (s.freelist i)))
    else steal NCPU id fuel ((i + 1) % NCPU) s

/-- Function `kalloc`, called on CPU `id`.  The stealing loop is given `NCPU` tests
of its condition: one for each other list and one to stop. -/
def kalloc (NCPU id : Nat) (s : KState) : KRes Nat :=
  if s.freelist id ≠ 0 then
    KRes.ret (s.freelist id)
      (memset (s.setFreelist id (load64 s.mem (s.freelist id))) (s.freelist id) 5 PGSIZE)
  else
    match steal NCPU id NCPU ((id + 1) % NCPU) s with
    | none => KRes.diverge
    | some (r, s1) => if r ≠ 0 then KRes.ret r (memset s1 r 5 PGSIZE) else KRes.ret 0 s1

/-- A sequence of calls of `kalloc`, one on each CPU of `cpus`, with nothing in
between; the value is the list of the results. -/
def kallocs (NCPU : Nat) : List Nat → KState → KRes (List Nat)
  | [], s => KRes.ret [] s
  | c :: cs, s =>
    match kalloc NCPU c s with
    | KRes.ret r s1 =>
      match kallocs NCPU cs s1 with
      | KRes.ret rs s2 => KRes.ret (r :: rs) s2
      | KRes.panic m t => KRes.panic m t
      | KRes.diverge => KRes.diverge
    | KRes.panic m t => KRes.panic m t
    | KRes.diverge => KRes.diverge

/-! ### The free lists -/

/-- The chain that starts at pointer `h` is the list of pages `l`: each page is
non-null and holds the pointer to the next, and the last holds null. -/
def ListAt (mem : Nat → Nat) : Nat → List Nat → Prop
  | h, [] => h = 0
  | h, p :: l => h = p ∧ p ≠ 0 ∧ ListAt mem (load64 mem p) l

instance ListAt.decidable (mem : Nat → Nat) : ∀ (l : List Nat) (h : Nat), Decidable (ListAt mem h l)
  | [], h => by unfold ListAt; exact inferInstance
  | p :: l, h => by
    unfold ListAt
    have := ListAt.decidable mem l (load64 mem p)
    exact inferInstance

/-- A page frame: a page-aligned, non-null address of 64 bits. -/
def IsPage (p : Nat) : Prop := p % PGSIZE = 0 ∧ p ≠ 0 ∧ p < 2 ^ 64

instance (p : Nat) : Decidable (IsPage p) := by unfold IsPage; exact inferInstance

/-- The representation invariant of the allocator, for the list contents `L`: the
chain of `kmem[i].freelist` is the list `L i` of page frames, no page occurs twice
in a list, and no page is in two lists. -/
structure Rep (NCPU : Nat) (s : KState) (L : Nat → List Nat) : Prop where
  list : ∀ i, i < NCPU → ListAt s.mem (s.freelist i) (L i)
  page : ∀ i, i < NCPU → ∀ p ∈ L i, IsPage p
  nodup : ∀ i, i < NCPU → (L i).Nodup
  disjoint : ∀ i, i < NCPU → ∀ j, j < NCPU → i ≠ j → ∀ p ∈ L i, p ∉ L j

/-- The number of free pages over all lists. -/
def total (NCPU : Nat) (L : Nat → List Nat) : Nat :=
  ((List.range NCPU).map (fun i => (L i).length)).sum

/-- The pages `p0 + j * PGSIZE`, `j < n`, that `freerange` puts on list `i`: those
with `j % NCPU = i`, the last freed first. -/
def sharePages (NCPU p0 n i : Nat) : List Nat :=
  (((List.range n).filter (fun j => j % NCPU = i)).reverse).map (fun j => p0 + j * PGSIZE)

/-- The state after the `m` pages `p, p + PGSIZE, ...` have been pushed one after
the other, the `j`-th of them onto list `(cpuid + j) % NCPU`. -/
def pushRange (NCPU : Nat) : Nat → Nat → Nat → KState → KState
  | 0, _, _, s => s
  | m + 1, p, cpuid, s => pushRange NCPU m (p + PGSIZE) (cpuid + 1) (pushPage s p (cpuid % NCPU))

/-! ### Concrete states, on which the theorems below are exercised -/

/-- Memory before `kinit`: every list is empty and every byte is 0. -/
def kboot : KState := { mem := fun _ => 0, freelist := fun _ => 0 }

/-- Two CPUs and the four pages `0x1000 .. 0x4000` (`end = 0x1000`,
`PHYSTOP = 0x5000`) after `kinit`. -/
def ks0 : KState := (kinit 2 4096 20480 kboot).state kboot

/-- The state `ks0` after page `0x1000`, which is free in it, has been freed again
on CPU 0. -/
def ks1 : KState := (kfree 4096 20480 0 ks0 4096).state ks0

/-- The state `ks1` after a call of `kalloc` on CPU 0. -/
def ks2 : KState := (kalloc 2 0 ks1).state ks1

/-- The state `ks0` after page `0x2000`, which is free on list 1, has been freed
onto list 0. -/
def ks3 : KState := (kfreehelper 4096 20480 ks0 8192 0).state ks0

/-- The state `ks0` after a call of `kalloc` on CPU 0. -/
def ks4 : KState := (kalloc 2 0 ks0).state ks0

end Kalloc

/-! # Theorems about the buffer cache -/

namespace Bio

/-! ## Memory: what each assignment leaves in each field -/

@[simp] theorem valid_setValid (s : State) (p q : Ptr) (v : Bool) :
    ((s.setValid p v).mem q).valid = if q = p then v else (s.mem q).valid := by
  simp only [State.setValid, State.upd]; split_ifs <;> rfl

@[simp] theorem dev_setValid (s : State) (p q : Ptr) (v : Bool) :
    ((s.setValid p v).mem q).dev = (s.mem q).dev := by
  simp only [State.setValid, State.upd]; split_ifs with h <;> [(subst h; rfl); rfl]

@[simp] theorem blockno_setValid (s : State) (p q : Ptr) (v : Bool) :
    ((s.setValid p v).mem q).blockno = (s.mem q).blockno := by
  simp only [State.setValid, State.upd]; split_ifs with h <;> [(subst h; rfl); rfl]

@[simp] theorem lock_setValid (s : State) (p q : Ptr) (v : Bool) :
    ((s.setValid p v).mem q).lock = (s.mem q).lock := by
  simp only [State.setValid, State.upd]; split_ifs with h <;> [(subst h; rfl); rfl]

@[simp] theorem refcnt_setValid (s : State) (p q : Ptr) (v : Bool) :
    ((s.setValid p v).mem q).refcnt = (s.mem q).refcnt := by
  simp only [State.setValid, State.upd]; split_ifs with h <;> [(subst h; rfl); rfl]

@[simp] theorem prev_setValid (s : State) (p q : Ptr) (v : Bool) :
    ((s.setValid p v).mem q).prev = (s.mem q).prev := by
  simp only [State.setValid, State.upd]; split_ifs with h <;> [(subst h; rfl); rfl]

@[simp] theorem next_setValid (s : State) (p q : Ptr) (v : Bool) :
    ((s.setValid p v).mem q).next = (s.mem q).next := by
  simp only [State.setValid, State.upd]; split_ifs with h <;> [(subst h; rfl); rfl]

@[simp] theorem data_setValid (s : State) (p q : Ptr) (v : Bool) :
    ((s.setValid p v).mem q).data = (s.mem q).data := by
  simp only [State.setValid, State.upd]; split_ifs with h <;> [(subst h; rfl); rfl]

@[simp] theorem disk_setValid (s : State) (p : Ptr) (v : Bool) : (s.setValid p v).disk = s.disk := rfl

@[simp] theorem io_setValid (s : State) (p : Ptr) (v : Bool) : (s.setValid p v).io = s.io := rfl

@[simp] theorem valid_setDev (s : State) (p q : Ptr) (v : Nat) :
    ((s.setDev p v).mem q).valid = (s.mem q).valid := by
  simp only [State.setDev, State.upd]; split_ifs with h <;> [(subst h; rfl); rfl]

@[simp] theorem dev_setDev (s : State) (p q : Ptr) (v : Nat) :
    ((s.setDev p v).mem q).dev = if q = p then v else (s.mem q).dev := by
  simp only [State.setDev, State.upd]; split_ifs <;> rfl

@[simp] theorem blockno_setDev (s : State) (p q : Ptr) (v : Nat) :
    ((s.setDev p v).mem q).blockno = (s.mem q).blockno := by
  simp only [State.setDev, State.upd]; split_ifs with h <;> [(subst h; rfl); rfl]

@[simp] theorem lock_setDev (s : State) (p q : Ptr) (v : Nat) :
    ((s.setDev p v).mem q).lock = (s.mem q).lock := by
  simp only [State.setDev, State.upd]; split_ifs with h <;> [(subst h; rfl); rfl]

@[simp] theorem refcnt_setDev (s : State) (p q : Ptr) (v : Nat) :
    ((s.setDev p v).mem q).refcnt = (s.mem q).refcnt := by
  simp only [State.setDev, State.upd]; split_ifs with h <;> [(subst h; rfl); rfl]

@[simp] theorem prev_setDev (s : State) (p q : Ptr) (v : Nat) :
    ((s.setDev p v).mem q).prev = (s.mem q).prev := by
  simp only [State.setDev, State.upd]; split_ifs with h <;> [(subst h; rfl); rfl]

@[simp] theorem next_setDev (s : State) (p q : Ptr) (v : Nat) :
    ((s.setDev p v).mem q).next = (s.mem q).next := by
  simp only [State.setDev, State.upd]; split_ifs with h <;> [(subst h; rfl); rfl]

@[simp] theorem data_setDev (s : State) (p q : Ptr) (v : Nat) :
    ((s.setDev p v).mem q).data = (s.mem q).data := by
  simp only [State.setDev, State.upd]; split_ifs with h <;> [(subst h; rfl); rfl]

@[simp] theorem disk_setDev (s : State) (p : Ptr) (v : Nat) : (s.setDev p v).disk = s.disk := rfl

@[simp] theorem io_setDev (s : State) (p : Ptr) (v : Nat) : (s.setDev p v).io = s.io := rfl

@[simp] theorem valid_setBlockno (s : State) (p q : Ptr) (v : Nat) :
    ((s.setBlockno p v).mem q).valid = (s.mem q).valid := by
  simp only [State.setBlockno, State.upd]; split_ifs with h <;> [(subst h; rfl); rfl]

@[simp] theorem dev_setBlockno (s : State) (p q : Ptr) (v : Nat) :
    ((s.setBlockno p v).mem q).dev = (s.mem q).dev := by
  simp only [State.setBlockno, State.upd]; split_ifs with h <;> [(subst h; rfl); rfl]

@[simp] theorem blockno_setBlockno (s : State) (p q : Ptr) (v : Nat) :
    ((s.setBlockno p v).mem q).blockno = if q = p then v else (s.mem q).blockno := by
  simp only [State.setBlockno, State.upd]; split_ifs <;> rfl

@[simp] theorem lock_setBlockno (s : State) (p q : Ptr) (v : Nat) :
    ((s.setBlockno p v).mem q).lock = (s.mem q).lock := by
  simp only [State.setBlockno, State.upd]; split_ifs with h <;> [(subst h; rfl); rfl]

@[simp] theorem refcnt_setBlockno (s : State) (p q : Ptr) (v : Nat) :
    ((s.setBlockno p v).mem q).refcnt = (s.mem q).refcnt := by
  simp only [State.setBlockno, State.upd]; split_ifs with h <;> [(subst h; rfl); rfl]

@[simp] theorem prev_setBlockno (s : State) (p q : Ptr) (v : Nat) :
    ((s.setBlockno p v).mem q).prev = (s.mem q).prev := by
  simp only [State.setBlockno, State.upd]; split_ifs with h <;> [(subst h; rfl); rfl]

@[simp] theorem next_setBlockno (s : State) (p q : Ptr) (v : Nat) :
    ((s.setBlockno p v).mem q).next = (s.mem q).next := by
  simp only [State.setBlockno, State.upd]; split_ifs with h <;> [(subst h; rfl); rfl]

@[simp] theorem data_setBlockno (s : State) (p q : Ptr) (v : Nat) :
    ((s.setBlockno p v).mem q).data = (s.mem q).data := by
  simp only [State.setBlockno, State.upd]; split_ifs with h <;> [(subst h; rfl); rfl]

@[simp] theorem disk_setBlockno (s : State) (p : Ptr) (v : Nat) : (s.setBlockno p v).disk = s.disk := rfl

@[simp] theorem io_setBlockno (s : State) (p : Ptr) (v : Nat) : (s.setBlockno p v).io = s.io := rfl

@[simp] theorem valid_setLock (s : State) (p q : Ptr) (v : Option Nat) :
    ((s.setLock p v).mem q).valid = (s.mem q).valid := by
  simp only [State.setLock, State.upd]; split_ifs with h <;> [(subst h; rfl); rfl]

@[simp] theorem dev_setLock (s : State) (p q : Ptr) (v : Option Nat) :
    ((s.setLock p v).mem q).dev = (s.mem q).dev := by
  simp only [State.setLock, State.upd]; split_ifs with h <;> [(subst h; rfl); rfl]

@[simp] theorem blockno_setLock (s : State) (p q : Ptr) (v : Option Nat) :
    ((s.setLock p v).mem q).blockno = (s.mem q).blockno := by
  simp only [State.setLock, State.upd]; split_ifs with h <;> [(subst h; rfl); rfl]

@[simp] theorem lock_setLock (s : State) (p q : Ptr) (v : Option Nat) :
    ((s.setLock p v).mem q).lock = if q = p then v else (s.mem q).lock := by
  simp only [State.setLock, State.upd]; split_ifs <;> rfl

@[simp] theorem refcnt_setLock (s : State) (p q : Ptr) (v : Option Nat) :
    ((s.setLock p v).mem q).refcnt = (s.mem q).refcnt := by
  simp only [State.setLock, State.upd]; split_ifs with h <;> [(subst h; rfl); rfl]

@[simp] theorem prev_setLock (s : State) (p q : Ptr) (v : Option Nat) :
    ((s.setLock p v).mem q).prev = (s.mem q).prev := by
  simp only [State.setLock, State.upd]; split_ifs with h <;> [(subst h; rfl); rfl]

@[simp] theorem next_setLock (s : State) (p q : Ptr) (v : Option Nat) :
    ((s.setLock p v).mem q).next = (s.mem q).next := by
  simp only [State.setLock, State.upd]; split_ifs with h <;> [(subst h; rfl); rfl]

@[simp] theorem data_setLock (s : State) (p q : Ptr) (v : Option Nat) :
    ((s.setLock p v).mem q).data = (s.mem q).data := by
  simp only [State.setLock, State.upd]; split_ifs with h <;> [(subst h; rfl); rfl]

@[simp] theorem disk_setLock (s : State) (p : Ptr) (v : Option Nat) : (s.setLock p v).disk = s.disk := rfl

@[simp] theorem io_setLock (s : State) (p : Ptr) (v : Option Nat) : (s.setLock p v).io = s.io := rfl

@[simp] theorem valid_setRefcnt (s : State) (p q : Ptr) (v : Nat) :
    ((s.setRefcnt p v).mem q).valid = (s.mem q).valid := by
  simp only [State.setRefcnt, State.upd]; split_ifs with h <;> [(subst h; rfl); rfl]

@[simp] theorem dev_setRefcnt (s : State) (p q : Ptr) (v : Nat) :
    ((s.setRefcnt p v).mem q).dev = (s.mem q).dev := by
  simp only [State.setRefcnt, State.upd]; split_ifs with h <;> [(subst h; rfl); rfl]

@[simp] theorem blockno_setRefcnt (s : State) (p q : Ptr) (v : Nat) :
    ((s.setRefcnt p v).mem q).blockno = (s.mem q).blockno := by
  simp only [State.setRefcnt, State.upd]; split_ifs with h <;> [(subst h; rfl); rfl]

@[simp] theorem lock_setRefcnt (s : State) (p q : Ptr) (v : Nat) :
    ((s.setRefcnt p v).mem q).lock = (s.mem q).lock := by
  simp only [State.setRefcnt, State.upd]; split_ifs with h <;> [(subst h; rfl); rfl]

@[simp] theorem refcnt_setRefcnt (s : State) (p q : Ptr) (v : Nat) :
    ((s.setRefcnt p v).mem q).refcnt = if q = p then v else (s.mem q).refcnt := by
  simp only [State.setRefcnt, State.upd]; split_ifs <;> rfl

@[simp] theorem prev_setRefcnt (s : State) (p q : Ptr) (v : Nat) :
    ((s.setRefcnt p v).mem q).prev = (s.mem q).prev := by
  simp only [State.setRefcnt, State.upd]; split_ifs with h <;> [(subst h; rfl); rfl]

@[simp] theorem next_setRefcnt (s : State) (p q : Ptr) (v : Nat) :
    ((s.setRefcnt p v).mem q).next = (s.mem q).next := by
  simp only [State.setRefcnt, State.upd]; split_ifs with h <;> [(subst h; rfl); rfl]

@[simp] theorem data_setRefcnt (s : State) (p q : Ptr) (v : Nat) :
    ((s.setRefcnt p v).mem q).data = (s.mem q).data := by
  simp only [State.setRefcnt, State.upd]; split_ifs with h <;> [(subst h; rfl); rfl]

@[simp] theorem disk_setRefcnt (s : State) (p : Ptr) (v : Nat) : (s.setRefcnt p v).disk = s.disk := rfl

@[simp] theorem io_setRefcnt (s : State) (p : Ptr) (v : Nat) : (s.setRefcnt p v).io = s.io := rfl

@[simp] theorem valid_setPrev (s : State) (p q : Ptr) (v : Ptr) :
    ((s.setPrev p v).mem q).valid = (s.mem q).valid := by
  simp only [State.setPrev, State.upd]; split_ifs with h <;> [(subst h; rfl); rfl]

@[simp] theorem dev_setPrev (s : State) (p q : Ptr) (v : Ptr) :
    ((s.setPrev p v).mem q).dev = (s.mem q).dev := by
  simp only [State.setPrev, State.upd]; split_ifs with h <;> [(subst h; rfl); rfl]

@[simp] theorem blockno_setPrev (s : State) (p q : Ptr) (v : Ptr) :
    ((s.setPrev p v).mem q).blockno = (s.mem q).blockno := by
  simp only [State.setPrev, State.upd]; split_ifs with h <;> [(subst h; rfl); rfl]

@[simp] theorem lock_setPrev (s : State) (p q : Ptr) (v : Ptr) :
    ((s.setPrev p v).mem q).lock = (s.mem q).lock := by
  simp only [State.setPrev, State.upd]; split_ifs with h <;> [(subst h; rfl); rfl]

@[simp] theorem refcnt_setPrev (s : State) (p q : Ptr) (v : Ptr) :
    ((s.setPrev p v).mem q).refcnt = (s.mem q).refcnt := by
  simp only [State.setPrev, State.upd]; split_ifs with h <;> [(subst h; rfl); rfl]

@[simp] theorem prev_setPrev (s : State) (p q : Ptr) (v : Ptr) :
    ((s.setPrev p v).mem q).prev = if q = p then v else (s.mem q).prev := by
  simp only [State.setPrev, State.upd]; split_ifs <;> rfl

@[simp] theorem next_setPrev (s : State) (p q : Ptr) (v : Ptr) :
    ((s.setPrev p v).mem q).next = (s.mem q).next := by
  simp only [State.setPrev, State.upd]; split_ifs with h <;> [(subst h; rfl); rfl]

@[simp] theorem data_setPrev (s : State) (p q : Ptr) (v : Ptr) :
    ((s.setPrev p v).mem q).data = (s.mem q).data := by
  simp only [State.setPrev, State.upd]; split_ifs with h <;> [(subst h; rfl); rfl]

@[simp] theorem disk_setPrev (s : State) (p : Ptr) (v : Ptr) : (s.setPrev p v).disk = s.disk := rfl

@[simp] theorem io_setPrev (s : State) (p : Ptr) (v : Ptr) : (s.setPrev p v).io = s.io := rfl

@[simp] theorem valid_setNext (s : State) (p q : Ptr) (v : Ptr) :
    ((s.setNext p v).mem q).valid = (s.mem q).valid := by
  simp only [State.setNext, State.upd]; split_ifs with h <;> [(subst h; rfl); rfl]

@[simp] theorem dev_setNext (s : State) (p q : Ptr) (v : Ptr) :
    ((s.setNext p v).mem q).dev = (s.mem q).dev := by
  simp only [State.setNext, State.upd]; split_ifs with h <;> [(subst h; rfl); rfl]

@[simp] theorem blockno_setNext (s : State) (p q : Ptr) (v : Ptr) :
    ((s.setNext p v).mem q).blockno = (s.mem q).blockno := by
  simp only [State.setNext, State.upd]; split_ifs with h <;> [(subst h; rfl); rfl]

@[simp] theorem lock_setNext (s : State) (p q : Ptr) (v : Ptr) :
    ((s.setNext p v).mem q).lock = (s.mem q).lock := by
  simp only [State.setNext, State.upd]; split_ifs with h <;> [(subst h; rfl); rfl]

@[simp] theorem refcnt_setNext (s : State) (p q : Ptr) (v : Ptr) :
    ((s.setNext p v).mem q).refcnt = (s.mem q).refcnt := by
  simp only [State.setNext, State.upd]; split_ifs with h <;> [(subst h; rfl); rfl]

@[simp] theorem prev_setNext (s : State) (p q : Ptr) (v : Ptr) :
    ((s.setNext p v).mem q).prev = (s.mem q).prev := by
  simp only [State.setNext, State.upd]; split_ifs with h <;> [(subst h; rfl); rfl]

@[simp] theorem next_setNext (s : State) (p q : Ptr) (v : Ptr) :
    ((s.setNext p v).mem q).next = if q = p then v else (s.mem q).next := by
  simp only [State.setNext, State.upd]; split_ifs <;> rfl

@[simp] theorem data_setNext (s : State) (p q : Ptr) (v : Ptr) :
    ((s.setNext p v).mem q).data = (s.mem q).data := by
  simp only [State.setNext, State.upd]; split_ifs with h <;> [(subst h; rfl); rfl]

@[simp] theorem disk_setNext (s : State) (p : Ptr) (v : Ptr) : (s.setNext p v).disk = s.disk := rfl

@[simp] theorem io_setNext (s : State) (p : Ptr) (v : Ptr) : (s.setNext p v).io = s.io := rfl

@[simp] theorem valid_setData (s : State) (p q : Ptr) (v : Data) :
    ((s.setData p v).mem q).valid = (s.mem q).valid := by
  simp only [State.setData, State.upd]; split_ifs with h <;> [(subst h; rfl); rfl]

@[simp] theorem dev_setData (s : State) (p q : Ptr) (v : Data) :
    ((s.setData p v).mem q).dev = (s.mem q).dev := by
  simp only [State.setData, State.upd]; split_ifs with h <;> [(subst h; rfl); rfl]

@[simp] theorem blockno_setData (s : State) (p q : Ptr) (v : Data) :
    ((s.setData p v).mem q).blockno = (s.mem q).blockno := by
  simp only [State.setData, State.upd]; split_ifs with h <;> [(subst h; rfl); rfl]

@[simp] theorem lock_setData (s : State) (p q : Ptr) (v : Data) :
    ((s.setData p v).mem q).lock = (s.mem q).lock := by
  simp only [State.setData, State.upd]; split_ifs with h <;> [(subst h; rfl); rfl]

@[simp] theorem refcnt_setData (s : State) (p q : Ptr) (v : Data) :
    ((s.setData p v).mem q).refcnt = (s.mem q).refcnt := by
  simp only [State.setData, State.upd]; split_ifs with h <;> [(subst h; rfl); rfl]

@[simp] theorem prev_setData (s : State) (p q : Ptr) (v : Data) :
    ((s.setData p v).mem q).prev = (s.mem q).prev := by
  simp only [State.setData, State.upd]; split_ifs with h <;> [(subst h; rfl); rfl]

@[simp] theorem next_setData (s : State) (p q : Ptr) (v : Data) :
    ((s.setData p v).mem q).next = (s.mem q).next := by
  simp only [State.setData, State.upd]; split_ifs with h <;> [(subst h; rfl); rfl]

@[simp] theorem data_setData (s : State) (p q : Ptr) (v : Data) :
    ((s.setData p v).mem q).data = if q = p then v else (s.mem q).data := by
  simp only [State.setData, State.upd]; split_ifs <;> rfl

@[simp] theorem disk_setData (s : State) (p : Ptr) (v : Data) : (s.setData p v).disk = s.disk := rfl

@[simp] theorem io_setData (s : State) (p : Ptr) (v : Data) : (s.setData p v).io = s.io := rfl


theorem dec32_succ (n : Nat) : dec32 (n + 1) = n := by simp [dec32]

theorem inc32_of_lt {n : Nat} (h : n < 2 ^ 32 - 1) : inc32 n = n + 1 := by
  unfold inc32
  exact Nat.mod_eq_of_lt (by omega)

theorem dec32_inc32 {n : Nat} (h : n < 2 ^ 32) : dec32 (inc32 n) = n := by
  by_cases hn : n < 2 ^ 32 - 1
  · rw [inc32_of_lt hn, dec32_succ]
  · obtain rfl : n = 2 ^ 32 - 1 := by omega
    decide

theorem dec32_eq_zero {n : Nat} : dec32 n = 0 ↔ n = 1 := by
  unfold dec32
  split_ifs with h
  · subst h; simp
  · omega

theorem dec32_of_pos {n : Nat} (h : 0 < n) : dec32 n = n - 1 := by
  unfold dec32; rw [if_neg (by omega)]

/-! ## The effect of `recycle` on each field -/

theorem recycle_refcnt (s : State) (k dev blockno i : Nat) (p : Ptr) :
    ((recycle s k dev blockno (Ptr.buf i)).mem p).refcnt =
      if p = Ptr.buf i then 1 else (s.mem p).refcnt := by
  simp [recycle]

theorem recycle_dev (s : State) (k dev blockno i : Nat) (p : Ptr) :
    ((recycle s k dev blockno (Ptr.buf i)).mem p).dev =
      if p = Ptr.buf i then dev else (s.mem p).dev := by
  simp [recycle]

theorem recycle_blockno (s : State) (k dev blockno i : Nat) (p : Ptr) :
    ((recycle s k dev blockno (Ptr.buf i)).mem p).blockno =
      if p = Ptr.buf i then blockno else (s.mem p).blockno := by
  simp [recycle]

theorem recycle_valid (s : State) (k dev blockno i : Nat) (p : Ptr) :
    ((recycle s k dev blockno (Ptr.buf i)).mem p).valid =
      if p = Ptr.buf i then false else (s.mem p).valid := by
  simp [recycle]

theorem recycle_lock (s : State) (k dev blockno i : Nat) (p : Ptr) :
    ((recycle s k dev blockno (Ptr.buf i)).mem p).lock = (s.mem p).lock := by
  simp [recycle]

theorem recycle_data (s : State) (k dev blockno i : Nat) (p : Ptr) :
    ((recycle s k dev blockno (Ptr.buf i)).mem p).data = (s.mem p).data := by
  simp [recycle]

theorem recycle_next (s : State) (k dev blockno i : Nat) (p : Ptr) :
    ((recycle s k dev blockno (Ptr.buf i)).mem p).next =
      if p = Ptr.head k then Ptr.buf i
      else if p = Ptr.buf i then (s.mem (Ptr.head k)).next else (s.mem p).next := by
  simp [recycle]

theorem recycle_prev (s : State) (k dev blockno i : Nat) (p : Ptr) :
    ((recycle s k dev blockno (Ptr.buf i)).mem p).prev =
      if p = (s.mem (Ptr.head k)).next then Ptr.buf i
      else if p = Ptr.buf i then Ptr.head k else (s.mem p).prev := by
  simp [recycle]

theorem recycle_disk (s : State) (k dev blockno : Nat) (b : Ptr) :
    (recycle s k dev blockno b).disk = s.disk := rfl

theorem recycle_io (s : State) (k dev blockno : Nat) (b : Ptr) :
    (recycle s k dev blockno b).io = s.io := rfl

/-! ## The two loops of `bget` -/

theorem scan_hasKey {s : State} {k dev blockno : Nat} :
    ∀ {fuel : Nat} {a b : Ptr}, scan s k dev blockno fuel a = some (some b) →
      hasKey s dev blockno b
  | 0, a, b, h => by simp [scan] at h
  | fuel + 1, a, b, h => by
    unfold scan at h
    split_ifs at h with h1 h2
    · simp at h
    · simp at h; subst h; exact h2
    · exact scan_hasKey h

theorem scan_eq_of_walk {s : State} {k : Nat} (dev blockno : Nat) :
    ∀ {fuel : Nat} {a : Ptr} {l : List Ptr}, walk s k fuel a = some l →
      scan s k dev blockno fuel a = some (l.find? (fun p => decide (hasKey s dev blockno p)))
  | 0, a, l, h => by simp [walk] at h
  | fuel + 1, a, l, h => by
    unfold walk at h
    unfold scan
    split_ifs at h with h1
    · simp at h; subst h; simp [h1]
    · rw [if_neg h1]
      cases hw : walk s k fuel (s.mem a).next with
      | none => simp [hw] at h
      | some l' =>
        simp [hw] at h
        subst h
        by_cases h2 : (s.mem a).dev = dev ∧ (s.mem a).blockno = blockno
        · rw [if_pos h2]; simp [List.find?, hasKey, h2]
        · rw [if_neg h2]
          rw [scan_eq_of_walk dev blockno hw]
          simp [List.find?, hasKey, h2]

theorem firstFree_some {NBUF : Nat} {s : State} {i : Nat} (h : firstFree NBUF s = some i) :
    i < NBUF ∧ (s.mem (Ptr.buf i)).refcnt = 0 ∧ ∀ j, j < i → (s.mem (Ptr.buf j)).refcnt ≠ 0 := by
  unfold firstFree at h
  rw [List.find?_range_eq_some] at h
  obtain ⟨h1, h2, h3⟩ := h
  refine ⟨List.mem_range.mp h2, by simpa using h1, fun j hj => ?_⟩
  simpa using h3 j hj

theorem firstFree_none {NBUF : Nat} {s : State} (h : firstFree NBUF s = none) :
    ∀ j, j < NBUF → (s.mem (Ptr.buf j)).refcnt ≠ 0 := by
  unfold firstFree at h
  rw [List.find?_range_eq_none] at h
  intro j hj
  simpa using h j hj

theorem firstFree_eq {NBUF : Nat} {s : State} {i : Nat} (hi : i < NBUF)
    (h0 : (s.mem (Ptr.buf i)).refcnt = 0) (hmin : ∀ j, j < i → (s.mem (Ptr.buf j)).refcnt ≠ 0) :
    firstFree NBUF s = some i := by
  unfold firstFree
  rw [List.find?_range_eq_some]
  refine ⟨by simpa using h0, List.mem_range.mpr hi, fun j hj => ?_⟩
  simpa using hmin j hj

theorem firstFree_eq_none {NBUF : Nat} {s : State}
    (h : ∀ j, j < NBUF → (s.mem (Ptr.buf j)).refcnt ≠ 0) : firstFree NBUF s = none := by
  unfold firstFree
  rw [List.find?_range_eq_none]
  intro j hj
  simpa using h j hj

/-! ## `acquiresleep` -/

theorem acquiresleep_free {pid : Nat} {s : State} {b : Ptr} (h : (s.mem b).lock = none) :
    acquiresleep pid s b = Res.ret b (s.setLock b (some pid)) := by
  simp [acquiresleep, h]

theorem acquiresleep_held {pid : Nat} {s : State} {b : Ptr} (h : (s.mem b).lock ≠ none) :
    acquiresleep pid s b = Res.sleep b s := by
  unfold acquiresleep
  cases hl : (s.mem b).lock with
  | none => exact absurd hl h
  | some q => rfl

theorem acquiresleep_ret {pid : Nat} {s s2 : State} {b c : Ptr}
    (h : acquiresleep pid s b = Res.ret c s2) :
    c = b ∧ (s.mem b).lock = none ∧ s2 = s.setLock b (some pid) := by
  unfold acquiresleep at h
  cases hl : (s.mem b).lock with
  | none => rw [hl] at h; simp at h; exact ⟨h.1.symm, rfl, h.2.symm⟩
  | some q => rw [hl] at h; simp at h

theorem acquiresleep_sleep {pid : Nat} {s s2 : State} {b c : Ptr}
    (h : acquiresleep pid s b = Res.sleep c s2) :
    c = b ∧ (s.mem b).lock ≠ none ∧ s2 = s := by
  unfold acquiresleep at h
  cases hl : (s.mem b).lock with
  | none => rw [hl] at h; simp at h
  | some q => rw [hl] at h; simp at h; exact ⟨h.1.symm, by simp, h.2.symm⟩

theorem acquiresleep_ne_panic {pid : Nat} {s : State} {b : Ptr} {m : String} :
    acquiresleep pid s b ≠ Res.panic m := by
  unfold acquiresleep
  cases (s.mem b).lock <;> simp

theorem acquiresleep_ne_diverge {pid : Nat} {s : State} {b : Ptr} :
    acquiresleep pid s b ≠ Res.diverge := by
  unfold acquiresleep
  cases (s.mem b).lock <;> simp

/-! ## The exits of `bget` -/

theorem bget_hit {NBUF : Nat} (pid : Nat) {s : State} {dev blockno : Nat} {b : Ptr}
    (h : scan s (hash blockno) dev blockno (NBUF + 1) (s.mem (Ptr.head (hash blockno))).next
      = some (some b)) :
    bget NBUF pid s dev blockno = acquiresleep pid (s.setRefcnt b (inc32 (s.mem b).refcnt)) b := by
  simp only [bget, h]

theorem bget_miss {NBUF : Nat} (pid : Nat) {s : State} {dev blockno i : Nat}
    (h : scan s (hash blockno) dev blockno (NBUF + 1) (s.mem (Ptr.head (hash blockno))).next
      = some none) (hf : firstFree NBUF s = some i) :
    bget NBUF pid s dev blockno =
      acquiresleep pid (recycle s (hash blockno) dev blockno (Ptr.buf i)) (Ptr.buf i) := by
  simp only [bget, h, hf]

theorem bget_full {NBUF : Nat} (pid : Nat) {s : State} {dev blockno : Nat}
    (h : scan s (hash blockno) dev blockno (NBUF + 1) (s.mem (Ptr.head (hash blockno))).next
      = some none) (hf : firstFree NBUF s = none) :
    bget NBUF pid s dev blockno = Res.panic "bget: no buffers" := by
  simp only [bget, h, hf]

theorem bget_stuck {NBUF : Nat} (pid : Nat) {s : State} {dev blockno : Nat}
    (h : scan s (hash blockno) dev blockno (NBUF + 1) (s.mem (Ptr.head (hash blockno))).next
      = none) :
    bget NBUF pid s dev blockno = Res.diverge := by
  simp only [bget, h]

/-- Whenever `bget` gets as far as `acquiresleep`, it does so on a buffer `b` and
in a state `s1` that come from one of its two exits: the hit, with `refcnt` of
`b` raised by one, or the miss, with the first free buffer recycled. -/
theorem bget_exits {NBUF pid : Nat} {s : State} {dev blockno : Nat} {r : Res Ptr}
    (h : bget NBUF pid s dev blockno = r) (hp : ∀ m, r ≠ Res.panic m) (hd : r ≠ Res.diverge) :
    ∃ b s1, r = acquiresleep pid s1 b ∧
      ((scan s (hash blockno) dev blockno (NBUF + 1) (s.mem (Ptr.head (hash blockno))).next
          = some (some b) ∧ s1 = s.setRefcnt b (inc32 (s.mem b).refcnt)) ∨
       (∃ i, b = Ptr.buf i ∧
          scan s (hash blockno) dev blockno (NBUF + 1) (s.mem (Ptr.head (hash blockno))).next
            = some none ∧ firstFree NBUF s = some i ∧
          s1 = recycle s (hash blockno) dev blockno (Ptr.buf i))) := by
  cases hs : scan s (hash blockno) dev blockno (NBUF + 1) (s.mem (Ptr.head (hash blockno))).next with
  | none => rw [bget_stuck pid hs] at h; exact absurd h.symm hd
  | some o =>
    cases o with
    | some b => exact ⟨b, _, by rw [← h, bget_hit pid hs], Or.inl ⟨rfl, rfl⟩⟩
    | none =>
      cases hf : firstFree NBUF s with
      | none => rw [bget_full pid hs hf] at h; exact absurd h.symm (hp _)
      | some i =>
        exact ⟨Ptr.buf i, _, by rw [← h, bget_miss pid hs hf], Or.inr ⟨i, rfl, rfl, rfl, rfl⟩⟩

/-! ## The driver -/

theorem vdr_read_mem (s : State) (b : Ptr) :
    (virtio_disk_rw s b false).mem = (s.setData b (s.disk (s.mem b).dev (s.mem b).blockno)).mem :=
  rfl

theorem vdr_read_io (s : State) (b : Ptr) :
    (virtio_disk_rw s b false).io = s.io ++ [⟨false, (s.mem b).dev, (s.mem b).blockno⟩] := rfl

theorem vdr_read_disk (s : State) (b : Ptr) : (virtio_disk_rw s b false).disk = s.disk := rfl

@[simp] theorem valid_vdr_read (s : State) (b p : Ptr) :
    ((virtio_disk_rw s b false).mem p).valid = (s.mem p).valid := by
  rw [vdr_read_mem]; simp

@[simp] theorem dev_vdr_read (s : State) (b p : Ptr) :
    ((virtio_disk_rw s b false).mem p).dev = (s.mem p).dev := by
  rw [vdr_read_mem]; simp

@[simp] theorem blockno_vdr_read (s : State) (b p : Ptr) :
    ((virtio_disk_rw s b false).mem p).blockno = (s.mem p).blockno := by
  rw [vdr_read_mem]; simp

@[simp] theorem lock_vdr_read (s : State) (b p : Ptr) :
    ((virtio_disk_rw s b false).mem p).lock = (s.mem p).lock := by
  rw [vdr_read_mem]; simp

@[simp] theorem refcnt_vdr_read (s : State) (b p : Ptr) :
    ((virtio_disk_rw s b false).mem p).refcnt = (s.mem p).refcnt := by
  rw [vdr_read_mem]; simp

@[simp] theorem prev_vdr_read (s : State) (b p : Ptr) :
    ((virtio_disk_rw s b false).mem p).prev = (s.mem p).prev := by
  rw [vdr_read_mem]; simp

@[simp] theorem next_vdr_read (s : State) (b p : Ptr) :
    ((virtio_disk_rw s b false).mem p).next = (s.mem p).next := by
  rw [vdr_read_mem]; simp

@[simp] theorem data_vdr_read (s : State) (b p : Ptr) :
    ((virtio_disk_rw s b false).mem p).data =
      if p = b then s.disk (s.mem b).dev (s.mem b).blockno else (s.mem p).data := by
  rw [vdr_read_mem]; simp

@[simp] theorem mem_vdr_write (s : State) (b p : Ptr) :
    (virtio_disk_rw s b true).mem p = s.mem p := rfl

theorem vdr_write_mem (s : State) (b : Ptr) : (virtio_disk_rw s b true).mem = s.mem := rfl

theorem vdr_write_io (s : State) (b : Ptr) :
    (virtio_disk_rw s b true).io = s.io ++ [⟨true, (s.mem b).dev, (s.mem b).blockno⟩] := rfl

theorem vdr_write_disk (s : State) (b : Ptr) (d n : Nat) :
    (virtio_disk_rw s b true).disk d n =
      if d = (s.mem b).dev ∧ n = (s.mem b).blockno then (s.mem b).data else s.disk d n := rfl

/-! ## `brelse`, `bwrite`, `bunpin` field by field -/

/-- The state `brelse` leaves when the caller holds the lock, field by field. -/
theorem brelse_held {pid : Nat} {s : State} {b : Ptr} (h : (s.mem b).lock = some pid) :
    ∃ s1, brelse pid s b = Res.ret () s1 ∧
      (∀ p, (s1.mem p).refcnt = if p = b then dec32 (s.mem b).refcnt else (s.mem p).refcnt) ∧
      (∀ p, (s1.mem p).lock = if p = b then none else (s.mem p).lock) ∧
      (∀ p, (s1.mem p).dev = (s.mem p).dev) ∧ (∀ p, (s1.mem p).blockno = (s.mem p).blockno) ∧
      (∀ p, (s1.mem p).valid = (s.mem p).valid) ∧ (∀ p, (s1.mem p).data = (s.mem p).data) ∧
      s1.disk = s.disk ∧ s1.io = s.io ∧
      (∀ p, (s1.mem p).next =
        if dec32 (s.mem b).refcnt = 0 ∧ p = (s.mem b).prev then (s.mem b).next
        else (s.mem p).next) ∧
      (∀ p, (s1.mem p).prev =
        if dec32 (s.mem b).refcnt = 0 ∧ p = (s.mem b).next then (s.mem b).prev
        else (s.mem p).prev) := by
  have hh : holdingsleep pid s b = true := by simp [holdingsleep, h]
  refine ⟨_, by simp only [brelse, hh]; rfl, ?_, ?_, ?_, ?_, ?_, ?_, ?_, ?_, ?_, ?_⟩
  · intro p
    by_cases hp : p = b
    · subst hp; simp [releasesleep]
    · simp [releasesleep, hp]; split_ifs <;> simp
  · intro p
    by_cases hp : p = b
    · subst hp; simp [releasesleep]; split_ifs <;> simp
    · simp [releasesleep, hp]; split_ifs <;> simp [hp]
  · intro p; simp only [releasesleep]; split_ifs <;> simp
  · intro p; simp only [releasesleep]; split_ifs <;> simp
  · intro p; simp only [releasesleep]; split_ifs <;> simp
  · intro p; simp only [releasesleep]; split_ifs <;> simp
  · simp only [releasesleep]; split_ifs <;> simp
  · simp only [releasesleep]; split_ifs <;> simp
  · intro p
    by_cases hz : dec32 (s.mem b).refcnt = 0
    · simp [releasesleep, hz]
    · simp [releasesleep, hz]
  · intro p
    by_cases hz : dec32 (s.mem b).refcnt = 0
    · simp [releasesleep, hz]
    · simp [releasesleep, hz]

theorem brelse_ret_held {pid : Nat} {s s1 : State} {b : Ptr}
    (h : brelse pid s b = Res.ret () s1) : (s.mem b).lock = some pid := by
  unfold brelse at h
  by_cases hh : holdingsleep pid s b = true
  · simpa [holdingsleep] using hh
  · simp [hh] at h

theorem bwrite_ret {pid : Nat} {s s1 : State} {b : Ptr}
    (h : bwrite pid s b = Res.ret () s1) :
    (s.mem b).lock = some pid ∧ s1 = virtio_disk_rw s b true := by
  unfold bwrite at h
  by_cases hh : holdingsleep pid s b = true
  · simp [hh] at h
    exact ⟨by simpa [holdingsleep] using hh, h.symm⟩
  · simp [hh] at h

theorem bwrite_held {pid : Nat} {s : State} {b : Ptr} (h : (s.mem b).lock = some pid) :
    bwrite pid s b = Res.ret () (virtio_disk_rw s b true) := by
  have hh : holdingsleep pid s b = true := by simp [holdingsleep, h]
  simp [bwrite, hh]

theorem bunpin_eq (s : State) (b : Ptr) :
    bunpin s b =
      if (s.mem b).refcnt = 1 then Res.panic "Not supposed to be zero!!"
      else Res.ret () (s.setRefcnt b (dec32 (s.mem b).refcnt)) := by
  unfold bunpin
  simp only [refcnt_setRefcnt, if_true, dec32_eq_zero]

/-! ## `bread` in terms of `bget` -/

theorem bread_of_bget {NBUF pid : Nat} {s s1 : State} {dev blockno : Nat} {b : Ptr}
    (h : bget NBUF pid s dev blockno = Res.ret b s1) :
    bread NBUF pid s dev blockno =
      if (s1.mem b).valid = false then
        Res.ret b ((virtio_disk_rw s1 b false).setValid b true)
      else Res.ret b s1 := by
  simp only [bread, h]
  cases (s1.mem b).valid <;> simp

theorem bread_ret {NBUF pid : Nat} {s s2 : State} {dev blockno : Nat} {b : Ptr}
    (h : bread NBUF pid s dev blockno = Res.ret b s2) :
    ∃ s1, bget NBUF pid s dev blockno = Res.ret b s1 ∧
      s2 = if (s1.mem b).valid = false then (virtio_disk_rw s1 b false).setValid b true
           else s1 := by
  cases hg : bget NBUF pid s dev blockno with
  | ret c s1 =>
    rw [bread_of_bget hg] at h
    split_ifs at h with hv
    · simp at h; obtain ⟨rfl, rfl⟩ := h; exact ⟨s1, rfl, by rw [if_pos hv]⟩
    · simp at h; obtain ⟨rfl, rfl⟩ := h; exact ⟨s1, rfl, by rw [if_neg hv]⟩
  | sleep c t => simp [bread, hg] at h
  | panic m => simp [bread, hg] at h
  | diverge => simp [bread, hg] at h

/-! ## What `bget` leaves behind -/

/-- The facts about the buffer `b` and the state `s1` with which `bget` reaches
`acquiresleep`, on either exit. -/
theorem exit_facts {NBUF : Nat} {s s1 : State} {dev blockno : Nat} {b : Ptr}
    (h : (scan s (hash blockno) dev blockno (NBUF + 1) (s.mem (Ptr.head (hash blockno))).next
          = some (some b) ∧ s1 = s.setRefcnt b (inc32 (s.mem b).refcnt)) ∨
       (∃ i, b = Ptr.buf i ∧
          scan s (hash blockno) dev blockno (NBUF + 1) (s.mem (Ptr.head (hash blockno))).next
            = some none ∧ firstFree NBUF s = some i ∧
          s1 = recycle s (hash blockno) dev blockno (Ptr.buf i))) :
    hasKey s1 dev blockno b ∧
    (s1.mem b).refcnt = inc32 (s.mem b).refcnt ∧
    (∀ p, p ≠ b → (s1.mem p).refcnt = (s.mem p).refcnt) ∧
    (∀ p, 0 < (s.mem p).refcnt → (s1.mem p).dev = (s.mem p).dev ∧
      (s1.mem p).blockno = (s.mem p).blockno ∧ (s1.mem p).valid = (s.mem p).valid) ∧
    (∀ p, (s1.mem p).data = (s.mem p).data) ∧
    (∀ p, (s1.mem p).lock = (s.mem p).lock) ∧
    s1.io = s.io ∧ s1.disk = s.disk := by
  rcases h with ⟨hs, rfl⟩ | ⟨i, rfl, hs, hf, rfl⟩
  · have hk := scan_hasKey hs
    refine ⟨by simpa [hasKey] using hk, by simp, fun p hp => by simp [hp], fun p _ => by simp,
      fun p => by simp, fun p => by simp, rfl, rfl⟩
  · obtain ⟨_, h0, _⟩ := firstFree_some hf
    refine ⟨?_, ?_, ?_, ?_, ?_, ?_, rfl, rfl⟩
    · simp [hasKey, recycle_dev, recycle_blockno]
    · simp [recycle_refcnt, h0, inc32]
    · intro p hp; simp [recycle_refcnt, hp]
    · intro p hp
      have : p ≠ Ptr.buf i := by rintro rfl; omega
      simp [recycle_dev, recycle_blockno, recycle_valid, this]
    · intro p; simp [recycle_data]
    · intro p; simp [recycle_lock]

/-- Facts about a call of `bget` that gets as far as `acquiresleep`, whether it then
returns at once (`Res.ret`) or has to wait for the lock (`Res.sleep`). -/
theorem bget_facts {NBUF pid : Nat} {s s2 : State} {dev blockno : Nat} {b : Ptr}
    (h : bget NBUF pid s dev blockno = Res.ret b s2 ∨ bget NBUF pid s dev blockno = Res.sleep b s2) :
    hasKey s2 dev blockno b ∧
    (s2.mem b).refcnt = inc32 (s.mem b).refcnt ∧
    (∀ p, p ≠ b → (s2.mem p).refcnt = (s.mem p).refcnt) ∧
    (∀ p, 0 < (s.mem p).refcnt → (s2.mem p).dev = (s.mem p).dev ∧
      (s2.mem p).blockno = (s.mem p).blockno ∧ (s2.mem p).valid = (s.mem p).valid) ∧
    (∀ p, (s2.mem p).data = (s.mem p).data) ∧
    s2.io = s.io ∧ s2.disk = s.disk := by
  rcases h with h | h
  · obtain ⟨c, s1, hr, hex⟩ := bget_exits h (by simp) (by simp)
    obtain ⟨rfl, _, rfl⟩ := acquiresleep_ret hr.symm
    obtain ⟨h1, h2, h3, h4, h5, _, h7, h8⟩ := exit_facts hex
    refine ⟨by simpa [hasKey] using h1, by simpa using h2, fun p hp => by simpa using h3 p hp,
      fun p hp => by simpa using h4 p hp, fun p => by simpa using h5 p, h7, h8⟩
  · obtain ⟨c, s1, hr, hex⟩ := bget_exits h (by simp) (by simp)
    obtain ⟨rfl, _, rfl⟩ := acquiresleep_sleep hr.symm
    obtain ⟨h1, h2, h3, h4, h5, _, h7, h8⟩ := exit_facts hex
    exact ⟨h1, h2, h3, h4, h5, h7, h8⟩

theorem bget_ret_lock {NBUF pid : Nat} {s s2 : State} {dev blockno : Nat} {b : Ptr}
    (h : bget NBUF pid s dev blockno = Res.ret b s2) :
    (s.mem b).lock = none ∧ (∀ p, (s2.mem p).lock = if p = b then some pid else (s.mem p).lock) := by
  obtain ⟨c, s1, hr, hex⟩ := bget_exits h (by simp) (by simp)
  obtain ⟨rfl, hl, rfl⟩ := acquiresleep_ret hr.symm
  obtain ⟨_, _, _, _, _, h6, _, _⟩ := exit_facts hex
  refine ⟨by rw [← h6]; exact hl, fun p => ?_⟩
  simp [h6]

/-! ## Circular lists -/

theorem hash_lt (n : Nat) : hash n < NBUCKET := by
  unfold hash NBUCKET
  exact Nat.mod_lt _ (by decide)

/-- A chain only depends on the links it goes through. -/
theorem ChainFrom.frame {s t : State} {h : Ptr} :
    ∀ {l : List Nat} {a : Ptr}, ChainFrom s h a l →
      (t.mem a).next = (s.mem a).next →
      (∀ i ∈ l, (t.mem (Ptr.buf i)).next = (s.mem (Ptr.buf i)).next) →
      (∀ i ∈ l, (t.mem (Ptr.buf i)).prev = (s.mem (Ptr.buf i)).prev) →
      (t.mem h).prev = (s.mem h).prev → ChainFrom t h a l
  | [], a, hc, ha, _, _, hh => by
    obtain ⟨h1, h2⟩ := hc
    exact ⟨ha.trans h1, hh.trans h2⟩
  | i :: l, a, hc, ha, hn, hp, hh => by
    obtain ⟨⟨h1, h2⟩, hrest⟩ := hc
    refine ⟨⟨ha.trans h1, (hp i (List.mem_cons_self _ _)).trans h2⟩, ?_⟩
    exact ChainFrom.frame hrest (hn i (List.mem_cons_self _ _))
      (fun j hj => hn j (List.mem_cons_of_mem _ hj))
      (fun j hj => hp j (List.mem_cons_of_mem _ hj)) hh

/-- A chain is untouched by a change that leaves every link alone. -/
theorem ChainFrom.same_links {s t : State} {h a : Ptr} {l : List Nat}
    (hc : ChainFrom s h a l) (hn : ∀ p, (t.mem p).next = (s.mem p).next)
    (hp : ∀ p, (t.mem p).prev = (s.mem p).prev) : ChainFrom t h a l :=
  hc.frame (hn a) (fun _ _ => hn _) (fun _ _ => hp _) (hp h)

/-- The successor of a member of a chain is the end of the chain or a member. -/
theorem ChainFrom.next_mem {s : State} {h : Ptr} :
    ∀ {l : List Nat} {a : Ptr} {i : Nat}, ChainFrom s h a l → i ∈ l →
      (s.mem (Ptr.buf i)).next = h ∨ ∃ m ∈ l, (s.mem (Ptr.buf i)).next = Ptr.buf m
  | [], _, _, _, hi => by simp at hi
  | j :: l, a, i, hc, hi => by
    obtain ⟨_, hrest⟩ := hc
    rcases List.mem_cons.mp hi with rfl | hi'
    · cases l with
      | nil => exact Or.inl hrest.1
      | cons m l' => exact Or.inr ⟨m, by simp, hrest.1.1⟩
    · rcases ChainFrom.next_mem hrest hi' with h1 | ⟨m, hm, h1⟩
      · exact Or.inl h1
      · exact Or.inr ⟨m, List.mem_cons_of_mem _ hm, h1⟩

/-- The predecessor of a member of a chain is the start of the chain or a member. -/
theorem ChainFrom.prev_mem {s : State} {h : Ptr} :
    ∀ {l : List Nat} {a : Ptr} {i : Nat}, ChainFrom s h a l → i ∈ l →
      (s.mem (Ptr.buf i)).prev = a ∨ ∃ m ∈ l, (s.mem (Ptr.buf i)).prev = Ptr.buf m
  | [], _, _, _, hi => by simp at hi
  | j :: l, a, i, hc, hi => by
    have hc' := hc
    obtain ⟨hlink, hrest⟩ := hc'
    rcases List.mem_cons.mp hi with rfl | hi'
    · exact Or.inl hlink.2
    · rcases ChainFrom.prev_mem hrest hi' with h1 | ⟨m, hm, h1⟩
      · exact Or.inr ⟨j, by simp, h1⟩
      · exact Or.inr ⟨m, List.mem_cons_of_mem _ hm, h1⟩

/-- The first node of a circular list is the head itself or a member. -/
theorem ChainFrom.first {s : State} {h a : Ptr} {l : List Nat} (hc : ChainFrom s h a l) :
    (s.mem a).next = h ∨ ∃ m ∈ l, (s.mem a).next = Ptr.buf m := by
  cases l with
  | nil => exact Or.inl hc.1
  | cons m l' => exact Or.inr ⟨m, by simp, hc.1.1⟩

/-- The last node of a circular list is the start itself or a member. -/
theorem ChainFrom.last {s : State} {h : Ptr} :
    ∀ {l : List Nat} {a : Ptr}, ChainFrom s h a l →
      (s.mem h).prev = a ∨ ∃ m ∈ l, (s.mem h).prev = Ptr.buf m
  | [], _, hc => Or.inl hc.2
  | j :: l, a, hc => by
    rcases ChainFrom.last hc.2 with h1 | ⟨m, hm, h1⟩
    · exact Or.inr ⟨j, by simp, h1⟩
    · exact Or.inr ⟨m, List.mem_cons_of_mem _ hm, h1⟩

/-- Walking a chain that ends at the head of bucket `k` yields its members. -/
theorem walk_of_chain {s : State} {k : Nat} :
    ∀ {l : List Nat} {a : Ptr} {fuel : Nat}, ChainFrom s (Ptr.head k) a l → l.length < fuel →
      walk s k fuel (s.mem a).next = some (l.map Ptr.buf)
  | [], a, fuel, hc, hf => by
    obtain ⟨f, rfl⟩ : ∃ f, fuel = f + 1 := ⟨fuel - 1, by simp at hf; omega⟩
    rw [hc.1]; simp [walk]
  | i :: l, a, fuel, hc, hf => by
    obtain ⟨f, rfl⟩ : ∃ f, fuel = f + 1 := ⟨fuel - 1, by simp at hf; omega⟩
    rw [hc.1.1]
    unfold walk
    rw [if_neg (by simp)]
    rw [walk_of_chain hc.2 (by simp at hf; omega)]
    simp

theorem length_le_of_nodup_lt {l : List Nat} {n : Nat} (hnd : l.Nodup) (hlt : ∀ i ∈ l, i < n) :
    l.length ≤ n := by
  have hsub : l ⊆ List.range n := fun i hi => List.mem_range.mpr (hlt i hi)
  have := (hnd.subperm hsub).length_le
  simpa using this

/-! ## Linking a buffer behind the head, and unlinking one -/

/-- After `recycle`, the recycled buffer is the first of the bucket it went to and
the rest of the list follows as before. -/
theorem chain_recycle {s : State} {k i : Nat} {l : List Nat} (dev blockno : Nat)
    (hc : ChainFrom s (Ptr.head k) (Ptr.head k) l) (hnd : l.Nodup) (hi : i ∉ l) :
    ChainFrom (recycle s k dev blockno (Ptr.buf i)) (Ptr.head k) (Ptr.head k) (i :: l) := by
  cases l with
  | nil =>
    obtain ⟨h1, h2⟩ := hc
    refine ⟨⟨?_, ?_⟩, ?_, ?_⟩
    · simp [recycle_next]
    · simp [recycle_prev, h1]
    · simp [recycle_next, h1]
    · simp [recycle_prev, h1]
  | cons j l' =>
    obtain ⟨⟨h1, h2⟩, hrest⟩ := hc
    have hij : i ≠ j := fun e => hi (by simp [e])
    have hjl : j ∉ l' := (List.nodup_cons.mp hnd).1
    refine ⟨⟨?_, ?_⟩, ⟨?_, ?_⟩, ?_⟩
    · simp [recycle_next]
    · simp [recycle_prev, h1, hij]
    · simp [recycle_next, h1]
    · simp [recycle_prev, h1]
    · refine hrest.frame ?_ ?_ ?_ ?_
      · simp [recycle_next, Ne.symm hij]
      · intro m hm
        have : m ≠ i := fun e => hi (by simp [← e, hm])
        simp [recycle_next, this]
      · intro m hm
        have h3 : m ≠ i := fun e => hi (by simp [← e, hm])
        have h4 : m ≠ j := fun e => hjl (by rw [← e]; exact hm)
        simp [recycle_prev, h1, h3, h4]
      · simp [recycle_prev, h1]

/-- After `recycle` into bucket `k`, the list of another bucket is as before. -/
theorem chain_recycle_other {s : State} {k k2 i : Nat} {l l2 : List Nat} (dev blockno : Nat)
    (hc : ChainFrom s (Ptr.head k) (Ptr.head k) l)
    (hc2 : ChainFrom s (Ptr.head k2) (Ptr.head k2) l2) (hk : k2 ≠ k) (hi : i ∉ l2)
    (hdisj : ∀ m ∈ l, m ∉ l2) :
    ChainFrom (recycle s k dev blockno (Ptr.buf i)) (Ptr.head k2) (Ptr.head k2) l2 := by
  have hfirst := hc.first
  refine hc2.frame ?_ ?_ ?_ ?_
  · simp [recycle_next, hk]
  · intro m hm
    have : m ≠ i := fun e => hi (by rw [← e]; exact hm)
    simp [recycle_next, this]
  · intro m hm
    have h3 : m ≠ i := fun e => hi (by rw [← e]; exact hm)
    have h4 : Ptr.buf m ≠ (s.mem (Ptr.head k)).next := by
      rcases hfirst with h | ⟨j, hj, h⟩
      · rw [h]; simp
      · rw [h]; intro e; injection e with e; exact hdisj j hj (by rw [← e]; exact hm)
    simp [recycle_prev, h3, h4]
  · have h4 : Ptr.head k2 ≠ (s.mem (Ptr.head k)).next := by
      rcases hfirst with h | ⟨j, _, h⟩
      · rw [h]; simp [hk]
      · rw [h]; simp
    simp [recycle_prev, h4]

/-- Unlinking buffer `i` (`b->next->prev = b->prev; b->prev->next = b->next`) from a
chain that does not pass through its own start leaves the chain without `i`. -/
theorem chain_unlink {s t : State} {k i : Nat}
    (hn : ∀ p, (t.mem p).next =
      if p = (s.mem (Ptr.buf i)).prev then (s.mem (Ptr.buf i)).next else (s.mem p).next)
    (hp : ∀ p, (t.mem p).prev =
      if p = (s.mem (Ptr.buf i)).next then (s.mem (Ptr.buf i)).prev else (s.mem p).prev) :
    ∀ {l : List Nat} {a : Ptr}, ChainFrom s (Ptr.head k) a l → l.Nodup → i ∈ l →
      (∀ m ∈ l, a ≠ Ptr.buf m) → ChainFrom t (Ptr.head k) a (l.erase i)
  | [], _, _, _, hi, _ => by simp at hi
  | j :: l, a, hc, hnd, hi, ha => by
    obtain ⟨hjl, hnd'⟩ := List.nodup_cons.mp hnd
    obtain ⟨⟨h1, h2⟩, hrest⟩ := hc
    by_cases hji : j = i
    · subst hji
      rw [List.erase_cons_head]
      cases l with
      | nil =>
        obtain ⟨h3, h4⟩ := hrest
        refine ⟨?_, ?_⟩
        · rw [hn, h2, if_pos rfl, h3]
        · rw [hp, h3, if_pos rfl, h2]
      | cons m l' =>
        obtain ⟨⟨h3, h4⟩, hrest'⟩ := hrest
        have hjm : j ≠ m := fun e => hjl (by simp [e])
        obtain ⟨hml, _⟩ := List.nodup_cons.mp hnd'
        refine ⟨⟨?_, ?_⟩, ?_⟩
        · rw [hn, h2, if_pos rfl, h3]
        · rw [hp, h3, if_pos rfl, h2]
        · refine hrest'.frame ?_ ?_ ?_ ?_
          · rw [hn, h2, if_neg (Ne.symm (ha m (by simp)))]
          · intro x hx
            rw [hn, h2, if_neg (Ne.symm (ha x (by simp [hx])))]
          · intro x hx
            have : x ≠ m := fun e => hml (by rw [← e]; exact hx)
            rw [hp, h3, if_neg (by simp [this])]
          · rw [hp, h3, if_neg (by simp)]
    · have hi' : i ∈ l := by
        rcases List.mem_cons.mp hi with e | e
        · exact absurd e.symm hji
        · exact e
      rw [List.erase_cons_tail (by simpa using hji)]
      refine ⟨⟨?_, ?_⟩, ?_⟩
      · have : a ≠ (s.mem (Ptr.buf i)).prev := by
          rcases hrest.prev_mem hi' with e | ⟨m, hm, e⟩
          · rw [e]; exact ha j (by simp)
          · rw [e]; exact ha m (by simp [hm])
        rw [hn, if_neg this, h1]
      · have : Ptr.buf j ≠ (s.mem (Ptr.buf i)).next := by
          rcases hrest.next_mem hi' with e | ⟨m, hm, e⟩
          · rw [e]; simp
          · rw [e]; intro e2; injection e2 with e2; exact hjl (by rw [e2]; exact hm)
        rw [hp, if_neg this, h2]
      · exact chain_unlink hn hp hrest hnd' hi'
          (fun m hm e => by injection e with e; exact hjl (by rw [e]; exact hm))

/-- Unlinking buffer `i` of bucket `k` leaves the list of another bucket as it was. -/
theorem chain_unlink_other {s t : State} {k k2 i : Nat} {l l2 : List Nat}
    (hn : ∀ p, (t.mem p).next =
      if p = (s.mem (Ptr.buf i)).prev then (s.mem (Ptr.buf i)).next else (s.mem p).next)
    (hp : ∀ p, (t.mem p).prev =
      if p = (s.mem (Ptr.buf i)).next then (s.mem (Ptr.buf i)).prev else (s.mem p).prev)
    (hc : ChainFrom s (Ptr.head k) (Ptr.head k) l) (hi : i ∈ l)
    (hc2 : ChainFrom s (Ptr.head k2) (Ptr.head k2) l2) (hk : k2 ≠ k)
    (hdisj : ∀ m ∈ l, m ∉ l2) :
    ChainFrom t (Ptr.head k2) (Ptr.head k2) l2 := by
  have hprev : ∀ q, (q = Ptr.head k2 ∨ ∃ m ∈ l2, q = Ptr.buf m) →
      q ≠ (s.mem (Ptr.buf i)).prev := by
    intro q hq
    rcases hc.prev_mem hi with e | ⟨m, hm, e⟩ <;> rw [e] <;> rcases hq with rfl | ⟨x, hx, rfl⟩
    · simp [hk]
    · simp
    · simp
    · intro e2; injection e2 with e2; exact hdisj m hm (by rw [← e2]; exact hx)
  have hnext : ∀ q, (q = Ptr.head k2 ∨ ∃ m ∈ l2, q = Ptr.buf m) →
      q ≠ (s.mem (Ptr.buf i)).next := by
    intro q hq
    rcases hc.next_mem hi with e | ⟨m, hm, e⟩ <;> rw [e] <;> rcases hq with rfl | ⟨x, hx, rfl⟩
    · simp [hk]
    · simp
    · simp
    · intro e2; injection e2 with e2; exact hdisj m hm (by rw [← e2]; exact hx)
  refine hc2.frame ?_ ?_ ?_ ?_
  · rw [hn, if_neg (hprev _ (Or.inl rfl))]
  · intro m hm; rw [hn, if_neg (hprev _ (Or.inr ⟨m, hm, rfl⟩))]
  · intro m hm; rw [hp, if_neg (hnext _ (Or.inr ⟨m, hm, rfl⟩))]
  · rw [hp, if_neg (hnext _ (Or.inl rfl))]

/-! ## The invariant: consequences -/

theorem Inv.bucketList {NBUF : Nat} {s : State} {L : Nat → List Nat} (hI : Inv NBUF s L)
    {k : Nat} (hk : k < NBUCKET) : bucketList NBUF s k = some ((L k).map Ptr.buf) :=
  walk_of_chain (hI.chain k hk)
    (Nat.lt_succ_of_le (length_le_of_nodup_lt (hI.nodup k hk) (hI.lt k hk)))

theorem Inv.scan {NBUF : Nat} {s : State} {L : Nat → List Nat} (hI : Inv NBUF s L)
    (dev blockno : Nat) :
    scan s (hash blockno) dev blockno (NBUF + 1) (s.mem (Ptr.head (hash blockno))).next =
      some (((L (hash blockno)).map Ptr.buf).find? (fun p => decide (hasKey s dev blockno p))) :=
  scan_eq_of_walk dev blockno (hI.bucketList (hash_lt blockno))

/-- Two different buckets have no buffer in common. -/
theorem Inv.disjoint {NBUF : Nat} {s : State} {L : Nat → List Nat} (hI : Inv NBUF s L)
    {k k2 : Nat} (hk : k < NBUCKET) (hk2 : k2 < NBUCKET) (hne : k2 ≠ k) :
    ∀ m ∈ L k, m ∉ L k2 := by
  intro m hm hm2
  exact hne ((hI.home k2 hk2 m hm2).symm.trans (hI.home k hk m hm))

/-- A free buffer is in no list. -/
theorem Inv.free_not_mem {NBUF : Nat} {s : State} {L : Nat → List Nat} (hI : Inv NBUF s L)
    {i : Nat} (h0 : (s.mem (Ptr.buf i)).refcnt = 0) {k : Nat} (hk : k < NBUCKET) : i ∉ L k := by
  intro hm
  have := hI.pos k hk i hm
  omega

/-- A free buffer is not locked. -/
theorem Inv.free_unlocked {NBUF : Nat} {s : State} {L : Nat → List Nat} (hI : Inv NBUF s L)
    {p : Ptr} (h0 : (s.mem p).refcnt = 0) : (s.mem p).lock = none := by
  by_contra hl
  obtain ⟨_, _, _, hpos⟩ := hI.lock p hl
  omega

/-- The invariant carries over to a state with the same links and keys, the same
referenced buffers, no new lock on a free buffer, and valid referenced buffers. -/
theorem Inv.transfer {NBUF : Nat} {s t : State} {L : Nat → List Nat} (hI : Inv NBUF s L)
    (hn : ∀ p, (t.mem p).next = (s.mem p).next) (hp : ∀ p, (t.mem p).prev = (s.mem p).prev)
    (hd : ∀ p, (t.mem p).dev = (s.mem p).dev) (hb : ∀ p, (t.mem p).blockno = (s.mem p).blockno)
    (hr : ∀ p, (0 < (t.mem p).refcnt ↔ 0 < (s.mem p).refcnt))
    (hl : ∀ p, (t.mem p).lock ≠ none → (s.mem p).lock ≠ none ∨
      ∃ i, i < NBUF ∧ p = Ptr.buf i ∧ 0 < (s.mem p).refcnt)
    (hv : ∀ i, i < NBUF → 0 < (s.mem (Ptr.buf i)).refcnt → (t.mem (Ptr.buf i)).valid = true) :
    Inv NBUF t L where
  chain k hk := (hI.chain k hk).same_links hn hp
  nodup := hI.nodup
  lt := hI.lt
  home k hk i hi := by rw [hb]; exact hI.home k hk i hi
  pos k hk i hi := (hr _).mpr (hI.pos k hk i hi)
  listed i hi h := by rw [hb]; exact hI.listed i hi ((hr _).mp h)
  uniq i j hi hj h1 h2 h3 h4 := by
    rw [hd, hd] at h3; rw [hb, hb] at h4
    exact hI.uniq i j hi hj ((hr _).mp h1) ((hr _).mp h2) h3 h4
  lock p h := by
    rcases hl p h with h1 | ⟨i, hi, rfl, hpos⟩
    · obtain ⟨i, hi, rfl, hpos⟩ := hI.lock p h1
      exact ⟨i, hi, rfl, (hr _).mpr hpos⟩
    · exact ⟨i, hi, rfl, (hr _).mpr hpos⟩
  valid i hi h := hv i hi ((hr _).mp h)

/-! ## The invariant holds after `binit` -/

theorem foldl_setLock_mem (l : List Nat) :
    ∀ (t : State) (p : Ptr),
      ((l.foldl (fun t i => t.setLock (Ptr.buf i) none) t).mem p).next = (t.mem p).next ∧
      ((l.foldl (fun t i => t.setLock (Ptr.buf i) none) t).mem p).prev = (t.mem p).prev ∧
      ((l.foldl (fun t i => t.setLock (Ptr.buf i) none) t).mem p).refcnt = (t.mem p).refcnt ∧
      ((t.mem p).lock = none →
        ((l.foldl (fun t i => t.setLock (Ptr.buf i) none) t).mem p).lock = none) := by
  induction l with
  | nil => intro t p; simp
  | cons i l ih =>
    intro t p
    obtain ⟨h1, h2, h3, h4⟩ := ih (t.setLock (Ptr.buf i) none) p
    simp only [List.foldl_cons]
    refine ⟨by rw [h1]; simp, by rw [h2]; simp, by rw [h3]; simp, fun h => h4 ?_⟩
    simp only [lock_setLock]; split_ifs <;> simp [h]

theorem binit_head (NBUF : Nat) (disk : Nat → Nat → Data) {k : Nat} (hk : k < NBUCKET) :
    ((binit NBUF (boot disk)).mem (Ptr.head k)).next = Ptr.head k ∧
    ((binit NBUF (boot disk)).mem (Ptr.head k)).prev = Ptr.head k := by
  unfold binit
  obtain ⟨h1, h2, _, _⟩ := foldl_setLock_mem (List.range NBUF)
    ((List.range NBUCKET).foldl
      (fun t i => (t.setPrev (Ptr.head i) (Ptr.head i)).setNext (Ptr.head i) (Ptr.head i))
      (boot disk)) (Ptr.head k)
  simp only [h1, h2]
  unfold NBUCKET at hk
  interval_cases k <;> exact ⟨rfl, rfl⟩

theorem binit_free (NBUF : Nat) (disk : Nat → Nat → Data) (p : Ptr) :
    ((binit NBUF (boot disk)).mem p).refcnt = 0 ∧ ((binit NBUF (boot disk)).mem p).lock = none := by
  unfold binit
  obtain ⟨_, _, h3, h4⟩ := foldl_setLock_mem (List.range NBUF)
    ((List.range NBUCKET).foldl
      (fun t i => (t.setPrev (Ptr.head i) (Ptr.head i)).setNext (Ptr.head i) (Ptr.head i))
      (boot disk)) p
  have key : ∀ (l : List Nat) (t : State),
      ((l.foldl (fun t i => (t.setPrev (Ptr.head i) (Ptr.head i)).setNext (Ptr.head i)
        (Ptr.head i)) t).mem p).refcnt = (t.mem p).refcnt ∧
      ((l.foldl (fun t i => (t.setPrev (Ptr.head i) (Ptr.head i)).setNext (Ptr.head i)
        (Ptr.head i)) t).mem p).lock = (t.mem p).lock := by
    intro l
    induction l with
    | nil => intro t; simp
    | cons i l ih =>
      intro t
      obtain ⟨a, b⟩ := ih ((t.setPrev (Ptr.head i) (Ptr.head i)).setNext (Ptr.head i) (Ptr.head i))
      simp only [List.foldl_cons]
      exact ⟨by rw [a]; simp, by rw [b]; simp⟩
  obtain ⟨a, b⟩ := key (List.range NBUCKET) (boot disk)
  exact ⟨by rw [h3, a]; rfl, h4 (by rw [b]; rfl)⟩

theorem inv_binit (NBUF : Nat) (disk : Nat → Nat → Data) :
    Inv NBUF (binit NBUF (boot disk)) (fun _ => []) where
  chain k hk := binit_head NBUF disk hk
  nodup _ _ := List.nodup_nil
  lt _ _ i hi := by simp at hi
  home _ _ i hi := by simp at hi
  pos _ _ i hi := by simp at hi
  listed i _ h := by rw [(binit_free NBUF disk _).1] at h; omega
  uniq i _ _ _ h := by rw [(binit_free NBUF disk _).1] at h; omega
  lock p h := absurd (binit_free NBUF disk p).2 h
  valid i _ h := by rw [(binit_free NBUF disk _).1] at h; omega

/-! ## The invariant is kept by every call -/

/-- A hit of `bread`: the buffer found is a member of its bucket, and the state
`bread` leaves has the same lists. -/
theorem inv_bread_hit {NBUF : Nat} (pid : Nat) {s : State} {L : Nat → List Nat}
    (hI : Inv NBUF s L)
    {dev blockno : Nat} {b : Ptr}
    (hs : scan s (hash blockno) dev blockno (NBUF + 1) (s.mem (Ptr.head (hash blockno))).next
      = some (some b)) :
    (∃ i, i ∈ L (hash blockno) ∧ b = Ptr.buf i) ∧
    ((s.mem b).refcnt < 2 ^ 32 - 1 →
      Inv NBUF ((s.setRefcnt b (inc32 (s.mem b).refcnt)).setLock b (some pid)) L) := by
  rw [hI.scan] at hs
  have hfind : ((L (hash blockno)).map Ptr.buf).find? (fun p => decide (hasKey s dev blockno p))
      = some b := by simpa using hs
  obtain ⟨i, hi, rfl⟩ := List.mem_map.mp (List.mem_of_find?_eq_some hfind)
  have hk := hash_lt blockno
  have hlt := hI.lt _ hk i hi
  have hpos := hI.pos _ hk i hi
  refine ⟨⟨i, hi, rfl⟩, fun hb =>
    hI.transfer (by simp) (by simp) (by simp) (by simp) ?_ ?_ ?_⟩
  · intro p
    by_cases hp : p = Ptr.buf i
    · subst hp; simp [hpos, inc32_of_lt hb]
    · simp [hp]
  · intro p hl
    by_cases hp : p = Ptr.buf i
    · subst hp; exact Or.inr ⟨i, hlt, rfl, hpos⟩
    · left; simpa [hp] using hl
  · intro j hj hr
    simpa using hI.valid j hj hr

/-- A miss of `bread`: the first free buffer `i` goes to the front of bucket
`hash blockno`, and the state `bread` leaves satisfies the invariant again. -/
theorem inv_bread_miss {NBUF : Nat} (pid : Nat) {s : State} {L : Nat → List Nat}
    (hI : Inv NBUF s L)
    {dev blockno i : Nat}
    (hs : scan s (hash blockno) dev blockno (NBUF + 1) (s.mem (Ptr.head (hash blockno))).next
      = some none)
    (hf : firstFree NBUF s = some i) :
    Inv NBUF ((virtio_disk_rw ((recycle s (hash blockno) dev blockno (Ptr.buf i)).setLock
        (Ptr.buf i) (some pid)) (Ptr.buf i) false).setValid (Ptr.buf i) true)
      (Function.update L (hash blockno) (i :: L (hash blockno))) := by
  obtain ⟨hi, h0, _⟩ := firstFree_some hf
  have hk := hash_lt blockno
  rw [hI.scan] at hs
  have hno : ∀ j ∈ L (hash blockno), ¬ hasKey s dev blockno (Ptr.buf j) := by
    have : ((L (hash blockno)).map Ptr.buf).find? (fun p => decide (hasKey s dev blockno p))
        = none := by simpa using hs
    intro j hj
    simpa using List.find?_eq_none.mp this (Ptr.buf j) (List.mem_map.mpr ⟨j, hj, rfl⟩)
  have hnot : ∀ k, k < NBUCKET → i ∉ L k := fun k hk' => hI.free_not_mem h0 hk'
  have hne : ∀ k, k < NBUCKET → ∀ j ∈ L k, j ≠ i := by
    intro k hk' j hj e; subst e; exact hnot k hk' hj
  refine
    { chain := ?_, nodup := ?_, lt := ?_, home := ?_, pos := ?_, listed := ?_, uniq := ?_,
      lock := ?_, valid := ?_ }
  · intro k hk'
    by_cases hkk : k = hash blockno
    · subst hkk
      rw [Function.update_same]
      exact (chain_recycle dev blockno (hI.chain _ hk) (hI.nodup _ hk)
        (hnot _ hk)).same_links (by simp) (by simp)
    · rw [Function.update_noteq hkk]
      exact (chain_recycle_other dev blockno (hI.chain _ hk)
        (hI.chain k hk') hkk (hnot k hk') (hI.disjoint hk hk' hkk)).same_links
        (by simp) (by simp)
  · intro k hk'
    by_cases hkk : k = hash blockno
    · subst hkk
      rw [Function.update_same]
      exact List.nodup_cons.mpr ⟨hnot _ hk, hI.nodup _ hk⟩
    · rw [Function.update_noteq hkk]; exact hI.nodup k hk'
  · intro k hk' j hj
    by_cases hkk : k = hash blockno
    · subst hkk
      rw [Function.update_same] at hj
      rcases List.mem_cons.mp hj with rfl | hj'
      · exact hi
      · exact hI.lt _ hk j hj'
    · rw [Function.update_noteq hkk] at hj; exact hI.lt k hk' j hj
  · intro k hk' j hj
    by_cases hkk : k = hash blockno
    · subst hkk
      rw [Function.update_same] at hj
      rcases List.mem_cons.mp hj with rfl | hj'
      · simp [recycle_blockno]
      · simpa [recycle_blockno, hne _ hk j hj'] using hI.home _ hk j hj'
    · rw [Function.update_noteq hkk] at hj
      simpa [recycle_blockno, hne _ hk' j hj] using hI.home k hk' j hj
  · intro k hk' j hj
    by_cases hkk : k = hash blockno
    · subst hkk
      rw [Function.update_same] at hj
      rcases List.mem_cons.mp hj with rfl | hj'
      · simp [recycle_refcnt]
      · simpa [recycle_refcnt, hne _ hk j hj'] using hI.pos _ hk j hj'
    · rw [Function.update_noteq hkk] at hj
      simpa [recycle_refcnt, hne _ hk' j hj] using hI.pos k hk' j hj
  · intro j hj hr
    by_cases hji : j = i
    · subst hji
      have hb : ((((virtio_disk_rw ((recycle s (hash blockno) dev blockno (Ptr.buf j)).setLock
          (Ptr.buf j) (some pid)) (Ptr.buf j) false).setValid (Ptr.buf j) true)).mem
          (Ptr.buf j)).blockno = blockno := by
        simp [recycle_blockno]
      rw [hb, Function.update_same]
      exact List.mem_cons_self _ _
    · have hr' : 0 < (s.mem (Ptr.buf j)).refcnt := by simpa [recycle_refcnt, hji] using hr
      have hb : ((((virtio_disk_rw ((recycle s (hash blockno) dev blockno (Ptr.buf i)).setLock
          (Ptr.buf i) (some pid)) (Ptr.buf i) false).setValid (Ptr.buf i) true)).mem
          (Ptr.buf j)).blockno = (s.mem (Ptr.buf j)).blockno := by
        simp [recycle_blockno, hji]
      rw [hb]
      have hm := hI.listed j hj hr'
      by_cases hkk : hash (s.mem (Ptr.buf j)).blockno = hash blockno
      · rw [hkk, Function.update_same]
        rw [hkk] at hm
        exact List.mem_cons_of_mem _ hm
      · rw [Function.update_noteq hkk]; exact hm
  · intro a c ha hc hra hrc hd hb
    have key : ∀ j, j < NBUF → j ≠ i → 0 < (s.mem (Ptr.buf j)).refcnt →
        ¬ ((s.mem (Ptr.buf j)).dev = dev ∧ (s.mem (Ptr.buf j)).blockno = blockno) := by
      intro j hj _ hr ⟨e1, e2⟩
      have hm := hI.listed j hj hr
      rw [e2] at hm
      exact hno j hm ⟨e1, e2⟩
    by_cases hai : a = i <;> by_cases hci : c = i
    · rw [hai, hci]
    · subst hai
      have hr' : 0 < (s.mem (Ptr.buf c)).refcnt := by simpa [recycle_refcnt, hci] using hrc
      have e1 : dev = (s.mem (Ptr.buf c)).dev := by simpa [recycle_dev, hci] using hd
      have e2 : blockno = (s.mem (Ptr.buf c)).blockno := by
        simpa [recycle_blockno, hci] using hb
      exact absurd ⟨e1.symm, e2.symm⟩ (key c hc hci hr')
    · subst hci
      have hr' : 0 < (s.mem (Ptr.buf a)).refcnt := by simpa [recycle_refcnt, hai] using hra
      have e1 : (s.mem (Ptr.buf a)).dev = dev := by simpa [recycle_dev, hai] using hd
      have e2 : (s.mem (Ptr.buf a)).blockno = blockno := by
        simpa [recycle_blockno, hai] using hb
      exact absurd ⟨e1, e2⟩ (key a ha hai hr')
    · have hra' : 0 < (s.mem (Ptr.buf a)).refcnt := by simpa [recycle_refcnt, hai] using hra
      have hrc' : 0 < (s.mem (Ptr.buf c)).refcnt := by simpa [recycle_refcnt, hci] using hrc
      have e1 : (s.mem (Ptr.buf a)).dev = (s.mem (Ptr.buf c)).dev := by
        simpa [recycle_dev, hai, hci] using hd
      have e2 : (s.mem (Ptr.buf a)).blockno = (s.mem (Ptr.buf c)).blockno := by
        simpa [recycle_blockno, hai, hci] using hb
      exact hI.uniq a c ha hc hra' hrc' e1 e2
  · intro p hl
    by_cases hp : p = Ptr.buf i
    · subst hp
      exact ⟨i, hi, rfl, by simp [recycle_refcnt]⟩
    · have hl' : (s.mem p).lock ≠ none := by simpa [recycle_lock, hp] using hl
      obtain ⟨j, hj, rfl, hpos⟩ := hI.lock p hl'
      exact ⟨j, hj, rfl, by simpa [recycle_refcnt, hp] using hpos⟩
  · intro j hj hr
    by_cases hji : j = i
    · subst hji; simp
    · have hr' : 0 < (s.mem (Ptr.buf j)).refcnt := by simpa [recycle_refcnt, hji] using hr
      simpa [recycle_valid, hji] using hI.valid j hj hr'

/-- The state `bread` leaves when it returns, on either exit of `bget`. -/
theorem bread_ret_cases {NBUF pid : Nat} {s s1 : State} {L : Nat → List Nat} (hI : Inv NBUF s L)
    {dev blockno : Nat} {b : Ptr} (h : bread NBUF pid s dev blockno = Res.ret b s1) :
    (s.mem b).lock = none ∧
    ((scan s (hash blockno) dev blockno (NBUF + 1) (s.mem (Ptr.head (hash blockno))).next
        = some (some b) ∧ (∃ i, i ∈ L (hash blockno) ∧ b = Ptr.buf i) ∧
      s1 = (s.setRefcnt b (inc32 (s.mem b).refcnt)).setLock b (some pid)) ∨
     (∃ i, b = Ptr.buf i ∧
        scan s (hash blockno) dev blockno (NBUF + 1) (s.mem (Ptr.head (hash blockno))).next
          = some none ∧ firstFree NBUF s = some i ∧
        s1 = (virtio_disk_rw ((recycle s (hash blockno) dev blockno (Ptr.buf i)).setLock
          (Ptr.buf i) (some pid)) (Ptr.buf i) false).setValid (Ptr.buf i) true)) := by
  obtain ⟨s0, hg, hs1⟩ := bread_ret h
  obtain ⟨c, t, hr, hex⟩ := bget_exits hg (by simp) (by simp)
  obtain ⟨rfl, hfree, rfl⟩ := acquiresleep_ret hr.symm
  rcases hex with ⟨hs, rfl⟩ | ⟨i, rfl, hs, hf, rfl⟩
  · obtain ⟨⟨i, hi, rfl⟩, _⟩ := inv_bread_hit pid hI hs
    have hv : (s.mem (Ptr.buf i)).valid = true :=
      hI.valid i (hI.lt _ (hash_lt blockno) i hi) (hI.pos _ (hash_lt blockno) i hi)
    refine ⟨by simpa using hfree, Or.inl ⟨hs, ⟨i, hi, rfl⟩, ?_⟩⟩
    rw [hs1, if_neg (by simp [hv])]
  · refine ⟨by simpa [recycle_lock] using hfree, Or.inr ⟨i, rfl, hs, hf, ?_⟩⟩
    rw [hs1, if_pos (by simp [recycle_valid])]

theorem inv_bread {NBUF pid : Nat} {s s1 : State} {L : Nat → List Nat} (hI : Inv NBUF s L)
    {dev blockno : Nat} {b : Ptr} (h : bread NBUF pid s dev blockno = Res.ret b s1)
    (hb : (s.mem b).refcnt < 2 ^ 32 - 1) :
    ∃ L1, Inv NBUF s1 L1 := by
  obtain ⟨_, ⟨hs, _, rfl⟩ | ⟨i, rfl, hs, hf, rfl⟩⟩ := bread_ret_cases hI h
  · exact ⟨L, (inv_bread_hit pid hI hs).2 hb⟩
  · exact ⟨_, inv_bread_miss pid hI hs hf⟩

/-- A `brelse` that drops the last reference takes the buffer out of its list. -/
theorem inv_brelse_last {NBUF : Nat} {s s1 : State} {L : Nat → List Nat} (hI : Inv NBUF s L)
    {i : Nat} (hi : i < NBUF) (hone : (s.mem (Ptr.buf i)).refcnt = 1)
    (hrc : ∀ p, (s1.mem p).refcnt = if p = Ptr.buf i then 0 else (s.mem p).refcnt)
    (hlk : ∀ p, (s1.mem p).lock = if p = Ptr.buf i then none else (s.mem p).lock)
    (hdev : ∀ p, (s1.mem p).dev = (s.mem p).dev)
    (hbn : ∀ p, (s1.mem p).blockno = (s.mem p).blockno)
    (hv : ∀ p, (s1.mem p).valid = (s.mem p).valid)
    (hn : ∀ p, (s1.mem p).next =
      if p = (s.mem (Ptr.buf i)).prev then (s.mem (Ptr.buf i)).next else (s.mem p).next)
    (hp : ∀ p, (s1.mem p).prev =
      if p = (s.mem (Ptr.buf i)).next then (s.mem (Ptr.buf i)).prev else (s.mem p).prev) :
    Inv NBUF s1 (Function.update L (hash (s.mem (Ptr.buf i)).blockno)
      ((L (hash (s.mem (Ptr.buf i)).blockno)).erase i)) := by
  have hk := hash_lt (s.mem (Ptr.buf i)).blockno
  have hmem : i ∈ L (hash (s.mem (Ptr.buf i)).blockno) := hI.listed i hi (by omega)
  have hnd := hI.nodup _ hk
  have hother : ∀ j, j ≠ i → (s1.mem (Ptr.buf j)).refcnt = (s.mem (Ptr.buf j)).refcnt := by
    intro j hj; rw [hrc, if_neg (by simpa using hj)]
  have hposne : ∀ j, 0 < (s1.mem (Ptr.buf j)).refcnt → j ≠ i := by
    intro j hj e; subst e; rw [hrc, if_pos rfl] at hj; omega
  refine
    { chain := ?_, nodup := ?_, lt := ?_, home := ?_, pos := ?_, listed := ?_, uniq := ?_,
      lock := ?_, valid := ?_ }
  · intro k hk'
    by_cases hkk : k = hash (s.mem (Ptr.buf i)).blockno
    · subst hkk
      rw [Function.update_same]
      exact chain_unlink hn hp (hI.chain _ hk) hnd hmem (fun m _ => by simp)
    · rw [Function.update_noteq hkk]
      exact chain_unlink_other hn hp (hI.chain _ hk) hmem (hI.chain k hk') hkk
        (hI.disjoint hk hk' hkk)
  · intro k hk'
    by_cases hkk : k = hash (s.mem (Ptr.buf i)).blockno
    · subst hkk; rw [Function.update_same]; exact hnd.erase i
    · rw [Function.update_noteq hkk]; exact hI.nodup k hk'
  · intro k hk' j hj
    by_cases hkk : k = hash (s.mem (Ptr.buf i)).blockno
    · subst hkk; rw [Function.update_same] at hj
      exact hI.lt _ hk j (List.mem_of_mem_erase hj)
    · rw [Function.update_noteq hkk] at hj; exact hI.lt k hk' j hj
  · intro k hk' j hj
    rw [hbn]
    by_cases hkk : k = hash (s.mem (Ptr.buf i)).blockno
    · subst hkk; rw [Function.update_same] at hj
      exact hI.home _ hk j (List.mem_of_mem_erase hj)
    · rw [Function.update_noteq hkk] at hj; exact hI.home k hk' j hj
  · intro k hk' j hj
    by_cases hkk : k = hash (s.mem (Ptr.buf i)).blockno
    · subst hkk; rw [Function.update_same] at hj
      have hji : j ≠ i := (hnd.mem_erase_iff.mp hj).1
      rw [hother j hji]
      exact hI.pos _ hk j (List.mem_of_mem_erase hj)
    · rw [Function.update_noteq hkk] at hj
      have hji : j ≠ i := by
        intro e; subst e
        exact hI.disjoint hk hk' hkk j hmem hj
      rw [hother j hji]
      exact hI.pos k hk' j hj
  · intro j hj hr
    have hji := hposne j hr
    rw [hother j hji] at hr
    have hm := hI.listed j hj hr
    rw [hbn]
    by_cases hkk : hash (s.mem (Ptr.buf j)).blockno = hash (s.mem (Ptr.buf i)).blockno
    · rw [hkk, Function.update_same]
      rw [hkk] at hm
      exact (List.mem_erase_of_ne hji).mpr hm
    · rw [Function.update_noteq hkk]; exact hm
  · intro a c ha hc hra hrc' hd hb
    rw [hother a (hposne a hra)] at hra
    rw [hother c (hposne c hrc')] at hrc'
    rw [hdev, hdev] at hd
    rw [hbn, hbn] at hb
    exact hI.uniq a c ha hc hra hrc' hd hb
  · intro p hl
    rw [hlk] at hl
    by_cases hpb : p = Ptr.buf i
    · rw [if_pos hpb] at hl; exact absurd rfl hl
    · rw [if_neg hpb] at hl
      obtain ⟨j, hj, rfl, hpos⟩ := hI.lock p hl
      exact ⟨j, hj, rfl, by rw [hrc, if_neg hpb]; exact hpos⟩
  · intro j hj hr
    have hji := hposne j hr
    rw [hother j hji] at hr
    rw [hv]
    exact hI.valid j hj hr

theorem inv_brelse {NBUF pid : Nat} {s s1 : State} {L : Nat → List Nat} (hI : Inv NBUF s L)
    {b : Ptr} (h : brelse pid s b = Res.ret () s1) : ∃ L1, Inv NBUF s1 L1 := by
  have hheld := brelse_ret_held h
  obtain ⟨i, hi, rfl, hpos⟩ := hI.lock b (by rw [hheld]; simp)
  obtain ⟨t, ht, hrc, hlk, hdev, hbn, hv, _, _, _, hn, hp⟩ := brelse_held hheld
  rw [ht] at h
  obtain rfl : t = s1 := by simpa using h
  by_cases hone : (s.mem (Ptr.buf i)).refcnt = 1
  · have hz : dec32 (s.mem (Ptr.buf i)).refcnt = 0 := dec32_eq_zero.mpr hone
    refine ⟨_, inv_brelse_last hI hi hone ?_ hlk hdev hbn hv ?_ ?_⟩
    · intro p; rw [hrc, hz]
    · intro p; rw [hn]; simp [hz]
    · intro p; rw [hp]; simp [hz]
  · have hz : ¬ dec32 (s.mem (Ptr.buf i)).refcnt = 0 := fun e => hone (dec32_eq_zero.mp e)
    have hd : dec32 (s.mem (Ptr.buf i)).refcnt = (s.mem (Ptr.buf i)).refcnt - 1 :=
      dec32_of_pos hpos
    refine ⟨L, hI.transfer ?_ ?_ hdev hbn ?_ ?_ ?_⟩
    · intro p; rw [hn]; simp [hz]
    · intro p; rw [hp]; simp [hz]
    · intro p
      rw [hrc]
      by_cases hpb : p = Ptr.buf i
      · subst hpb; rw [if_pos rfl, hd]; omega
      · rw [if_neg hpb]
    · intro p hl
      rw [hlk] at hl
      by_cases hpb : p = Ptr.buf i
      · rw [if_pos hpb] at hl; exact absurd rfl hl
      · rw [if_neg hpb] at hl; exact Or.inl hl
    · intro j hj hr; rw [hv]; exact hI.valid j hj hr

theorem inv_bwrite {NBUF pid : Nat} {s s1 : State} {L : Nat → List Nat} (hI : Inv NBUF s L)
    {b : Ptr} (h : bwrite pid s b = Res.ret () s1) : Inv NBUF s1 L := by
  obtain ⟨_, rfl⟩ := bwrite_ret h
  exact hI.transfer (by simp) (by simp) (by simp) (by simp) (by simp) (fun p hl => Or.inl hl)
    (fun j hj hr => by simpa using hI.valid j hj hr)

theorem inv_bpin {NBUF pid : Nat} {s : State} {L : Nat → List Nat} (hI : Inv NBUF s L)
    {b : Ptr} (h : holdingsleep pid s b = true) (hb : (s.mem b).refcnt < 2 ^ 32 - 1) :
    Inv NBUF (bpin s b) L := by
  have hheld : (s.mem b).lock = some pid := by simpa [holdingsleep] using h
  obtain ⟨i, hi, rfl, hpos⟩ := hI.lock b (by rw [hheld]; simp)
  unfold bpin
  refine hI.transfer (by simp) (by simp) (by simp) (by simp) ?_ (fun p hl => Or.inl ?_)
    (fun j hj hr => by simpa using hI.valid j hj hr)
  · intro p
    by_cases hpb : p = Ptr.buf i
    · subst hpb; simp [hpos, inc32_of_lt hb]
    · simp [hpb]
  · simpa using hl

theorem inv_bunpin {NBUF pid : Nat} {s s1 : State} {L : Nat → List Nat} (hI : Inv NBUF s L)
    {b : Ptr} (h : holdingsleep pid s b = true) (hu : bunpin s b = Res.ret () s1) :
    Inv NBUF s1 L := by
  have hheld : (s.mem b).lock = some pid := by simpa [holdingsleep] using h
  obtain ⟨i, hi, rfl, hpos⟩ := hI.lock b (by rw [hheld]; simp)
  rw [bunpin_eq] at hu
  split_ifs at hu with hone
  obtain rfl : s.setRefcnt (Ptr.buf i) (dec32 (s.mem (Ptr.buf i)).refcnt) = s1 := by
    simpa using hu
  refine hI.transfer (by simp) (by simp) (by simp) (by simp) ?_ (fun p hl => Or.inl ?_)
    (fun j hj hr => by simpa using hI.valid j hj hr)
  · intro p
    by_cases hpb : p = Ptr.buf i
    · subst hpb; simp [dec32_of_pos hpos, hpos]; omega
    · simp [hpb]
  · simpa using hl

theorem inv_modify {NBUF : Nat} {s : State} {L : Nat → List Nat} (hI : Inv NBUF s L)
    (b : Ptr) (d : Data) : Inv NBUF (s.setData b d) L :=
  hI.transfer (by simp) (by simp) (by simp) (by simp) (by simp) (fun p hl => Or.inl (by simpa using hl))
    (fun j hj hr => by simpa using hI.valid j hj hr)

/-- Every reachable state satisfies the representation invariant. -/
theorem inv_reachable {NBUF : Nat} {s : State} (h : Reachable NBUF s) : ∃ L, Inv NBUF s L := by
  induction h with
  | init disk => exact ⟨_, inv_binit NBUF disk⟩
  | bread pid dev blockno b _ hb hlt ih => obtain ⟨L, hI⟩ := ih; exact inv_bread hI hb hlt
  | brelse pid b _ hb ih => obtain ⟨L, hI⟩ := ih; exact inv_brelse hI hb
  | bwrite pid b _ hb ih => obtain ⟨L, hI⟩ := ih; exact ⟨L, inv_bwrite hI hb⟩
  | bpin pid b _ hb hlt ih => obtain ⟨L, hI⟩ := ih; exact ⟨L, inv_bpin hI hb hlt⟩
  | bunpin pid b _ hb hu ih => obtain ⟨L, hI⟩ := ih; exact ⟨L, inv_bunpin hI hb hu⟩
  | modify pid b d _ _ ih => obtain ⟨L, hI⟩ := ih; exact ⟨L, inv_modify hI b d⟩

/-! ## `brelse` on a state that satisfies the invariant -/

/-- The lists after `brelse` of a held buffer: the buffer leaves the list of its
bucket when its last reference goes, and nothing moves otherwise. -/
theorem brelse_inv {NBUF pid : Nat} {s : State} {L : Nat → List Nat} (hI : Inv NBUF s L)
    {i : Nat} (hheld : (s.mem (Ptr.buf i)).lock = some pid) :
    i < NBUF ∧ 0 < (s.mem (Ptr.buf i)).refcnt ∧ i ∈ L (hash (s.mem (Ptr.buf i)).blockno) ∧
    ∃ s1, brelse pid s (Ptr.buf i) = Res.ret () s1 ∧
      ((s.mem (Ptr.buf i)).refcnt = 1 →
        Inv NBUF s1 (Function.update L (hash (s.mem (Ptr.buf i)).blockno)
          ((L (hash (s.mem (Ptr.buf i)).blockno)).erase i))) ∧
      ((s.mem (Ptr.buf i)).refcnt ≠ 1 → Inv NBUF s1 L) := by
  obtain ⟨j, hj, e, hpos⟩ := hI.lock (Ptr.buf i) (by rw [hheld]; simp)
  obtain rfl : i = j := by injection e
  obtain ⟨s1, ht, hrc, hlk, hdev, hbn, hv, _, _, _, hn, hp⟩ := brelse_held hheld
  refine ⟨hj, hpos, hI.listed i hj hpos, s1, ht, fun hone => ?_, fun hone => ?_⟩
  · have hz : dec32 (s.mem (Ptr.buf i)).refcnt = 0 := dec32_eq_zero.mpr hone
    refine inv_brelse_last hI hj hone ?_ hlk hdev hbn hv ?_ ?_
    · intro p; rw [hrc, hz]
    · intro p; rw [hn]; simp [hz]
    · intro p; rw [hp]; simp [hz]
  · have hz : ¬ dec32 (s.mem (Ptr.buf i)).refcnt = 0 := fun e => hone (dec32_eq_zero.mp e)
    have hd : dec32 (s.mem (Ptr.buf i)).refcnt = (s.mem (Ptr.buf i)).refcnt - 1 :=
      dec32_of_pos hpos
    refine hI.transfer ?_ ?_ hdev hbn ?_ ?_ ?_
    · intro p; rw [hn]; simp [hz]
    · intro p; rw [hp]; simp [hz]
    · intro p
      rw [hrc]
      by_cases hpb : p = Ptr.buf i
      · subst hpb; rw [if_pos rfl, hd]; omega
      · rw [if_neg hpb]
    · intro p hl
      rw [hlk] at hl
      by_cases hpb : p = Ptr.buf i
      · rw [if_pos hpb] at hl; exact absurd rfl hl
      · rw [if_neg hpb] at hl; exact Or.inl hl
    · intro j hj hr; rw [hv]; exact hI.valid j hj hr

theorem buf_injective : Function.Injective Ptr.buf := fun _ _ e => by injection e

/-! ## `bpin` called over and over -/

theorem setRefcnt_setRefcnt (s : State) (b : Ptr) (x y : Nat) :
    (s.setRefcnt b x).setRefcnt b y = s.setRefcnt b y := by
  unfold State.setRefcnt State.upd
  congr 1
  funext q
  by_cases h : q = b <;> simp [h]

/-- The state after `n + 1` calls of `bpin(b)`. -/
theorem pins_succ (s : State) (b : Ptr) (hlt : (s.mem b).refcnt < 2 ^ 32) :
    ∀ n, pins (n + 1) s b = s.setRefcnt b (((s.mem b).refcnt + (n + 1)) % 2 ^ 32)
  | 0 => by
    simp only [pins, bpin, inc32]
  | n + 1 => by
    rw [pins, pins_succ s b hlt n, bpin, setRefcnt_setRefcnt]
    congr 1
    simp only [refcnt_setRefcnt, if_true, inc32]
    omega

/-! ## Several processes: the invariant and the count of the references -/

/-- A change of a positive `refcnt` into a positive one keeps the invariant. -/
theorem inv_setRefcnt {NBUF : Nat} {s : State} {L : Nat → List Nat} (hI : Inv NBUF s L)
    {b : Ptr} (hpos : 0 < (s.mem b).refcnt) {n : Nat} (hn : 0 < n) :
    Inv NBUF (s.setRefcnt b n) L := by
  refine hI.transfer (by simp) (by simp) (by simp) (by simp) ?_
    (fun p hl => Or.inl (by simpa using hl)) (fun j hj hr => by simpa using hI.valid j hj hr)
  intro p
  by_cases hp : p = b
  · subst hp; simp [hpos, hn]
  · simp [hp]

theorem bread_sleep {NBUF pid : Nat} {s s1 : State} {dev blockno : Nat} {b : Ptr}
    (h : bread NBUF pid s dev blockno = Res.sleep b s1) :
    bget NBUF pid s dev blockno = Res.sleep b s1 := by
  cases hg : bget NBUF pid s dev blockno with
  | ret c t => rw [bread_of_bget hg] at h; split_ifs at h
  | sleep c t => simpa [bread, hg] using h
  | panic m => simp [bread, hg] at h
  | diverge => simp [bread, hg] at h

/-- A `bread` only goes to sleep on a buffer of the list it has walked, with
`refcnt` raised by one. -/
theorem bread_sleep_cases {NBUF pid : Nat} {s s1 : State} {L : Nat → List Nat}
    (hI : Inv NBUF s L) {dev blockno : Nat} {b : Ptr}
    (h : bread NBUF pid s dev blockno = Res.sleep b s1) :
    (∃ i, i ∈ L (hash blockno) ∧ b = Ptr.buf i) ∧ (s.mem b).lock ≠ none ∧
    s1 = s.setRefcnt b (inc32 (s.mem b).refcnt) := by
  obtain ⟨c, t, hr, hex⟩ := bget_exits (bread_sleep h) (by simp) (by simp)
  obtain ⟨rfl, hl, rfl⟩ := acquiresleep_sleep hr.symm
  rcases hex with ⟨hs, rfl⟩ | ⟨i, rfl, _, hf, rfl⟩
  · exact ⟨(inv_bread_hit pid hI hs).1, by simpa using hl, rfl⟩
  · obtain ⟨_, h0, _⟩ := firstFree_some hf
    exact absurd (hI.free_unlocked h0) (by simpa [recycle_lock] using hl)

/-- A `bread` that is resumed takes the lock and changes nothing else, since the
buffer it slept on is still referenced, by itself, and so valid. -/
theorem breadWake_ret {NBUF pid : Nat} {s s1 : State} {L : Nat → List Nat} (hI : Inv NBUF s L)
    {i : Nat} (hi : i < NBUF) (hpos : 0 < (s.mem (Ptr.buf i)).refcnt)
    (h : breadWake pid s (Ptr.buf i) = Res.ret (Ptr.buf i) s1) :
    (s.mem (Ptr.buf i)).lock = none ∧ s1 = s.setLock (Ptr.buf i) (some pid) := by
  unfold breadWake at h
  by_cases hl : (s.mem (Ptr.buf i)).lock = none
  · rw [acquiresleep_free hl] at h
    have hv : (s.mem (Ptr.buf i)).valid = true := hI.valid i hi hpos
    simp [hv] at h
    exact ⟨hl, h.symm⟩
  · rw [acquiresleep_held hl] at h
    simp at h

/-- In every state of `Run` the representation invariant holds, the references
counted by `S` and `P` and the one of the holder are all in `refcnt`, and only
buffers of the pool are slept on or pinned. -/
theorem run_inv {NBUF : Nat} {s : State} {S P : Ptr → Nat} (h : Run NBUF s S P) :
    (∃ L, Inv NBUF s L) ∧
    (∀ p, (if (s.mem p).lock = none then 0 else 1) + S p + P p ≤ (s.mem p).refcnt) ∧
    (∀ p, 0 < S p + P p → ∃ i, i < NBUF ∧ p = Ptr.buf i) := by
  induction h with
  | init disk =>
    refine ⟨⟨_, inv_binit NBUF disk⟩, fun p => ?_, fun p hp => by simp at hp⟩
    simp [(binit_free NBUF disk p).2]
  | @bread s s1 S P pid dev blockno b _ hb hlt ih =>
    obtain ⟨⟨L, hI⟩, hacc, hpool⟩ := ih
    refine ⟨inv_bread hI hb hlt, fun p => ?_, hpool⟩
    have hp := hacc p
    obtain ⟨hfree, ⟨_, _, rfl⟩ | ⟨i, rfl, _, hf, rfl⟩⟩ := bread_ret_cases hI hb
    · by_cases hpb : p = b
      · subst hpb
        rw [if_pos hfree] at hp
        simp [inc32_of_lt hlt]
        omega
      · simpa [hpb] using hp
    · obtain ⟨_, h0, _⟩ := firstFree_some hf
      by_cases hpb : p = Ptr.buf i
      · subst hpb
        rw [h0] at hp
        simp [recycle_refcnt]
        omega
      · simpa [recycle_refcnt, recycle_lock, hpb] using hp
  | @sleep s s1 S P pid dev blockno b _ hb hlt ih =>
    obtain ⟨⟨L, hI⟩, hacc, hpool⟩ := ih
    obtain ⟨⟨i, hi, rfl⟩, hl, rfl⟩ := bread_sleep_cases hI hb
    have hk := hash_lt blockno
    have hpos := hI.pos _ hk i hi
    refine ⟨⟨L, inv_setRefcnt hI hpos (by rw [inc32_of_lt hlt]; omega)⟩, fun p => ?_,
      fun p hp => ?_⟩
    · have hp := hacc p
      by_cases hpb : p = Ptr.buf i
      · subst hpb
        rw [Function.update_same]
        simp [inc32_of_lt hlt]
        omega
      · rw [Function.update_noteq hpb]
        simpa [hpb] using hp
    · by_cases hpb : p = Ptr.buf i
      · exact ⟨i, hI.lt _ hk i hi, hpb⟩
      · rw [Function.update_noteq hpb] at hp
        exact hpool p hp
  | @wake s s1 S P pid b _ hS hw ih =>
    obtain ⟨⟨L, hI⟩, hacc, hpool⟩ := ih
    obtain ⟨i, hi, rfl⟩ := hpool b (by omega)
    have hpos : 0 < (s.mem (Ptr.buf i)).refcnt := by
      have := hacc (Ptr.buf i)
      omega
    obtain ⟨hfree, rfl⟩ := breadWake_ret hI hi hpos hw
    refine ⟨⟨L, hI.transfer (by simp) (by simp) (by simp) (by simp) (by simp) ?_
      (fun j hj hr => by simpa using hI.valid j hj hr)⟩, fun p => ?_, fun p hp => ?_⟩
    · intro p hl
      by_cases hpb : p = Ptr.buf i
      · subst hpb; exact Or.inr ⟨i, hi, rfl, hpos⟩
      · left; simpa [hpb] using hl
    · have hp := hacc p
      by_cases hpb : p = Ptr.buf i
      · subst hpb
        rw [Function.update_same]
        rw [if_pos hfree] at hp
        simp
        omega
      · rw [Function.update_noteq hpb]
        simpa [hpb] using hp
    · by_cases hpb : p = Ptr.buf i
      · exact ⟨i, hi, hpb⟩
      · rw [Function.update_noteq hpb] at hp
        exact hpool p hp
  | @brelse s s1 S P pid b _ hb ih =>
    obtain ⟨⟨L, hI⟩, hacc, hpool⟩ := ih
    refine ⟨inv_brelse hI hb, fun p => ?_, hpool⟩
    have hheld := brelse_ret_held hb
    obtain ⟨t, ht, hrc, hlk, _⟩ := brelse_held hheld
    rw [ht] at hb
    obtain rfl : t = s1 := by simpa using hb
    have hp := hacc p
    rw [hrc, hlk]
    by_cases hpb : p = b
    · subst hpb
      rw [hheld] at hp
      simp only [if_true]
      have hr : 0 < (s.mem p).refcnt := by simp at hp; omega
      rw [dec32_of_pos hr]
      simp at hp ⊢
      omega
    · rw [if_neg hpb, if_neg hpb]; exact hp
  | @bwrite s s1 S P pid b _ hb ih =>
    obtain ⟨⟨L, hI⟩, hacc, hpool⟩ := ih
    refine ⟨⟨L, inv_bwrite hI hb⟩, fun p => ?_, hpool⟩
    obtain ⟨_, rfl⟩ := bwrite_ret hb
    simpa using hacc p
  | @bpin s S P pid b _ hb hlt ih =>
    obtain ⟨⟨L, hI⟩, hacc, hpool⟩ := ih
    have hheld : (s.mem b).lock = some pid := by simpa [holdingsleep] using hb
    obtain ⟨i, hi, rfl, _⟩ := hI.lock b (by rw [hheld]; simp)
    refine ⟨⟨L, inv_bpin hI hb hlt⟩, fun p => ?_, fun p hp => ?_⟩
    · have hp := hacc p
      unfold bpin
      by_cases hpb : p = Ptr.buf i
      · subst hpb
        rw [Function.update_same]
        simp [inc32_of_lt hlt]
        omega
      · rw [Function.update_noteq hpb]
        simpa [hpb] using hp
    · by_cases hpb : p = Ptr.buf i
      · exact ⟨i, hi, hpb⟩
      · rw [Function.update_noteq hpb] at hp
        exact hpool p hp
  | @bunpin s s1 S P pid b _ hb hP hu ih =>
    obtain ⟨⟨L, hI⟩, hacc, hpool⟩ := ih
    have hheld : (s.mem b).lock = some pid := by simpa [holdingsleep] using hb
    obtain ⟨i, hi, rfl, hpos⟩ := hI.lock b (by rw [hheld]; simp)
    refine ⟨⟨L, inv_bunpin hI hb hu⟩, fun p => ?_, fun p hp => ?_⟩
    · rw [bunpin_eq] at hu
      split_ifs at hu with hone
      obtain rfl : s.setRefcnt (Ptr.buf i) (dec32 (s.mem (Ptr.buf i)).refcnt) = s1 := by
        simpa using hu
      have hp := hacc p
      by_cases hpb : p = Ptr.buf i
      · subst hpb
        have hne : (s.mem (Ptr.buf i)).lock ≠ none := by rw [hheld]; simp
        rw [if_neg hne] at hp
        rw [Function.update_same]
        simp only [refcnt_setRefcnt, lock_setRefcnt, if_true, if_neg hne, dec32_of_pos hpos]
        omega
      · rw [Function.update_noteq hpb]
        simpa [hpb] using hp
    · by_cases hpb : p = Ptr.buf i
      · exact ⟨i, hi, hpb⟩
      · rw [Function.update_noteq hpb] at hp
        exact hpool p hp
  | @modify s S P pid b d _ _ ih =>
    obtain ⟨⟨L, hI⟩, hacc, hpool⟩ := ih
    exact ⟨⟨L, inv_modify hI b d⟩, fun p => by simpa using hacc p, hpool⟩

/-! ## Helpers for the scenario and the concrete states -/

/-- On a state that satisfies the invariant, a miss with a free buffer: `bget`
returns the lowest free buffer, recycled and linked behind the bucket head. -/
theorem bget_miss_inv {NBUF : Nat} (pid : Nat) {s : State} {L : Nat → List Nat}
    (hI : Inv NBUF s L)
    {dev blockno : Nat}
    (hmiss : ∀ j ∈ L (hash blockno), ¬ hasKey s dev blockno (Ptr.buf j))
    (hfree : ∃ j, j < NBUF ∧ (s.mem (Ptr.buf j)).refcnt = 0) :
    ∃ i, i < NBUF ∧ (s.mem (Ptr.buf i)).refcnt = 0 ∧
      (∀ j, j < i → (s.mem (Ptr.buf j)).refcnt ≠ 0) ∧
      scan s (hash blockno) dev blockno (NBUF + 1) (s.mem (Ptr.head (hash blockno))).next
        = some none ∧
      firstFree NBUF s = some i ∧
      bget NBUF pid s dev blockno = Res.ret (Ptr.buf i)
        ((recycle s (hash blockno) dev blockno (Ptr.buf i)).setLock (Ptr.buf i) (some pid)) ∧
      bucketList NBUF
        ((recycle s (hash blockno) dev blockno (Ptr.buf i)).setLock (Ptr.buf i) (some pid))
        (hash blockno) = some (Ptr.buf i :: (L (hash blockno)).map Ptr.buf) := by
  have hk := hash_lt blockno
  have hs : scan s (hash blockno) dev blockno (NBUF + 1) (s.mem (Ptr.head (hash blockno))).next
      = some none := by
    rw [hI.scan]
    congr 1
    rw [List.find?_eq_none]
    intro p hp
    obtain ⟨j, hj, rfl⟩ := List.mem_map.mp hp
    simpa using hmiss j hj
  obtain ⟨i, hf⟩ : ∃ i, firstFree NBUF s = some i := by
    cases hf : firstFree NBUF s with
    | some i => exact ⟨i, rfl⟩
    | none =>
      obtain ⟨j, hj, h0⟩ := hfree
      exact absurd h0 (firstFree_none hf j hj)
  obtain ⟨hi, h0, hmin⟩ := firstFree_some hf
  have hnot : i ∉ L (hash blockno) := hI.free_not_mem h0 hk
  refine ⟨i, hi, h0, hmin, hs, hf, ?_, ?_⟩
  · rw [bget_miss pid hs hf, acquiresleep_free (by rw [recycle_lock]; exact hI.free_unlocked h0)]
  · have hc : ChainFrom ((recycle s (hash blockno) dev blockno (Ptr.buf i)).setLock (Ptr.buf i)
        (some pid)) (Ptr.head (hash blockno)) (Ptr.head (hash blockno))
        (i :: L (hash blockno)) :=
      (chain_recycle dev blockno (hI.chain _ hk) (hI.nodup _ hk)
        hnot).same_links (by simp) (by simp)
    have hlen : (i :: L (hash blockno)).length ≤ NBUF :=
      length_le_of_nodup_lt (List.nodup_cons.mpr ⟨hnot, hI.nodup _ hk⟩)
        (fun j hj => by
          rcases List.mem_cons.mp hj with rfl | hj'
          · exact hi
          · exact hI.lt _ hk j hj')
    have := walk_of_chain hc (Nat.lt_succ_of_le hlen)
    simpa [bucketList] using this

/-- One round of the scenario, from any state in which the list of bucket 1 is
empty and buffer 0 is free: `bread(0, 5)` takes buffer 0 and reads the disk, and
`brelse` leaves the bucket empty and buffer 0 free again. -/
theorem readRelease_round (pid : Nat) (s : State)
    (h1 : (s.mem (Ptr.head 1)).next = Ptr.head 1)
    (h3 : (s.mem (Ptr.buf 0)).refcnt = 0) (h4 : (s.mem (Ptr.buf 0)).lock = none) :
    ∃ s1, readRelease 4 pid s 0 5 = Res.ret (s.disk 0 5) s1 ∧
      (s1.mem (Ptr.head 1)).next = Ptr.head 1 ∧
      (s1.mem (Ptr.buf 0)).refcnt = 0 ∧ (s1.mem (Ptr.buf 0)).lock = none ∧
      s1.io = s.io ++ [⟨false, 0, 5⟩] ∧ s1.disk = s.disk := by
  have hh : hash 5 = 1 := by decide
  have hs : scan s (hash 5) 0 5 (4 + 1) (s.mem (Ptr.head (hash 5))).next = some none := by
    rw [hh, h1]; simp [scan]
  have hf : firstFree 4 s = some 0 := firstFree_eq (by decide) h3 (fun j hj => by omega)
  have hg := bget_miss pid hs hf
  rw [hh, acquiresleep_free (by rw [recycle_lock]; exact h4)] at hg
  have hb := bread_of_bget hg
  rw [if_pos (by simp [recycle_valid])] at hb
  have hlk : ((((virtio_disk_rw ((recycle s 1 0 5 (Ptr.buf 0)).setLock (Ptr.buf 0) (some pid))
      (Ptr.buf 0) false).setValid (Ptr.buf 0) true)).mem (Ptr.buf 0)).lock = some pid := by
    simp
  obtain ⟨s2, hrel, hrc, hlk2, -, -, -, -, hdisk, hio, hnext, -⟩ := brelse_held hlk
  refine ⟨s2, ?_, ?_, ?_, ?_, ?_, ?_⟩
  · simp only [readRelease, hb, hrel]
    simp [recycle_dev, recycle_blockno, recycle_disk]
  · rw [hnext]; simp [recycle_refcnt, dec32, recycle_next, recycle_prev, h1]
  · rw [hrc, if_pos rfl]; simp [recycle_refcnt, dec32]
  · rw [hlk2, if_pos rfl]
  · rw [hio]; simp [vdr_read_io, recycle_dev, recycle_blockno, recycle_io]
  · rw [hdisk]; simp [vdr_read_disk, recycle_disk]

/-- The three rounds of the scenario one by one: each `bread` issues one disk read
and returns the block on disk. -/
theorem scenario_eq (pid : Nat) (disk : Nat → Nat → Data) :
    ∃ s1 s2 s3,
      readRelease 4 pid (binit 4 (boot disk)) 0 5 = Res.ret (disk 0 5) s1 ∧
      s1.io = [⟨false, 0, 5⟩] ∧
      readRelease 4 pid s1 0 5 = Res.ret (disk 0 5) s2 ∧
      s2.io = [⟨false, 0, 5⟩, ⟨false, 0, 5⟩] ∧
      readRelease 4 pid s2 0 5 = Res.ret (disk 0 5) s3 ∧
      s3.io = [⟨false, 0, 5⟩, ⟨false, 0, 5⟩, ⟨false, 0, 5⟩] ∧
      scenario pid disk = Res.ret [disk 0 5, disk 0 5, disk 0 5] s3 := by
  obtain ⟨s1, e1, a1, c1, d1, i1, k1⟩ :=
    readRelease_round pid (binit 4 (boot disk)) rfl rfl rfl
  obtain ⟨s2, e2, a2, c2, d2, i2, k2⟩ := readRelease_round pid s1 a1 c1 d1
  obtain ⟨s3, e3, _, _, _, i3, _⟩ := readRelease_round pid s2 a2 c2 d2
  have k0 : (binit 4 (boot disk)).disk = disk := rfl
  have j1 : s1.io = [⟨false, 0, 5⟩] := by rw [i1]; rfl
  have j2 : s2.io = [⟨false, 0, 5⟩, ⟨false, 0, 5⟩] := by rw [i2, j1]; rfl
  have j3 : s3.io = [⟨false, 0, 5⟩, ⟨false, 0, 5⟩, ⟨false, 0, 5⟩] := by rw [i3, j2]; rfl
  rw [k0] at e1
  rw [k1, k0] at e2
  rw [k2, k1, k0] at e3
  refine ⟨s1, s2, s3, e1, j1, e2, j2, e3, j3, ?_⟩
  simp only [scenario, e1, e2, e3]

/-- The scenario on any disk: from the state left by `binit` with a pool of 4
buffers and 13 buckets, `bread(0,5); brelse; bread(0,5); brelse; bread(0,5); brelse`
performs three disk reads, one in each `bread` (each `brelse` takes the buffer
out of its bucket, so the next `bread` finds no match and recycles a buffer
with `valid = 0`); the data of the three returned buffers is block 5 of device
0 on disk. -/
theorem scenario_three_reads (pid : Nat) (disk : Nat → Nat → Data) :
    ∃ s1 s2 s3,
      readRelease 4 pid (binit 4 (boot disk)) 0 5 = Res.ret (disk 0 5) s1 ∧
      s1.io = [⟨false, 0, 5⟩] ∧
      readRelease 4 pid s1 0 5 = Res.ret (disk 0 5) s2 ∧
      s2.io = [⟨false, 0, 5⟩, ⟨false, 0, 5⟩] ∧
      readRelease 4 pid s2 0 5 = Res.ret (disk 0 5) s3 ∧
      s3.io = [⟨false, 0, 5⟩, ⟨false, 0, 5⟩, ⟨false, 0, 5⟩] ∧
      scenario pid disk = Res.ret [disk 0 5, disk 0 5, disk 0 5] s3 ∧
      diskReads s3 = 3 := by
  obtain ⟨s1, s2, s3, h1, h2, h3, h4, h5, h6, h7⟩ := scenario_eq pid disk
  exact ⟨s1, s2, s3, h1, h2, h3, h4, h5, h6, h7, by rw [diskReads, h6]; rfl⟩

theorem reach_st0 : Reachable 4 st0 := Reachable.init disk0

theorem reach_st1 : Reachable 4 st1 :=
  Reachable.bread 1 0 5 (Ptr.buf 0) reach_st0 rfl (by decide)

theorem reach_st3 : Reachable 4 st3 :=
  Reachable.bread 2 0 9 (Ptr.buf 1) reach_st1 rfl (by decide)

theorem run_st1 : Run 4 st1 (fun _ => 0) (fun _ => 0) :=
  Run.bread 1 0 5 (Ptr.buf 0) (Run.init disk0) rfl (by decide)

theorem run_st3 : Run 4 st3 (fun _ => 0) (fun _ => 0) :=
  Run.bread 2 0 9 (Ptr.buf 1) run_st1 rfl (by decide)

/-- After `2^32 - 1` calls of `bpin`, `refcnt` of buffer 0 has gone from 1 round to 0. -/
theorem pins_st1 : pins (2 ^ 32 - 1) st1 (Ptr.buf 0) = st1.setRefcnt (Ptr.buf 0) 0 := by
  have h1 : (st1.mem (Ptr.buf 0)).refcnt = 1 := by decide
  have := pins_succ st1 (Ptr.buf 0) (by rw [h1]; decide) (2 ^ 32 - 2)
  rw [h1] at this
  exact this

/-- After `2^32 - 1` calls of `bpin`, `refcnt` of buffer 0 has gone from 2 round to
1: the state is the one a single `bunpin` leaves. -/
theorem pins_stA : pins (2 ^ 32 - 1) stA (Ptr.buf 0) = stB := by
  have h1 : (stA.mem (Ptr.buf 0)).refcnt = 2 := by decide
  have := pins_succ stA (Ptr.buf 0) (by rw [h1]; decide) (2 ^ 32 - 2)
  rw [h1] at this
  exact this

/-! ## The claims about the buffer cache -/

/-- C1, evaluated on the disk `disk0`: the scenario returns the same data three
times, with three disk reads in the trace where the claim, and the header of
bio.c ("caching disk blocks in memory reduces the number of disk reads"), have
one. -/
theorem scenario_not_one_read :
    ∃ s, scenario 1 disk0 = Res.ret [[0, 5, 7], [0, 5, 7], [0, 5, 7]] s ∧
      diskReads s = 3 ∧ diskReads s ≠ 1 :=
  ⟨_, rfl, rfl, by decide⟩

/-- C2. In every reachable state, for every buffer `b` whose sleep-lock the caller
`pid` holds: `bwrite(b)` returns, `brelse(b)` returns, and a `bread` of the key of
`b` that follows (by any process `pid2`) returns without a fatal error a buffer
with that key whose `data` is the `data` `b` had at the time of `bwrite`. -/
theorem write_release_read (NBUF pid pid2 : Nat) (s : State) (h : Reachable NBUF s) (b : Ptr)
    (hheld : holdingsleep pid s b = true) :
    ∃ s1 s2 c s3, bwrite pid s b = Res.ret () s1 ∧ brelse pid s1 b = Res.ret () s2 ∧
      bread NBUF pid2 s2 (s.mem b).dev (s.mem b).blockno = Res.ret c s3 ∧
      (s3.mem c).dev = (s.mem b).dev ∧ (s3.mem c).blockno = (s.mem b).blockno ∧
      (s3.mem c).data = (s.mem b).data := by
  obtain ⟨L, hI⟩ := inv_reachable h
  have hlock : (s.mem b).lock = some pid := by simpa [holdingsleep] using hheld
  obtain ⟨i, hi, rfl, hpos⟩ := hI.lock b (by rw [hlock]; simp)
  have hw := bwrite_held hlock
  have hI1 := inv_bwrite hI hw
  have hlock1 : ((virtio_disk_rw s (Ptr.buf i) true).mem (Ptr.buf i)).lock = some pid := by
    simpa using hlock
  obtain ⟨s2, hrel, hrc, hlk, hdev, hbn, hv, hdata, hdisk, _, _, _⟩ := brelse_held hlock1
  obtain ⟨L2, hI2⟩ := inv_brelse hI1 hrel
  simp only [mem_vdr_write] at hrc hlk hdev hbn hv hdata
  have hk := hash_lt (s.mem (Ptr.buf i)).blockno
  have hdsk : s2.disk (s.mem (Ptr.buf i)).dev (s.mem (Ptr.buf i)).blockno
      = (s.mem (Ptr.buf i)).data := by
    rw [hdisk, vdr_write_disk]; simp
  refine ⟨virtio_disk_rw s (Ptr.buf i) true, s2, ?_⟩
  by_cases hone : (s.mem (Ptr.buf i)).refcnt = 1
  · -- the last reference is gone: the next `bread` misses and reads the disk
    have hz : (s2.mem (Ptr.buf i)).refcnt = 0 := by
      rw [hrc, if_pos rfl]; exact dec32_eq_zero.mpr hone
    have hmiss : ∀ j ∈ L2 (hash (s.mem (Ptr.buf i)).blockno),
        ¬ hasKey s2 (s.mem (Ptr.buf i)).dev (s.mem (Ptr.buf i)).blockno (Ptr.buf j) := by
      intro j hj ⟨e1, e2⟩
      have hjpos := hI2.pos _ hk j hj
      have hji : j ≠ i := by intro e; subst e; omega
      rw [hrc, if_neg (by simpa using hji)] at hjpos
      rw [hdev] at e1; rw [hbn] at e2
      exact hji (hI.uniq j i (hI2.lt _ hk j hj) hi hjpos hpos e1 e2)
    obtain ⟨i2, _, _, _, hs, hf, hg, _⟩ :=
      bget_miss_inv pid2 hI2 hmiss ⟨i, hi, hz⟩
    have hb := bread_of_bget hg
    rw [if_pos (by simp [recycle_valid])] at hb
    exact ⟨Ptr.buf i2, _, hw, hrel, hb, by simp [recycle_dev], by simp [recycle_blockno],
      by simp [recycle_dev, recycle_blockno, recycle_disk, hdsk]⟩
  · -- the buffer is still referenced: the next `bread` finds it
    have hd : dec32 (s.mem (Ptr.buf i)).refcnt = (s.mem (Ptr.buf i)).refcnt - 1 :=
      dec32_of_pos hpos
    have hpos2 : 0 < (s2.mem (Ptr.buf i)).refcnt := by
      rw [hrc, if_pos rfl, hd]; omega
    have hmem : i ∈ L2 (hash (s.mem (Ptr.buf i)).blockno) := by
      have := hI2.listed i hi hpos2
      rwa [hbn] at this
    have hkey : hasKey s2 (s.mem (Ptr.buf i)).dev (s.mem (Ptr.buf i)).blockno (Ptr.buf i) :=
      ⟨hdev _, hbn _⟩
    have hs := hI2.scan (s.mem (Ptr.buf i)).dev (s.mem (Ptr.buf i)).blockno
    cases hfind : ((L2 (hash (s.mem (Ptr.buf i)).blockno)).map Ptr.buf).find?
        (fun p => decide (hasKey s2 (s.mem (Ptr.buf i)).dev (s.mem (Ptr.buf i)).blockno p)) with
    | none =>
      have := List.find?_eq_none.mp hfind (Ptr.buf i) (List.mem_map.mpr ⟨i, hmem, rfl⟩)
      simp [hkey] at this
    | some c =>
      rw [hfind] at hs
      obtain ⟨j, hj, rfl⟩ := List.mem_map.mp (List.mem_of_find?_eq_some hfind)
      have hkj : hasKey s2 (s.mem (Ptr.buf i)).dev (s.mem (Ptr.buf i)).blockno (Ptr.buf j) := by
        simpa using List.find?_some hfind
      obtain rfl : j = i :=
        hI2.uniq j i (hI2.lt _ hk j hj) hi (hI2.pos _ hk j hj) hpos2
          (hkj.1.trans hkey.1.symm) (hkj.2.trans hkey.2.symm)
      have hfree : (s2.mem (Ptr.buf j)).lock = none := by rw [hlk, if_pos rfl]
      have hg := bget_hit pid2 hs
      rw [acquiresleep_free (by simpa using hfree)] at hg
      have hb := bread_of_bget hg
      have hval : (s2.mem (Ptr.buf j)).valid = true := by
        rw [hv]; exact hI.valid j hi hpos
      rw [if_neg (by simp [hval])] at hb
      exact ⟨Ptr.buf j, _, hw, hrel, hb, by simpa using hdev _, by simpa using hbn _,
        by simpa using hdata _⟩

/-- C2, witness: process 1 holds buffer 0 in `st1`. -/
theorem write_release_read_witness :
    Reachable 4 st1 ∧ holdingsleep 1 st1 (Ptr.buf 0) = true ∧
    ∃ s1 s2 c s3, bwrite 1 st1 (Ptr.buf 0) = Res.ret () s1 ∧
      brelse 1 s1 (Ptr.buf 0) = Res.ret () s2 ∧
      bread 4 1 s2 (st1.mem (Ptr.buf 0)).dev (st1.mem (Ptr.buf 0)).blockno = Res.ret c s3 ∧
      (s3.mem c).dev = (st1.mem (Ptr.buf 0)).dev ∧
      (s3.mem c).blockno = (st1.mem (Ptr.buf 0)).blockno ∧
      (s3.mem c).data = (st1.mem (Ptr.buf 0)).data :=
  ⟨reach_st1, by decide, write_release_read 4 1 1 st1 reach_st1 (Ptr.buf 0) (by decide)⟩

/-- C3, as the code behaves: in every state the cache reaches when `brelse` and
`bpin` are applied only to a buffer the caller holds, `bunpin` only to a held
buffer on which a `bpin` is still outstanding, and no `refcnt` wraps around
(`Run`; a `bread` may sleep on a held buffer and be resumed later), two distinct
buffers of the pool that both have `refcnt > 0` do not have the same
`(dev, blockno)`. -/
theorem cache_unique (NBUF : Nat) (s : State) (S P : Ptr → Nat) (h : Run NBUF s S P)
    (i j : Nat) (hi : i < NBUF) (hj : j < NBUF) (hne : i ≠ j)
    (hri : 0 < (s.mem (Ptr.buf i)).refcnt) (hrj : 0 < (s.mem (Ptr.buf j)).refcnt) :
    ¬ ((s.mem (Ptr.buf i)).dev = (s.mem (Ptr.buf j)).dev ∧
       (s.mem (Ptr.buf i)).blockno = (s.mem (Ptr.buf j)).blockno) := by
  obtain ⟨⟨L, hI⟩, _, _⟩ := run_inv h
  rintro ⟨h1, h2⟩
  exact hne (hI.uniq i j hi hj hri hrj h1 h2)

/-- C3, witness: in `st3` buffers 0 and 1 are both referenced, for blocks 5 and 9. -/
theorem cache_unique_witness :
    Run 4 st3 (fun _ => 0) (fun _ => 0) ∧
    0 < (st3.mem (Ptr.buf 0)).refcnt ∧ 0 < (st3.mem (Ptr.buf 1)).refcnt ∧
    ¬ ((st3.mem (Ptr.buf 0)).dev = (st3.mem (Ptr.buf 1)).dev ∧
       (st3.mem (Ptr.buf 0)).blockno = (st3.mem (Ptr.buf 1)).blockno) :=
  ⟨run_st3, by decide, by decide,
    cache_unique 4 st3 _ _ run_st3 0 1 (by decide) (by decide) (by decide) (by decide)
      (by decide)⟩

/-- C3, counterexample: process 1 reads block 5 and holds buffer 0; process 2
reads block 5 too and sleeps on the lock (`refcnt = 2`); process 1 calls `bunpin`
on the buffer it holds, though it has never pinned it (`refcnt = 1`; `2^32 - 1`
calls of `bpin` lead to the same state), and releases it (`refcnt = 0`, the
buffer leaves its list); process 2 is resumed, holds buffer 0 and pins it
(`refcnt = 1`); process 3 reads block 5, finds no match and gets buffer 1.
Buffers 0 and 1 both have `refcnt > 0` and the key `(0, 5)`. -/
theorem two_buffers_one_block :
    bread 4 1 st0 0 5 = Res.ret (Ptr.buf 0) st1 ∧
    bread 4 2 st1 0 5 = Res.sleep (Ptr.buf 0) stA ∧
    holdingsleep 1 stA (Ptr.buf 0) = true ∧
    bunpin stA (Ptr.buf 0) = Res.ret () stB ∧
    pins (2 ^ 32 - 1) stA (Ptr.buf 0) = stB ∧
    brelse 1 stB (Ptr.buf 0) = Res.ret () stC ∧
    breadWake 2 stC (Ptr.buf 0) = Res.ret (Ptr.buf 0) stD ∧
    holdingsleep 2 stD (Ptr.buf 0) = true ∧
    bread 4 3 (bpin stD (Ptr.buf 0)) 0 5 = Res.ret (Ptr.buf 1) stF ∧
    0 < (stF.mem (Ptr.buf 0)).refcnt ∧ 0 < (stF.mem (Ptr.buf 1)).refcnt ∧
    (stF.mem (Ptr.buf 0)).dev = (stF.mem (Ptr.buf 1)).dev ∧
    (stF.mem (Ptr.buf 0)).blockno = (stF.mem (Ptr.buf 1)).blockno :=
  ⟨rfl, rfl, by decide, rfl, pins_stA, rfl, rfl, by decide, rfl, by decide, by decide,
    by decide, by decide⟩

/-- C4, as the code behaves: whenever `bread(dev, blockno)` returns a buffer `b`
(whose `refcnt` is a `uint`, so below `2^32`): the `bget` inside it changed no
other `refcnt`; `brelse(b)` then returns and changes no other `refcnt`; and after
the pair every `refcnt` has the value it had before the `bread`.  As long as
`refcnt` of `b` was below `2^32 - 1` before the call, `bget` raised it by exactly
one (to 1 when the walk of the bucket found no match) and `brelse` lowered it by
exactly one. -/
theorem bread_brelse_refcnt (NBUF pid : Nat) (s s1 : State) (dev blockno : Nat) (b : Ptr)
    (h : bread NBUF pid s dev blockno = Res.ret b s1) (hu : (s.mem b).refcnt < 2 ^ 32) :
    ((s.mem b).refcnt < 2 ^ 32 - 1 → (s1.mem b).refcnt = (s.mem b).refcnt + 1) ∧
    (∀ p, p ≠ b → (s1.mem p).refcnt = (s.mem p).refcnt) ∧
    (scan s (hash blockno) dev blockno (NBUF + 1) (s.mem (Ptr.head (hash blockno))).next
        = some none → (s.mem b).refcnt = 0 ∧ (s1.mem b).refcnt = 1) ∧
    ∃ s2, brelse pid s1 b = Res.ret () s2 ∧
      ((s.mem b).refcnt < 2 ^ 32 - 1 → (s2.mem b).refcnt + 1 = (s1.mem b).refcnt) ∧
      (∀ p, p ≠ b → (s2.mem p).refcnt = (s1.mem p).refcnt) ∧
      ∀ p, (s2.mem p).refcnt = (s.mem p).refcnt := by
  obtain ⟨s0, hg, hs1⟩ := bread_ret h
  obtain ⟨_, hb, hother, _, _, _, _⟩ := bget_facts (Or.inl hg)
  obtain ⟨_, hlock⟩ := bget_ret_lock hg
  have href : ∀ p, (s1.mem p).refcnt = (s0.mem p).refcnt := by
    intro p; rw [hs1]; split_ifs <;> simp
  have hlk : (s1.mem b).lock = some pid := by
    have := hlock b
    rw [hs1]; split_ifs <;> simp [this]
  obtain ⟨s2, hrel, hr2, _⟩ := brelse_held hlk
  have hmiss : scan s (hash blockno) dev blockno (NBUF + 1)
      (s.mem (Ptr.head (hash blockno))).next = some none →
      (s.mem b).refcnt = 0 ∧ (s1.mem b).refcnt = 1 := by
    intro hsc
    obtain ⟨c, t, hr, hex⟩ := bget_exits hg (by simp) (by simp)
    obtain ⟨rfl, _, rfl⟩ := acquiresleep_ret hr.symm
    rcases hex with ⟨hs, _⟩ | ⟨i, rfl, _, hf, rfl⟩
    · rw [hsc] at hs; simp at hs
    · exact ⟨(firstFree_some hf).2.1, by rw [href]; simp [recycle_refcnt]⟩
  have hback : dec32 (s1.mem b).refcnt = (s.mem b).refcnt := by
    rw [href, hb, dec32_inc32 hu]
  refine ⟨fun hlt => by rw [href, hb, inc32_of_lt hlt], fun p hp => by rw [href, hother p hp],
    hmiss, s2, hrel, fun hlt => ?_, ?_, ?_⟩
  · rw [hr2, if_pos rfl, hback, href, hb, inc32_of_lt hlt]
  · intro p hp; rw [hr2, if_neg hp]
  · intro p
    by_cases hp : p = b
    · subst hp; rw [hr2, if_pos rfl, hback]
    · rw [hr2, if_neg hp, href, hother p hp]

/-- C4, witness: the first `bread` after `binit` with a pool of 4 buffers. -/
theorem bread_brelse_refcnt_witness :
    bread 4 1 st0 0 5 = Res.ret (Ptr.buf 0) st1 ∧ (st0.mem (Ptr.buf 0)).refcnt < 2 ^ 32 ∧
    (st1.mem (Ptr.buf 0)).refcnt = (st0.mem (Ptr.buf 0)).refcnt + 1 ∧
    ∃ s2, brelse 1 st1 (Ptr.buf 0) = Res.ret () s2 ∧
      ∀ p, (s2.mem p).refcnt = (st0.mem p).refcnt :=
  ⟨rfl, by decide,
    (bread_brelse_refcnt 4 1 st0 st1 0 5 (Ptr.buf 0) rfl (by decide)).1 (by decide),
    (bread_brelse_refcnt 4 1 st0 st1 0 5 (Ptr.buf 0) rfl (by decide)).2.2.2.imp
      (fun _ h => ⟨h.1, h.2.2.2⟩)⟩

/-- C4, counterexample: process 1 reads block 5, pins the buffer it holds
`2^32 - 1` times and releases it.  In the state `stTop` this leaves, buffer 0
caches block 5 with `refcnt = 2^32 - 1`.  `bread(0, 5)` returns it with
`refcnt = 0`: `bget` has not raised `refcnt` by one. -/
theorem bread_wraps_refcnt :
    bread 4 1 st0 0 5 = Res.ret (Ptr.buf 0) st1 ∧ holdingsleep 1 st1 (Ptr.buf 0) = true ∧
    brelse 1 (pins (2 ^ 32 - 1) st1 (Ptr.buf 0)) (Ptr.buf 0) = Res.ret () stTop ∧
    (stTop.mem (Ptr.buf 0)).refcnt = 2 ^ 32 - 1 ∧
    bread 4 2 stTop 0 5 = Res.ret (Ptr.buf 0) ((bread 4 2 stTop 0 5).state stTop) ∧
    (((bread 4 2 stTop 0 5).state stTop).mem (Ptr.buf 0)).refcnt = 0 ∧
    (((bread 4 2 stTop 0 5).state stTop).mem (Ptr.buf 0)).refcnt ≠
      (stTop.mem (Ptr.buf 0)).refcnt + 1 :=
  ⟨rfl, by decide, by rw [pins_st1]; rfl, by decide, rfl, by decide, by decide⟩

/-- C5. `bget` never recycles a referenced buffer: whenever `bget(dev, blockno)`
picks a buffer `b` (returning it at once, or sleeping on its lock first), every
buffer that had `refcnt > 0` before the call has the same `dev`, `blockno`,
`valid` and `data` afterwards, and the same `refcnt` unless it is `b`. -/
theorem bget_keeps_referenced (NBUF pid : Nat) (s s2 : State) (dev blockno : Nat) (b : Ptr)
    (h : bget NBUF pid s dev blockno = Res.ret b s2 ∨
      bget NBUF pid s dev blockno = Res.sleep b s2) :
    ∀ p, 0 < (s.mem p).refcnt →
      (s2.mem p).dev = (s.mem p).dev ∧ (s2.mem p).blockno = (s.mem p).blockno ∧
      (s2.mem p).valid = (s.mem p).valid ∧ (s2.mem p).data = (s.mem p).data ∧
      (p ≠ b → (s2.mem p).refcnt = (s.mem p).refcnt) := by
  obtain ⟨_, _, hother, hkeep, hdata, _, _⟩ := bget_facts h
  intro p hp
  obtain ⟨h1, h2, h3⟩ := hkeep p hp
  exact ⟨h1, h2, h3, hdata p, hother p⟩

/-- C5, witness: with buffer 0 referenced for block 5, `bget(0, 9)` takes buffer 1
and leaves buffer 0 alone. -/
theorem bget_keeps_referenced_witness :
    bget 4 2 st1 0 9 = Res.ret (Ptr.buf 1) st2 ∧ 0 < (st1.mem (Ptr.buf 0)).refcnt ∧
    (st2.mem (Ptr.buf 0)).blockno = (st1.mem (Ptr.buf 0)).blockno ∧
    (st2.mem (Ptr.buf 0)).refcnt = (st1.mem (Ptr.buf 0)).refcnt :=
  ⟨rfl, by decide,
    (bget_keeps_referenced 4 2 st1 st2 0 9 (Ptr.buf 1) (Or.inl rfl) (Ptr.buf 0) (by decide)).2.1,
    (bget_keeps_referenced 4 2 st1 st2 0 9 (Ptr.buf 1) (Or.inl rfl) (Ptr.buf 0)
      (by decide)).2.2.2.2 (by decide)⟩

/-- C6. In a reachable state, on a miss (no buffer of the list `l` of bucket
`hash(blockno)` has the key `(dev, blockno)`) with at least one buffer of
`refcnt == 0`, `bget` returns the buffer of lowest index `i` among those with
`refcnt == 0`, with `dev` and `blockno` set to the request, `valid = 0` and
`refcnt = 1`; afterwards the list of bucket `hash(blockno)` is that buffer
followed by `l` in its previous order. -/
theorem bget_miss_spec (NBUF pid : Nat) (s : State) (h : Reachable NBUF s)
    (dev blockno : Nat) (l : List Ptr) (hl : bucketList NBUF s (hash blockno) = some l)
    (hmiss : ∀ p ∈ l, ¬ hasKey s dev blockno p)
    (hfree : ∃ j, j < NBUF ∧ (s.mem (Ptr.buf j)).refcnt = 0) :
    ∃ i s1, i < NBUF ∧ (s.mem (Ptr.buf i)).refcnt = 0 ∧
      (∀ j, j < i → (s.mem (Ptr.buf j)).refcnt ≠ 0) ∧
      bget NBUF pid s dev blockno = Res.ret (Ptr.buf i) s1 ∧
      (s1.mem (Ptr.buf i)).dev = dev ∧ (s1.mem (Ptr.buf i)).blockno = blockno ∧
      (s1.mem (Ptr.buf i)).valid = false ∧ (s1.mem (Ptr.buf i)).refcnt = 1 ∧
      bucketList NBUF s1 (hash blockno) = some (Ptr.buf i :: l) := by
  obtain ⟨L, hI⟩ := inv_reachable h
  have hl' := hI.bucketList (hash_lt blockno)
  rw [hl] at hl'
  obtain rfl : l = (L (hash blockno)).map Ptr.buf := by simpa using hl'
  obtain ⟨i, hi, h0, hmin, _, _, hg, hb⟩ := bget_miss_inv pid hI
    (fun j hj => hmiss _ (List.mem_map.mpr ⟨j, hj, rfl⟩)) hfree
  exact ⟨i, _, hi, h0, hmin, hg, by simp [recycle_dev], by simp [recycle_blockno],
    by simp [recycle_valid], by simp [recycle_refcnt], hb⟩

/-- C6, witness: in `st1` (buffer 0 referenced) the list of bucket `hash 9` is empty
and buffer 1 is the lowest free one. -/
theorem bget_miss_spec_witness :
    Reachable 4 st1 ∧ bucketList 4 st1 (hash 9) = some [] ∧
    ∃ i s1, i < 4 ∧ (st1.mem (Ptr.buf i)).refcnt = 0 ∧
      (∀ j, j < i → (st1.mem (Ptr.buf j)).refcnt ≠ 0) ∧
      bget 4 2 st1 0 9 = Res.ret (Ptr.buf i) s1 ∧
      (s1.mem (Ptr.buf i)).dev = 0 ∧ (s1.mem (Ptr.buf i)).blockno = 9 ∧
      (s1.mem (Ptr.buf i)).valid = false ∧ (s1.mem (Ptr.buf i)).refcnt = 1 ∧
      bucketList 4 s1 (hash 9) = some [Ptr.buf i] :=
  ⟨reach_st1, by decide,
    bget_miss_spec 4 2 st1 reach_st1 0 9 [] (by decide) (fun p hp => by simp at hp)
      ⟨1, by decide, by decide⟩⟩

/-- C7. Given the list `l` of bucket `hash(blockno)`, `bget(dev, blockno)` stops
with the fatal error "bget: no buffers" exactly when no buffer of `l` has the key
`(dev, blockno)` and every buffer of the pool has `refcnt != 0`.  In every other
case it picks a buffer `b` that carries the key `(dev, blockno)` and returns it
as soon as it has the sleep-lock of `b`: at once when that lock is free, after
sleeping on it otherwise. -/
theorem bget_no_buffers_iff (NBUF pid : Nat) (s : State) (dev blockno : Nat) (l : List Ptr)
    (hl : bucketList NBUF s (hash blockno) = some l) :
    (bget NBUF pid s dev blockno = Res.panic "bget: no buffers" ↔
      (∀ p ∈ l, ¬ hasKey s dev blockno p) ∧
        ∀ i, i < NBUF → (s.mem (Ptr.buf i)).refcnt ≠ 0) ∧
    (¬ ((∀ p ∈ l, ¬ hasKey s dev blockno p) ∧
        ∀ i, i < NBUF → (s.mem (Ptr.buf i)).refcnt ≠ 0) →
      ∃ b s2, hasKey s2 dev blockno b ∧
        (bget NBUF pid s dev blockno = Res.ret b s2 ∨
          bget NBUF pid s dev blockno = Res.sleep b s2) ∧
        (bget NBUF pid s dev blockno = Res.ret b s2 ↔ (s.mem b).lock = none)) := by
  have hscan := scan_eq_of_walk dev blockno hl
  have key : ∀ (b : Ptr) (s1 : State), (s1.mem b).lock = (s.mem b).lock →
      hasKey s1 dev blockno b →
      bget NBUF pid s dev blockno = acquiresleep pid s1 b →
      ∃ b s2, hasKey s2 dev blockno b ∧
        (bget NBUF pid s dev blockno = Res.ret b s2 ∨
          bget NBUF pid s dev blockno = Res.sleep b s2) ∧
        (bget NBUF pid s dev blockno = Res.ret b s2 ↔ (s.mem b).lock = none) := by
    intro b s1 hlk hk hb
    by_cases hfree : (s.mem b).lock = none
    · refine ⟨b, s1.setLock b (some pid), by simpa [hasKey] using hk, Or.inl ?_, ?_⟩
      · rw [hb, acquiresleep_free (hlk.trans hfree)]
      · rw [hb, acquiresleep_free (hlk.trans hfree)]; simp [hfree]
    · refine ⟨b, s1, hk, Or.inr ?_, ?_⟩
      · rw [hb, acquiresleep_held (by rw [hlk]; exact hfree)]
      · rw [hb, acquiresleep_held (by rw [hlk]; exact hfree)]; simp [hfree]
  cases hfind : l.find? (fun p => decide (hasKey s dev blockno p)) with
  | some b =>
    rw [hfind] at hscan
    have hb := bget_hit pid hscan
    have hmem := List.mem_of_find?_eq_some hfind
    have hkb : hasKey s dev blockno b := by simpa using List.find?_some hfind
    constructor
    · constructor
      · intro hp; rw [hb] at hp; exact absurd hp acquiresleep_ne_panic
      · intro ⟨hno, _⟩; exact absurd hkb (hno b hmem)
    · intro _
      exact key b _ (by simp) (by simpa [hasKey] using hkb) hb
  | none =>
    rw [hfind] at hscan
    have hno : ∀ p ∈ l, ¬ hasKey s dev blockno p := by
      simpa using List.find?_eq_none.mp hfind
    cases hf : firstFree NBUF s with
    | none =>
      have hb := bget_full pid hscan hf
      refine ⟨⟨fun _ => ⟨hno, firstFree_none hf⟩, fun _ => hb⟩, fun hn => ?_⟩
      exact absurd ⟨hno, firstFree_none hf⟩ hn
    | some i =>
      have hb := bget_miss pid hscan hf
      obtain ⟨hi, h0, _⟩ := firstFree_some hf
      constructor
      · constructor
        · intro hp; rw [hb] at hp; exact absurd hp acquiresleep_ne_panic
        · intro ⟨_, hall⟩; exact absurd h0 (hall i hi)
      · intro _
        exact key (Ptr.buf i) _ (by simp [recycle_lock])
          (by simp [hasKey, recycle_dev, recycle_blockno]) hb

/-- C7, witness: in `st5` all 4 buffers are referenced and the list of bucket
`hash 100` is empty, so `bget(0, 100)` stops with the fatal error. -/
theorem bget_no_buffers_iff_witness :
    bucketList 4 st5 (hash 100) = some [] ∧
    bget 4 5 st5 0 100 = Res.panic "bget: no buffers" :=
  ⟨by decide,
    (bget_no_buffers_iff 4 5 st5 0 100 [] (by decide)).1.mpr
      ⟨fun p hp => by simp at hp, by decide⟩⟩

/-- C8. `bread(dev, blockno)` ends in a fatal error exactly when its `bget` does
(and sleeps or hangs exactly when its `bget` does).  Whenever `bget` returns a
buffer `b`, `bread` returns `b` with `dev`, `blockno` equal to the request and
`valid = 1`.  The buffer comes back from `bget` with `valid = 0` when the walk of
the bucket found no match, and with the `valid` it had before the call when the
walk found it.  `bread` issues a disk operation exactly when `b` came back with
`valid = 0`: then it is one disk read, for `(dev, blockno)`, and `data` is the
block on disk.  When `b` came back with `valid = 1`, in particular on a hit of a
buffer that was valid before the call, `bread` issues no disk operation and
leaves `data` of every buffer, the disk, and the whole state `bget` left,
unchanged. -/
theorem bread_valid (NBUF pid : Nat) (s : State) (dev blockno : Nat) :
    (∀ m, bread NBUF pid s dev blockno = Res.panic m ↔
      bget NBUF pid s dev blockno = Res.panic m) ∧
    (∀ c t, bread NBUF pid s dev blockno = Res.sleep c t ↔
      bget NBUF pid s dev blockno = Res.sleep c t) ∧
    (bread NBUF pid s dev blockno = Res.diverge ↔
      bget NBUF pid s dev blockno = Res.diverge) ∧
    ∀ b s1, bget NBUF pid s dev blockno = Res.ret b s1 →
      (scan s (hash blockno) dev blockno (NBUF + 1) (s.mem (Ptr.head (hash blockno))).next
        = some none → (s1.mem b).valid = false) ∧
      (∀ c, scan s (hash blockno) dev blockno (NBUF + 1) (s.mem (Ptr.head (hash blockno))).next
        = some (some c) → b = c ∧ (s1.mem b).valid = (s.mem b).valid) ∧
      ∃ s2, bread NBUF pid s dev blockno = Res.ret b s2 ∧
        (s2.mem b).dev = dev ∧ (s2.mem b).blockno = blockno ∧ (s2.mem b).valid = true ∧
        ((s1.mem b).valid = false →
          s2.io = s.io ++ [⟨false, dev, blockno⟩] ∧ (s2.mem b).data = s.disk dev blockno ∧
          s2.disk = s.disk) ∧
        ((s1.mem b).valid = true →
          s2.io = s.io ∧ (s2.mem b).data = (s.mem b).data ∧ s2 = s1) ∧
        (s2.io ≠ s.io ↔ (s1.mem b).valid = false) ∧
        (∀ c, scan s (hash blockno) dev blockno (NBUF + 1)
            (s.mem (Ptr.head (hash blockno))).next = some (some c) →
          (s.mem c).valid = true →
          s2.io = s.io ∧ s2.disk = s.disk ∧ ∀ p, (s2.mem p).data = (s.mem p).data) := by
  refine ⟨?_, ?_, ?_, ?_⟩
  · intro m
    cases hg : bget NBUF pid s dev blockno with
    | ret c s1 => rw [bread_of_bget hg]; split_ifs <;> simp
    | sleep c t => simp [bread, hg]
    | panic m => simp [bread, hg]
    | diverge => simp [bread, hg]
  · intro c t
    cases hg : bget NBUF pid s dev blockno with
    | ret c s1 => rw [bread_of_bget hg]; split_ifs <;> simp
    | sleep c t => simp [bread, hg]
    | panic m => simp [bread, hg]
    | diverge => simp [bread, hg]
  · cases hg : bget NBUF pid s dev blockno with
    | ret c s1 => rw [bread_of_bget hg]; split_ifs <;> simp
    | sleep c t => simp [bread, hg]
    | panic m => simp [bread, hg]
    | diverge => simp [bread, hg]
  · intro b s1 hg
    obtain ⟨hk, _, _, _, hdata, hio, hdisk⟩ := bget_facts (Or.inl hg)
    have hhit : ∀ c, scan s (hash blockno) dev blockno (NBUF + 1)
        (s.mem (Ptr.head (hash blockno))).next = some (some c) →
        b = c ∧ (s1.mem b).valid = (s.mem b).valid := by
      intro c hsc
      obtain ⟨c2, t, hr, hex⟩ := bget_exits hg (by simp) (by simp)
      obtain ⟨rfl, _, rfl⟩ := acquiresleep_ret hr.symm
      rcases hex with ⟨hs, rfl⟩ | ⟨i, rfl, hs, _, _⟩
      · rw [hsc] at hs
        exact ⟨by simpa using hs.symm, by simp⟩
      · rw [hsc] at hs; simp at hs
    refine ⟨?_, hhit, ?_⟩
    · intro hsc
      obtain ⟨c, t, hr, hex⟩ := bget_exits hg (by simp) (by simp)
      obtain ⟨rfl, _, rfl⟩ := acquiresleep_ret hr.symm
      rcases hex with ⟨hs, _⟩ | ⟨i, rfl, _, _, rfl⟩
      · rw [hsc] at hs; simp at hs
      · simp [recycle_valid]
    · rw [bread_of_bget hg]
      by_cases hv : (s1.mem b).valid = false
      · rw [if_pos hv]
        have hio2 : ((virtio_disk_rw s1 b false).setValid b true).io
            = s.io ++ [⟨false, dev, blockno⟩] := by
          simp [vdr_read_io, hk.1, hk.2, hio]
        refine ⟨_, rfl, by simpa using hk.1, by simpa using hk.2,
          by simp, fun _ => ⟨hio2, ?_, ?_⟩, fun hv1 => by rw [hv] at hv1; simp at hv1,
          ⟨fun _ => hv, fun _ => by rw [hio2]; simp⟩, fun c hsc hvc => ?_⟩
        · simp [hk.1, hk.2, hdisk]
        · simp [vdr_read_disk, hdisk]
        · obtain ⟨rfl, e⟩ := hhit c hsc
          rw [hv, hvc] at e
          simp at e
      · rw [if_neg hv]
        have hv1 : (s1.mem b).valid = true := by simpa using hv
        exact ⟨_, rfl, hk.1, hk.2, hv1, fun h0 => absurd h0 hv, fun _ => ⟨hio, hdata b, rfl⟩,
          ⟨fun hne => absurd hio hne, fun h0 => absurd h0 hv⟩,
          fun _ _ _ => ⟨hio, hdisk, hdata⟩⟩

/-- C8, witness: in `st1h` buffer 0 caches block 5 with valid data and is not
locked; `bread(0, 5)` finds it and issues no disk operation. -/
theorem bread_valid_witness :
    bget 4 2 st1h 0 5 = Res.ret (Ptr.buf 0) ((bget 4 2 st1h 0 5).state st1h) ∧
    (st1h.mem (Ptr.buf 0)).valid = true ∧
    ∃ s2, bread 4 2 st1h 0 5 = Res.ret (Ptr.buf 0) s2 ∧ (s2.mem (Ptr.buf 0)).valid = true ∧
      s2.io = st1h.io ∧ s2.disk = st1h.disk ∧ ∀ p, (s2.mem p).data = (st1h.mem p).data :=
  ⟨rfl, by decide,
    ((bread_valid 4 2 st1h 0 5).2.2.2 (Ptr.buf 0) ((bget 4 2 st1h 0 5).state st1h) rfl).2.2.imp
      (fun _ h => ⟨h.1, h.2.2.2.1, h.2.2.2.2.2.2.2 (Ptr.buf 0) (by decide) (by decide)⟩)⟩

/-- C9, as the code behaves, for a buffer with `refcnt >= 1`: `bunpin(b)` stops with
the fatal error exactly when `refcnt` is 1 on entry, that is when the decrement
brings it to zero; for `refcnt >= 2` it returns with `refcnt` lowered by exactly
one and nothing else changed; so a `bunpin` that returns leaves `refcnt >= 1`. -/
theorem bunpin_spec (s : State) (b : Ptr) (h : 1 ≤ (s.mem b).refcnt) :
    (bunpin s b = Res.panic "Not supposed to be zero!!" ↔ (s.mem b).refcnt = 1) ∧
    (2 ≤ (s.mem b).refcnt →
      bunpin s b = Res.ret () (s.setRefcnt b ((s.mem b).refcnt - 1))) ∧
    (∀ s1, bunpin s b = Res.ret () s1 →
      1 ≤ (s1.mem b).refcnt ∧ (s1.mem b).refcnt + 1 = (s.mem b).refcnt ∧
      ∀ p, p ≠ b → s1.mem p = s.mem p) := by
  rw [bunpin_eq]
  refine ⟨?_, ?_, ?_⟩
  · split_ifs with h1 <;> simp [h1]
  · intro h2
    rw [if_neg (by omega), dec32_of_pos (by omega)]
  · intro s1 h1
    split_ifs at h1 with h2
    simp at h1
    subst h1
    rw [dec32_of_pos (by omega)]
    refine ⟨by simp; omega, by simp; omega, fun p hp => ?_⟩
    simp [State.setRefcnt, State.upd, hp]

/-- C9, witness: buffer 0 of `st1`, pinned once more, has `refcnt = 2`. -/
theorem bunpin_spec_witness :
    1 ≤ ((bpin st1 (Ptr.buf 0)).mem (Ptr.buf 0)).refcnt ∧
    bunpin (bpin st1 (Ptr.buf 0)) (Ptr.buf 0) =
      Res.ret () ((bpin st1 (Ptr.buf 0)).setRefcnt (Ptr.buf 0)
        (((bpin st1 (Ptr.buf 0)).mem (Ptr.buf 0)).refcnt - 1)) :=
  ⟨by decide, (bunpin_spec (bpin st1 (Ptr.buf 0)) (Ptr.buf 0) (by decide)).2.1 (by decide)⟩

/-- C9, counterexample: buffer 0 of `st1` is held by process 1 and has `refcnt = 1`,
yet `bunpin` stops with the fatal error instead of returning with `refcnt = 0`. -/
theorem bunpin_panics_at_one :
    holdingsleep 1 st1 (Ptr.buf 0) = true ∧ (st1.mem (Ptr.buf 0)).refcnt = 1 ∧
    bunpin st1 (Ptr.buf 0) = Res.panic "Not supposed to be zero!!" :=
  ⟨by decide, by decide, rfl⟩

/-- C10, as the code behaves: in every state the cache reaches when `brelse` and
`bpin` are applied only to a buffer the caller holds, `bunpin` only to a held
buffer on which a `bpin` is still outstanding, and no `refcnt` wraps around
(`Run`), every bucket has a well-formed list, and for every buffer `i` of the
pool: if `refcnt > 0`, buffer `i` occurs exactly once in the list of bucket
`hash(blockno)` and in the list of no other bucket; if `refcnt == 0`, it occurs
in the list of no bucket. -/
theorem bucket_partition (NBUF : Nat) (s : State) (S P : Ptr → Nat) (h : Run NBUF s S P)
    (i : Nat) (hi : i < NBUF) :
    (∀ k, k < NBUCKET → ∃ l, bucketList NBUF s k = some l) ∧
    (0 < (s.mem (Ptr.buf i)).refcnt →
      (∃ l, bucketList NBUF s (hash (s.mem (Ptr.buf i)).blockno) = some l ∧
        l.count (Ptr.buf i) = 1) ∧
      ∀ k, k < NBUCKET → k ≠ hash (s.mem (Ptr.buf i)).blockno →
        ∃ l, bucketList NBUF s k = some l ∧ Ptr.buf i ∉ l) ∧
    ((s.mem (Ptr.buf i)).refcnt = 0 →
      ∀ k, k < NBUCKET → ∃ l, bucketList NBUF s k = some l ∧ Ptr.buf i ∉ l) := by
  obtain ⟨⟨L, hI⟩, _, _⟩ := run_inv h
  have hinj : Function.Injective Ptr.buf := fun a b e => by injection e
  refine ⟨fun k hk => ⟨_, hI.bucketList hk⟩, fun hr => ⟨?_, ?_⟩, fun h0 k hk => ?_⟩
  · have hk := hash_lt (s.mem (Ptr.buf i)).blockno
    refine ⟨_, hI.bucketList hk, ?_⟩
    rw [List.count_map_of_injective _ _ hinj]
    exact List.count_eq_one_of_mem (hI.nodup _ hk) (hI.listed i hi hr)
  · intro k hk hne
    refine ⟨_, hI.bucketList hk, ?_⟩
    rw [List.mem_map_of_injective hinj]
    exact hI.disjoint (hash_lt _) hk hne i (hI.listed i hi hr)
  · refine ⟨_, hI.bucketList hk, ?_⟩
    rw [List.mem_map_of_injective hinj]
    exact hI.free_not_mem h0 hk

/-- C10, witness: in `st3` buffer 1 is referenced for block 9, which hashes to
bucket 2, and it is the one member of that bucket. -/
theorem bucket_partition_witness :
    Run 4 st3 (fun _ => 0) (fun _ => 0) ∧ 0 < (st3.mem (Ptr.buf 1)).refcnt ∧
    ∃ l, bucketList 4 st3 (hash (st3.mem (Ptr.buf 1)).blockno) = some l ∧
      l.count (Ptr.buf 1) = 1 :=
  ⟨run_st3, by decide,
    ((bucket_partition 4 st3 _ _ run_st3 1 (by decide)).2.1 (by decide)).1⟩

/-- C10, counterexample.  First: process 1 reads block 5, gets buffer 0 and,
holding it, calls `bpin` on it `2^32 - 1` times; buffer 0 then has `refcnt == 0`
and is in the list of bucket 1.  Second: process 1 reads block 5 and holds
buffer 0, process 2 reads block 5 and sleeps on the lock, process 1 calls `bunpin`
on the buffer it holds and releases it, process 2 is resumed, holds buffer 0 and
pins it; buffer 0 then has `refcnt > 0` and is not in the list of bucket
`hash 5 = 1`. -/
theorem refcnt_apart_from_lists :
    bread 4 1 st0 0 5 = Res.ret (Ptr.buf 0) st1 ∧ holdingsleep 1 st1 (Ptr.buf 0) = true ∧
    ((pins (2 ^ 32 - 1) st1 (Ptr.buf 0)).mem (Ptr.buf 0)).refcnt = 0 ∧
    bucketList 4 (pins (2 ^ 32 - 1) st1 (Ptr.buf 0)) 1 = some [Ptr.buf 0] ∧
    bread 4 2 st1 0 5 = Res.sleep (Ptr.buf 0) stA ∧
    holdingsleep 1 stA (Ptr.buf 0) = true ∧
    bunpin stA (Ptr.buf 0) = Res.ret () stB ∧
    brelse 1 stB (Ptr.buf 0) = Res.ret () stC ∧
    breadWake 2 stC (Ptr.buf 0) = Res.ret (Ptr.buf 0) stD ∧
    holdingsleep 2 stD (Ptr.buf 0) = true ∧ bpin stD (Ptr.buf 0) = stE ∧
    0 < (stE.mem (Ptr.buf 0)).refcnt ∧ hash (stE.mem (Ptr.buf 0)).blockno = 1 ∧
    bucketList 4 stE 1 = some [] := by
  refine ⟨rfl, by decide, ?_, ?_, rfl, by decide, rfl, rfl, rfl, by decide, rfl, by decide,
    by decide, by decide⟩
  · rw [pins_st1]; simp
  · rw [pins_st1]; decide

/-- C11. In a reachable state, `brelse(b)` on a buffer `b` whose sleep-lock the
caller holds returns; it releases that lock, lowers `refcnt` of `b` by exactly one
and changes no other `refcnt`; `dev`, `blockno`, `valid` and `data` of every
buffer, `b` included, and the disk are unchanged.  If `refcnt` of `b` stays
positive no link changes.  If it reaches zero, the only links written are
`b->prev->next` and `b->next->prev`, and the list of the bucket of `b` becomes
the former list without `b`, the other buffers keeping their order.  The list of
every other bucket is the same. -/
theorem brelse_frame (NBUF pid : Nat) (s : State) (h : Reachable NBUF s) (b : Ptr)
    (hheld : holdingsleep pid s b = true) :
    ∃ s1 l, brelse pid s b = Res.ret () s1 ∧
      (s1.mem b).refcnt + 1 = (s.mem b).refcnt ∧
      (∀ p, p ≠ b → (s1.mem p).refcnt = (s.mem p).refcnt) ∧
      (∀ p, (s1.mem p).lock = if p = b then none else (s.mem p).lock) ∧
      (∀ p, (s1.mem p).dev = (s.mem p).dev ∧ (s1.mem p).blockno = (s.mem p).blockno ∧
        (s1.mem p).valid = (s.mem p).valid ∧ (s1.mem p).data = (s.mem p).data) ∧
      s1.disk = s.disk ∧ s1.io = s.io ∧
      bucketList NBUF s (hash (s.mem b).blockno) = some l ∧ b ∈ l ∧
      ((s1.mem b).refcnt ≠ 0 →
        ∀ p, (s1.mem p).next = (s.mem p).next ∧ (s1.mem p).prev = (s.mem p).prev) ∧
      ((s1.mem b).refcnt = 0 →
        (∀ p, p ≠ (s.mem b).prev → (s1.mem p).next = (s.mem p).next) ∧
        (∀ p, p ≠ (s.mem b).next → (s1.mem p).prev = (s.mem p).prev) ∧
        bucketList NBUF s1 (hash (s.mem b).blockno) = some (l.erase b)) ∧
      (∀ k, k < NBUCKET → k ≠ hash (s.mem b).blockno →
        bucketList NBUF s1 k = bucketList NBUF s k) := by
  obtain ⟨L, hI⟩ := inv_reachable h
  have hlock : (s.mem b).lock = some pid := by simpa [holdingsleep] using hheld
  obtain ⟨i, _, rfl, _⟩ := hI.lock b (by rw [hlock]; simp)
  obtain ⟨hi, hpos, hmem, s1, ht, hlast, hmore⟩ := brelse_inv hI hlock
  obtain ⟨t, hu, hrc, hlk, hdev, hbn, hv, hdata, hdisk, hio, hn, hp⟩ := brelse_held hlock
  rw [ht] at hu
  obtain rfl : s1 = t := by simpa using hu
  have hk := hash_lt (s.mem (Ptr.buf i)).blockno
  have hd : dec32 (s.mem (Ptr.buf i)).refcnt = (s.mem (Ptr.buf i)).refcnt - 1 :=
    dec32_of_pos hpos
  have hrb : (s1.mem (Ptr.buf i)).refcnt = (s.mem (Ptr.buf i)).refcnt - 1 := by
    rw [hrc, if_pos rfl, hd]
  refine ⟨s1, (L (hash (s.mem (Ptr.buf i)).blockno)).map Ptr.buf, ht, by rw [hrb]; omega,
    fun p hp' => by rw [hrc, if_neg hp'], hlk, fun p => ⟨hdev p, hbn p, hv p, hdata p⟩,
    hdisk, hio, hI.bucketList hk, List.mem_map.mpr ⟨i, hmem, rfl⟩, ?_, ?_, ?_⟩
  · intro hne p
    have hz : ¬ dec32 (s.mem (Ptr.buf i)).refcnt = 0 := by rw [hd, ← hrb]; exact hne
    exact ⟨by rw [hn]; simp [hz], by rw [hp]; simp [hz]⟩
  · intro hzero
    have hone : (s.mem (Ptr.buf i)).refcnt = 1 := by omega
    refine ⟨fun p hp' => by rw [hn]; simp [hp'], fun p hp' => by rw [hp]; simp [hp'], ?_⟩
    have := (hlast hone).bucketList hk
    rw [this, Function.update_same, List.map_erase buf_injective]
  · intro k hk' hne
    by_cases hone : (s.mem (Ptr.buf i)).refcnt = 1
    · have := (hlast hone).bucketList hk'
      rw [this, Function.update_noteq hne, hI.bucketList hk']
    · rw [(hmore hone).bucketList hk', hI.bucketList hk']

/-- C11, witness: process 1 holds buffer 0 in `st3`, where buffer 1 is referenced
too; releasing buffer 0 empties bucket `hash 5`. -/
theorem brelse_frame_witness :
    Reachable 4 st3 ∧ holdingsleep 1 st3 (Ptr.buf 0) = true ∧
    ∃ s1 l, brelse 1 st3 (Ptr.buf 0) = Res.ret () s1 ∧
      (s1.mem (Ptr.buf 0)).refcnt + 1 = (st3.mem (Ptr.buf 0)).refcnt ∧
      bucketList 4 st3 (hash (st3.mem (Ptr.buf 0)).blockno) = some l ∧ Ptr.buf 0 ∈ l :=
  ⟨reach_st3, by decide,
    (brelse_frame 4 1 st3 reach_st3 (Ptr.buf 0) (by decide)).imp
      (fun _ h => h.imp (fun _ g => ⟨g.1, g.2.1, g.2.2.2.2.2.2.2.1, g.2.2.2.2.2.2.2.2.1⟩))⟩

/-- C20, evaluated: process 1 reads block 5 of device 0, gets buffer 0, and
releases it.  Buffer 0 is the buffer of bucket `hash 5 = 1` most recently returned
by `bread` and most recently released by `brelse`, yet `head.next` of that bucket
is the head itself and buffer 0 is not in the list: `brelse` has taken it out
where its comment says "move to the head of the most-recently-used list". -/
theorem bucket_not_mru :
    bread 4 1 st0 0 5 = Res.ret (Ptr.buf 0) st1 ∧
    brelse 1 st1 (Ptr.buf 0) = Res.ret () st1r ∧ hash 5 = 1 ∧
    (st1r.mem (Ptr.head 1)).next = Ptr.head 1 ∧
    (st1r.mem (Ptr.head 1)).next ≠ Ptr.buf 0 ∧
    bucketList 4 st1r 1 = some [] :=
  ⟨rfl, rfl, by decide, by decide, by decide, by decide⟩

end Bio

/-! # Theorems about the page allocator -/

namespace Kalloc

/-! ## Memory -/

@[simp] theorem memset_mem (s : KState) (dst c n x : Nat) :
    (memset s dst c n).mem x = if dst ≤ x ∧ x < dst + n then c else s.mem x := rfl

@[simp] theorem memset_freelist (s : KState) (dst c n : Nat) :
    (memset s dst c n).freelist = s.freelist := rfl

@[simp] theorem store64_mem (s : KState) (r v x : Nat) :
    (store64 s r v).mem x =
      if r ≤ x ∧ x < r + 8 then v / 2 ^ (8 * (x - r)) % 256 else s.mem x := rfl

@[simp] theorem store64_freelist (s : KState) (r v : Nat) :
    (store64 s r v).freelist = s.freelist := rfl

@[simp] theorem setFreelist_mem (s : KState) (i v : Nat) : (s.setFreelist i v).mem = s.mem := rfl

@[simp] theorem setFreelist_freelist (s : KState) (i v j : Nat) :
    (s.setFreelist i v).freelist j = if j = i then v else s.freelist j := rfl

/-- A pointer of 64 bits is read back as it was stored. -/
theorem load64_store64 (s : KState) (r v : Nat) (hv : v < 2 ^ 64) :
    load64 (store64 s r v).mem r = v := by
  unfold load64
  simp only [store64_mem]
  rw [if_pos (by omega), if_pos (by omega), if_pos (by omega), if_pos (by omega),
    if_pos (by omega), if_pos (by omega), if_pos (by omega), if_pos (by omega)]
  have e0 : r - r = 0 := by omega
  have e1 : r + 1 - r = 1 := by omega
  have e2 : r + 2 - r = 2 := by omega
  have e3 : r + 3 - r = 3 := by omega
  have e4 : r + 4 - r = 4 := by omega
  have e5 : r + 5 - r = 5 := by omega
  have e6 : r + 6 - r = 6 := by omega
  have e7 : r + 7 - r = 7 := by omega
  rw [e0, e1, e2, e3, e4, e5, e6, e7]
  norm_num
  omega

/-- The word at `r` only depends on the eight bytes from `r` on. -/
theorem load64_congr {m1 m2 : Nat → Nat} {r : Nat} (h : ∀ x, r ≤ x → x < r + 8 → m1 x = m2 x) :
    load64 m1 r = load64 m2 r := by
  unfold load64
  rw [h r (by omega) (by omega), h (r + 1) (by omega) (by omega),
    h (r + 2) (by omega) (by omega), h (r + 3) (by omega) (by omega),
    h (r + 4) (by omega) (by omega), h (r + 5) (by omega) (by omega),
    h (r + 6) (by omega) (by omega), h (r + 7) (by omega) (by omega)]

/-- Two different page-aligned addresses are a page apart. -/
theorem page_apart {p q : Nat} (hp : p % PGSIZE = 0) (hq : q % PGSIZE = 0) (hne : p ≠ q) :
    p + PGSIZE ≤ q ∨ q + PGSIZE ≤ p := by
  unfold PGSIZE at *
  omega

/-! ## Chains -/

/-- A chain only depends on the pointers stored in its pages. -/
theorem ListAt.same_words {m1 m2 : Nat → Nat} :
    ∀ {l : List Nat} {h : Nat}, ListAt m1 h l →
      (∀ p ∈ l, ∀ x, p ≤ x → x < p + 8 → m2 x = m1 x) → ListAt m2 h l
  | [], _, hl, _ => hl
  | p :: l, h, hl, hf => by
    obtain ⟨h1, h2, h3⟩ := hl
    refine ⟨h1, h2, ?_⟩
    rw [load64_congr (hf p (List.mem_cons_self _ _))]
    exact ListAt.same_words h3 (fun q hq => hf q (List.mem_cons_of_mem _ hq))

/-- A chain is untouched by a write into a page that is not a member. -/
theorem ListAt.frame_page {m1 m2 : Nat → Nat} {l : List Nat} {h q : Nat} (hl : ListAt m1 h l)
    (hpg : ∀ p ∈ l, p % PGSIZE = 0) (hq : q % PGSIZE = 0) (hnot : q ∉ l)
    (hm : ∀ x, ¬ (q ≤ x ∧ x < q + PGSIZE) → m2 x = m1 x) : ListAt m2 h l := by
  refine hl.same_words (fun p hp x h1 h2 => hm x ?_)
  have hne : p ≠ q := fun e => hnot (e ▸ hp)
  have := page_apart (hpg p hp) hq hne
  unfold PGSIZE at *
  omega

/-- The pointer a chain starts at determines whether the list is empty. -/
theorem ListAt.eq_nil_iff {m : Nat → Nat} {l : List Nat} {h : Nat} (hl : ListAt m h l) :
    l = [] ↔ h = 0 := by
  cases l with
  | nil => simpa using hl
  | cons p l => obtain ⟨h1, h2, _⟩ := hl; simp; omega

/-- The list a chain spells out is determined by the memory and the start. -/
theorem ListAt.unique {m : Nat → Nat} :
    ∀ {l1 l2 : List Nat} {h : Nat}, ListAt m h l1 → ListAt m h l2 → l1 = l2
  | [], [], _, _, _ => rfl
  | [], q :: l2, h, h1, h2 => by
    obtain ⟨e, hq, _⟩ := h2
    have : h = 0 := h1
    omega
  | p :: l1, [], h, h1, h2 => by
    obtain ⟨e, hp, _⟩ := h1
    have : h = 0 := h2
    omega
  | p :: l1, q :: l2, h, h1, h2 => by
    obtain ⟨e1, _, t1⟩ := h1
    obtain ⟨e2, _, t2⟩ := h2
    obtain rfl : p = q := by omega
    rw [ListAt.unique t1 t2]

/-! ## Pushing and popping a page -/

theorem pushPage_freelist (s : KState) (pa icpu j : Nat) :
    (pushPage s pa icpu).freelist j = if j = icpu then pa else s.freelist j := rfl

theorem pushPage_mem_out (s : KState) (pa icpu x : Nat) (hx : ¬ (pa ≤ x ∧ x < pa + PGSIZE)) :
    (pushPage s pa icpu).mem x = s.mem x := by
  have h8 : ¬ (pa ≤ x ∧ x < pa + 8) := by unfold PGSIZE at hx; omega
  simp [pushPage, hx, h8]

theorem pushPage_mem_in (s : KState) (pa icpu x : Nat) (h1 : pa + 8 ≤ x) (h2 : x < pa + PGSIZE) :
    (pushPage s pa icpu).mem x = 1 := by
  have h8 : ¬ (pa ≤ x ∧ x < pa + 8) := by omega
  have hin : pa ≤ x ∧ x < pa + PGSIZE := by omega
  simp only [pushPage, setFreelist_mem, store64_mem, memset_mem, if_neg h8, if_pos hin]

theorem pushPage_next (s : KState) (pa icpu : Nat) (hh : s.freelist icpu < 2 ^ 64) :
    load64 (pushPage s pa icpu).mem pa = s.freelist icpu := by
  have := load64_store64 (memset s pa 1 PGSIZE) pa ((memset s pa 1 PGSIZE).freelist icpu)
    (by simpa using hh)
  simpa [pushPage] using this

theorem kfreehelper_ok {kend PHYSTOP : Nat} (s : KState) {pa : Nat} (icpu : Nat)
    (h1 : pa % PGSIZE = 0) (h2 : kend ≤ pa) (h3 : pa < PHYSTOP) :
    kfreehelper kend PHYSTOP s pa icpu = KRes.ret () (pushPage s pa icpu) := by
  unfold kfreehelper
  rw [if_neg (by omega)]

theorem kfreehelper_bad {kend PHYSTOP : Nat} (s : KState) {pa : Nat} (icpu : Nat)
    (h : pa % PGSIZE ≠ 0 ∨ pa < kend ∨ pa ≥ PHYSTOP) :
    kfreehelper kend PHYSTOP s pa icpu = KRes.panic "kfree" s := by
  unfold kfreehelper
  rw [if_pos h]

/-- A page that passes the check of `kfreehelper` is a page frame. -/
theorem isPage_of_valid {kend PHYSTOP pa : Nat} (hk : 0 < kend) (hP : PHYSTOP ≤ 2 ^ 64)
    (h1 : pa % PGSIZE = 0) (h2 : kend ≤ pa) (h3 : pa < PHYSTOP) : IsPage pa :=
  ⟨h1, by omega, by omega⟩

/-- The head of a list is null or a 64-bit pointer. -/
theorem Rep.head_lt {NCPU : Nat} {s : KState} {L : Nat → List Nat} (hR : Rep NCPU s L)
    {i : Nat} (hi : i < NCPU) : s.freelist i < 2 ^ 64 := by
  have hl := hR.list i hi
  cases hL : L i with
  | nil => rw [hL] at hl; have : s.freelist i = 0 := hl; omega
  | cons p l =>
    rw [hL] at hl
    obtain ⟨e, _, _⟩ := hl
    have := (hR.page i hi p (by rw [hL]; simp)).2.2
    omega

/-- Pushing a page frame that is in no list puts it in front of list `icpu`
and leaves every other list as it was. -/
theorem Rep.push {NCPU : Nat} {s : KState} {L : Nat → List Nat} (hR : Rep NCPU s L)
    {pa icpu : Nat} (hc : icpu < NCPU) (hpa : IsPage pa) (hnew : ∀ i, i < NCPU → pa ∉ L i) :
    Rep NCPU (pushPage s pa icpu) (Function.update L icpu (pa :: L icpu)) := by
  have hframe : ∀ i, i < NCPU → ∀ h, ListAt s.mem h (L i) →
      ListAt (pushPage s pa icpu).mem h (L i) := by
    intro i hi h hl
    exact hl.frame_page (fun p hp => (hR.page i hi p hp).1) hpa.1 (hnew i hi)
      (fun x hx => pushPage_mem_out s pa icpu x hx)
  refine { list := ?_, page := ?_, nodup := ?_, disjoint := ?_ }
  · intro i hi
    by_cases hic : i = icpu
    · subst hic
      rw [Function.update_same, pushPage_freelist, if_pos rfl]
      refine ⟨rfl, hpa.2.1, ?_⟩
      rw [pushPage_next s pa i (hR.head_lt hi)]
      exact hframe i hi _ (hR.list i hi)
    · rw [Function.update_noteq hic, pushPage_freelist, if_neg hic]
      exact hframe i hi _ (hR.list i hi)
  · intro i hi p hp
    by_cases hic : i = icpu
    · subst hic
      rw [Function.update_same] at hp
      rcases List.mem_cons.mp hp with rfl | hp'
      · exact hpa
      · exact hR.page i hi p hp'
    · rw [Function.update_noteq hic] at hp; exact hR.page i hi p hp
  · intro i hi
    by_cases hic : i = icpu
    · subst hic
      rw [Function.update_same]
      exact List.nodup_cons.mpr ⟨hnew i hi, hR.nodup i hi⟩
    · rw [Function.update_noteq hic]; exact hR.nodup i hi
  · intro i hi j hj hij p hp
    by_cases hic : i = icpu
    · subst hic
      rw [Function.update_same] at hp
      rw [Function.update_noteq (Ne.symm hij)]
      rcases List.mem_cons.mp hp with rfl | hp'
      · exact hnew j hj
      · exact hR.disjoint i hi j hj hij p hp'
    · rw [Function.update_noteq hic] at hp
      by_cases hjc : j = icpu
      · subst hjc
        rw [Function.update_same]
        intro hm
        rcases List.mem_cons.mp hm with rfl | hm'
        · exact hnew i hi hp
        · exact hR.disjoint i hi j hj hij p hp hm'
      · rw [Function.update_noteq hjc]
        exact hR.disjoint i hi j hj hij p hp

/-- Popping the head of a non-empty list `i` and filling the page with the byte 5
leaves the rest of list `i` and every other list as they were. -/
theorem Rep.pop {NCPU : Nat} {s : KState} {L : Nat → List Nat} (hR : Rep NCPU s L)
    {i : Nat} (hi : i < NCPU) (hne : s.freelist i ≠ 0) :
    ∃ rest, L i = s.freelist i :: rest ∧
      Rep NCPU (memset (s.setFreelist i (load64 s.mem (s.freelist i))) (s.freelist i) 5 PGSIZE)
        (Function.update L i rest) := by
  have hl := hR.list i hi
  cases hL : L i with
  | nil => rw [hL] at hl; exact absurd hl hne
  | cons p rest =>
    rw [hL] at hl
    obtain ⟨e, hp0, htail⟩ := hl
    rw [e]
    have hpm : p ∈ L i := by rw [hL]; simp
    have hpage := hR.page i hi p hpm
    have hnd := hR.nodup i hi
    rw [hL] at hnd
    obtain ⟨hprest, hndrest⟩ := List.nodup_cons.mp hnd
    have hframe : ∀ (l : List Nat) (h : Nat), (∀ q ∈ l, q % PGSIZE = 0) → p ∉ l →
        ListAt s.mem h l →
        ListAt (memset (s.setFreelist i (load64 s.mem p)) p 5 PGSIZE).mem h l := by
      intro l h hpg hnot hla
      refine hla.frame_page hpg hpage.1 hnot (fun x hx => ?_)
      simp [hx]
    refine ⟨rest, rfl, { list := ?_, page := ?_, nodup := ?_, disjoint := ?_ }⟩
    · intro j hj
      by_cases hji : j = i
      · subst hji
        rw [Function.update_same]
        simp only [memset_freelist, setFreelist_freelist, if_true]
        exact hframe rest _ (fun q hq => (hR.page j hi q (by rw [hL]; simp [hq])).1) hprest htail
      · rw [Function.update_noteq hji]
        simp only [memset_freelist, setFreelist_freelist, if_neg hji]
        exact hframe (L j) _ (fun q hq => (hR.page j hj q hq).1)
          (hR.disjoint i hi j hj (Ne.symm hji) p hpm) (hR.list j hj)
    · intro j hj q hq
      by_cases hji : j = i
      · subst hji
        rw [Function.update_same] at hq
        exact hR.page j hi q (by rw [hL]; simp [hq])
      · rw [Function.update_noteq hji] at hq; exact hR.page j hj q hq
    · intro j hj
      by_cases hji : j = i
      · subst hji; rw [Function.update_same]; exact hndrest
      · rw [Function.update_noteq hji]; exact hR.nodup j hj
    · intro a ha c hc hac q hq
      have hqa : q ∈ L a := by
        by_cases hai : a = i
        · subst hai
          rw [Function.update_same] at hq
          rw [hL]; simp [hq]
        · rwa [Function.update_noteq hai] at hq
      intro hqc
      have hqc' : q ∈ L c := by
        by_cases hci : c = i
        · subst hci
          rw [Function.update_same] at hqc
          rw [hL]; simp [hqc]
        · rwa [Function.update_noteq hci] at hqc
      exact hR.disjoint a ha c hc hac q hqa hqc'

/-! ## Counting the free pages -/

theorem total_succ (n : Nat) (L : Nat → List Nat) : total (n + 1) L = total n L + (L n).length := by
  simp [total, List.range_succ]

theorem total_congr {n : Nat} {L1 L2 : Nat → List Nat} (h : ∀ i, i < n → L1 i = L2 i) :
    total n L1 = total n L2 := by
  induction n with
  | zero => rfl
  | succ n ih =>
    rw [total_succ, total_succ, ih (fun i hi => h i (by omega)), h n (by omega)]

theorem total_update {n i : Nat} (hi : i < n) (L : Nat → List Nat) (l : List Nat) :
    total n (Function.update L i l) + (L i).length = total n L + l.length := by
  induction n with
  | zero => omega
  | succ n ih =>
    rw [total_succ, total_succ]
    by_cases hin : i = n
    · subst hin
      rw [Function.update_same]
      have : total i (Function.update L i l) = total i L :=
        total_congr (fun j hj => Function.update_noteq (by omega) _ _)
      omega
    · rw [Function.update_noteq (Ne.symm hin)]
      have := ih (by omega)
      omega

theorem total_eq_zero {n : Nat} {L : Nat → List Nat} (h : ∀ i, i < n → L i = []) :
    total n L = 0 := by
  induction n with
  | zero => rfl
  | succ n ih => rw [total_succ, ih (fun i hi => h i (by omega)), h n (by omega)]; rfl

/-! ## The stealing loop -/

theorem add_mod_ne {n id o : Nat} (h1 : id < n) (h2 : 0 < o) (h3 : o < n) :
    (id + o) % n ≠ id := by
  by_cases h : id + o < n
  · rw [Nat.mod_eq_of_lt h]; omega
  · rw [Nat.mod_eq_sub_mod (by omega), Nat.mod_eq_of_lt (by omega)]; omega

/-- Every index below `n` is `(id + j) % n` for some offset `j < n`. -/
theorem exists_offset {n id i : Nat} (h1 : id < n) (h2 : i < n) :
    ∃ j, j < n ∧ (id + j) % n = i ∧ (j = 0 ↔ i = id) := by
  by_cases h : id ≤ i
  · refine ⟨i - id, by omega, ?_, by omega⟩
    rw [show id + (i - id) = i by omega, Nat.mod_eq_of_lt h2]
  · refine ⟨i + n - id, by omega, ?_, by omega⟩
    rw [show id + (i + n - id) = i + n by omega, Nat.add_mod_right, Nat.mod_eq_of_lt h2]

/-- The state in which `kalloc` leaves the lists when it takes the head of list `i`,
before the page is filled. -/
theorem steal_spec {NCPU id : Nat} (hid : id < NCPU) (s : KState) :
    ∀ m, m < NCPU →
      ((∀ j, NCPU - m ≤ j → j < NCPU → s.freelist ((id + j) % NCPU) = 0) ∧
        steal NCPU id (m + 1) ((id + (NCPU - m)) % NCPU) s = some (0, s)) ∨
      ∃ j, NCPU - m ≤ j ∧ j < NCPU ∧ s.freelist ((id + j) % NCPU) ≠ 0 ∧
        (∀ k, NCPU - m ≤ k → k < j → s.freelist ((id + k) % NCPU) = 0) ∧
        steal NCPU id (m + 1) ((id + (NCPU - m)) % NCPU) s =
          some (s.freelist ((id + j) % NCPU),
            s.setFreelist ((id + j) % NCPU) (load64 s.mem (s.freelist ((id + j) % NCPU))))
  | 0, _ => by
    left
    refine ⟨fun j h1 h2 => by omega, ?_⟩
    have : (id + (NCPU - 0)) % NCPU = id := by
      rw [Nat.sub_zero, Nat.add_mod_right, Nat.mod_eq_of_lt hid]
    rw [this]
    simp [steal]
  | m + 1, hm => by
    have hne : (id + (NCPU - (m + 1))) % NCPU ≠ id := add_mod_ne hid (by omega) (by omega)
    have hnext : ((id + (NCPU - (m + 1))) % NCPU + 1) % NCPU = (id + (NCPU - m)) % NCPU := by
      rw [Nat.mod_add_mod]
      congr 1
      omega
    unfold steal
    rw [if_neg hne]
    by_cases hz : s.freelist ((id + (NCPU - (m + 1))) % NCPU) = 0
    · rw [if_neg (by simpa using hz), hnext]
      rcases steal_spec hid s m (by omega) with ⟨hall, hst⟩ | ⟨j, h1, h2, h3, h4, hst⟩
      · left
        refine ⟨fun j h1 h2 => ?_, hst⟩
        by_cases hj : j = NCPU - (m + 1)
        · rw [hj]; exact hz
        · exact hall j (by omega) h2
      · right
        refine ⟨j, by omega, h2, h3, fun k hk1 hk2 => ?_, hst⟩
        by_cases hk : k = NCPU - (m + 1)
        · rw [hk]; exact hz
        · exact h4 k (by omega) hk2
    · rw [if_pos hz]
      right
      exact ⟨NCPU - (m + 1), le_refl _, by omega, hz, fun k hk1 hk2 => by omega, rfl⟩

/-- What `kalloc` does, on the heads of the lists alone: either every list is
empty, it returns 0 and changes nothing; or it takes the head of list
`(id + j) % NCPU` for the least offset `j < NCPU` whose list is not empty, and
fills that page with the byte 5. -/
theorem kalloc_cases {NCPU id : Nat} (hid : id < NCPU) (s : KState) :
    ((∀ i, i < NCPU → s.freelist i = 0) ∧ kalloc NCPU id s = KRes.ret 0 s) ∨
    ∃ j, j < NCPU ∧ s.freelist ((id + j) % NCPU) ≠ 0 ∧
      (∀ k, k < j → s.freelist ((id + k) % NCPU) = 0) ∧
      kalloc NCPU id s = KRes.ret (s.freelist ((id + j) % NCPU))
        (memset (s.setFreelist ((id + j) % NCPU) (load64 s.mem (s.freelist ((id + j) % NCPU))))
          (s.freelist ((id + j) % NCPU)) 5 PGSIZE) := by
  have hmod0 : (id + 0) % NCPU = id := by rw [Nat.add_zero, Nat.mod_eq_of_lt hid]
  by_cases h0 : s.freelist id = 0
  · have hstart : (id + 1) % NCPU = (id + (NCPU - (NCPU - 1))) % NCPU := by
      congr 2; omega
    have hk : kalloc NCPU id s =
        match steal NCPU id (NCPU - 1 + 1) ((id + (NCPU - (NCPU - 1))) % NCPU) s with
        | none => KRes.diverge
        | some (r, s1) => if r ≠ 0 then KRes.ret r (memset s1 r 5 PGSIZE) else KRes.ret 0 s1 := by
      unfold kalloc
      rw [if_neg (by simpa using h0), hstart, show NCPU - 1 + 1 = NCPU by omega]
    rcases steal_spec hid s (NCPU - 1) (by omega) with ⟨hall, hst⟩ | ⟨j, h1, h2, h3, h4, hst⟩
    · left
      refine ⟨fun i hi => ?_, by rw [hk, hst]; simp⟩
      obtain ⟨j, hj, e, hj0⟩ := exists_offset hid hi
      by_cases hjz : j = 0
      · rw [hj0.mp hjz]; exact h0
      · rw [← e]; exact hall j (by omega) hj
    · right
      refine ⟨j, h2, h3, fun k hk' => ?_, by rw [hk, hst]; simp [h3]⟩
      by_cases hkz : k = 0
      · rw [hkz, hmod0]; exact h0
      · exact h4 k (by omega) hk'
  · right
    refine ⟨0, by omega, by rw [hmod0]; exact h0, fun k hk => by omega, ?_⟩
    rw [hmod0]
    unfold kalloc
    rw [if_pos h0]

/-- The function `kalloc` returns on every CPU index. -/
theorem kalloc_returns {NCPU id : Nat} (hid : id < NCPU) (s : KState) :
    ∃ r s1, kalloc NCPU id s = KRes.ret r s1 := by
  rcases kalloc_cases hid s with ⟨_, h⟩ | ⟨j, _, _, _, h⟩
  · exact ⟨_, _, h⟩
  · exact ⟨_, _, h⟩

/-- What `kalloc` does on a state that satisfies the invariant: either every list
is empty, it returns 0 and changes nothing; or it returns the head `r` of a
non-empty list `i`, that list loses `r` and every other list is as before. -/
theorem kalloc_rep {NCPU id : Nat} (hid : id < NCPU) {s : KState} {L : Nat → List Nat}
    (hR : Rep NCPU s L) :
    ((∀ i, i < NCPU → L i = []) ∧ kalloc NCPU id s = KRes.ret 0 s) ∨
    ∃ i r rest s1, i < NCPU ∧ r ≠ 0 ∧ L i = r :: rest ∧ kalloc NCPU id s = KRes.ret r s1 ∧
      Rep NCPU s1 (Function.update L i rest) := by
  rcases kalloc_cases hid s with ⟨hall, h⟩ | ⟨j, hj, hne, _, h⟩
  · left
    exact ⟨fun i hi => (hR.list i hi).eq_nil_iff.mpr (hall i hi), h⟩
  · right
    have hi : (id + j) % NCPU < NCPU := Nat.mod_lt _ (by omega)
    obtain ⟨rest, hL, hR1⟩ := hR.pop hi hne
    exact ⟨_, _, rest, _, hi, hne, hL, h, hR1⟩

/-! ## `freerange` -/

theorem PGROUNDUP_spec (a : Nat) (h : a + PGSIZE ≤ 2 ^ 64) :
    PGROUNDUP a % PGSIZE = 0 ∧ a ≤ PGROUNDUP a ∧ PGROUNDUP a < a + PGSIZE := by
  unfold PGROUNDUP
  unfold PGSIZE at h ⊢
  omega

/-- The loop of `freerange` pushes the `m` pages that fit below `pa_end` and returns. -/
theorem freerangeLoop_eq {NCPU kend PHYSTOP pa_end : Nat} (hend : pa_end ≤ PHYSTOP) :
    ∀ (m fuel p c : Nat) (s : KState), m < fuel → p % PGSIZE = 0 → kend ≤ p →
      (m ≠ 0 → p + m * PGSIZE ≤ pa_end) → pa_end < p + (m + 1) * PGSIZE →
      p + (m + 1) * PGSIZE < 2 ^ 64 → c + m < 2 ^ 64 →
      freerangeLoop NCPU kend PHYSTOP pa_end fuel p c s = KRes.ret () (pushRange NCPU m p c s)
  | 0, fuel, p, c, s, hf, _, _, _, h2, h3, _ => by
    obtain ⟨f, rfl⟩ : ∃ f, fuel = f + 1 := ⟨fuel - 1, by omega⟩
    have e : PGSIZE = 4096 := rfl
    have : ¬ ((p + PGSIZE) % 2 ^ 64 ≤ pa_end) := by rw [e] at h2 h3 ⊢; omega
    simp only [freerangeLoop, if_neg this, pushRange]
  | m + 1, fuel, p, c, s, hf, ha, hk, h1, h2, h3, h4 => by
    obtain ⟨f, rfl⟩ : ∃ f, fuel = f + 1 := ⟨fuel - 1, by omega⟩
    have h1' := h1 (by omega)
    have e : PGSIZE = 4096 := rfl
    have hle : p + PGSIZE ≤ pa_end := by rw [e] at h1' ⊢; omega
    have hw : (p + PGSIZE) % 2 ^ 64 = p + PGSIZE := by rw [e] at h3 ⊢; omega
    have hc : (c + 1) % 2 ^ 64 = c + 1 := by omega
    have hlt : p < PHYSTOP := by rw [e] at hle; omega
    have hok : kfreehelper kend PHYSTOP s p (c % NCPU) = KRes.ret () (pushPage s p (c % NCPU)) :=
      kfreehelper_ok s (c % NCPU) ha hk hlt
    have g1 : (p + PGSIZE) % PGSIZE = 0 := by rw [e] at ha ⊢; omega
    have g2 : kend ≤ p + PGSIZE := by omega
    have g3 : m ≠ 0 → p + PGSIZE + m * PGSIZE ≤ pa_end := fun _ => by rw [e] at h1' ⊢; omega
    have g4 : pa_end < p + PGSIZE + (m + 1) * PGSIZE := by rw [e] at h2 ⊢; omega
    have g5 : p + PGSIZE + (m + 1) * PGSIZE < 2 ^ 64 := by rw [e] at h3 ⊢; omega
    have ih : freerangeLoop NCPU kend PHYSTOP pa_end f (p + PGSIZE) (c + 1) (pushPage s p (c % NCPU)) = _ :=
      freerangeLoop_eq hend m f (p + PGSIZE) (c + 1) (pushPage s p (c % NCPU)) (by omega) g1 g2 g3 g4
        g5 (by omega)
    simp only [freerangeLoop, hw, hc, if_pos hle, hok, ih, pushRange]

theorem pushRange_eq_foldl (NCPU : Nat) :
    ∀ (m p c : Nat) (s : KState), pushRange NCPU m p c s =
      (List.range m).foldl (fun t k => pushPage t (p + k * PGSIZE) ((c + k) % NCPU)) s
  | 0, _, _, _ => rfl
  | m + 1, p, c, s => by
    rw [pushRange, pushRange_eq_foldl NCPU m, List.range_succ_eq_map, List.foldl_cons, List.foldl_map]
    simp only [Nat.zero_mul, Nat.add_zero]
    congr 1
    funext t k
    congr 1
    · rw [Nat.succ_mul]; omega
    · congr 1; omega

theorem sharePages_succ (NCPU p0 n i : Nat) :
    sharePages NCPU p0 (n + 1) i =
      if n % NCPU = i then (p0 + n * PGSIZE) :: sharePages NCPU p0 n i else sharePages NCPU p0 n i := by
  unfold sharePages
  rw [List.range_succ, List.filter_append]
  by_cases h : n % NCPU = i <;> simp [h]

theorem mem_sharePages {NCPU p0 n i q : Nat} :
    q ∈ sharePages NCPU p0 n i ↔ ∃ j, j < n ∧ j % NCPU = i ∧ q = p0 + j * PGSIZE := by
  unfold sharePages
  simp only [List.mem_map, List.mem_reverse, List.mem_filter, List.mem_range, decide_eq_true_eq]
  constructor
  · rintro ⟨j, ⟨h1, h2⟩, rfl⟩; exact ⟨j, h1, h2, rfl⟩
  · rintro ⟨j, h1, h2, rfl⟩; exact ⟨j, ⟨h1, h2⟩, rfl⟩

/-- Pushing the pages `p0 + k * PGSIZE`, `k < n`, the `k`-th onto list `k % NCPU`,
in front of lists that hold none of them. -/
theorem rep_foldl_push {NCPU p0 : Nat} (hN : 0 < NCPU) (h0 : p0 % PGSIZE = 0) (hp0 : 0 < p0)
    {s : KState} {L : Nat → List Nat} (hR : Rep NCPU s L) :
    ∀ n, (n ≠ 0 → p0 + n * PGSIZE ≤ 2 ^ 64) →
      (∀ i, i < NCPU → ∀ k, k < n → p0 + k * PGSIZE ∉ L i) →
      Rep NCPU ((List.range n).foldl (fun t k => pushPage t (p0 + k * PGSIZE) (k % NCPU)) s)
        (fun i => sharePages NCPU p0 n i ++ L i)
  | 0, _, _ => by
    have : (fun i => sharePages NCPU p0 0 i ++ L i) = L := by
      funext i; simp [sharePages]
    rw [this]; exact hR
  | n + 1, hb, hfresh => by
    have hb := hb (by omega)
    have hb' : p0 + n * PGSIZE ≤ 2 ^ 64 := by rw [Nat.add_mul] at hb; omega
    have ih := rep_foldl_push hN h0 hp0 hR n (fun _ => hb') (fun i hi k hk => hfresh i hi k (by omega))
    rw [List.range_succ, List.foldl_append, List.foldl_cons, List.foldl_nil]
    have hpage : IsPage (p0 + n * PGSIZE) := by
      refine ⟨?_, by omega, ?_⟩
      · rw [Nat.add_mul_mod_self_right]; exact h0
      · rw [Nat.add_mul] at hb; unfold PGSIZE at hb ⊢; omega
    have hnew : ∀ i, i < NCPU → p0 + n * PGSIZE ∉ sharePages NCPU p0 n i ++ L i := by
      intro i hi hm
      rcases List.mem_append.mp hm with hm | hm
      · obtain ⟨j, hj, _, he⟩ := mem_sharePages.mp hm
        have : n * PGSIZE = j * PGSIZE := by omega
        have := Nat.eq_of_mul_eq_mul_right (by decide : 0 < PGSIZE) this
        omega
      · exact hfresh i hi n (by omega) hm
    have hpush := ih.push (Nat.mod_lt n hN) hpage hnew
    have : Function.update (fun i => sharePages NCPU p0 n i ++ L i) (n % NCPU)
        ((p0 + n * PGSIZE) :: (sharePages NCPU p0 n (n % NCPU) ++ L (n % NCPU))) =
        fun i => sharePages NCPU p0 (n + 1) i ++ L i := by
      funext i
      by_cases hi : i = n % NCPU
      · subst hi
        rw [Function.update_same, sharePages_succ, if_pos rfl, List.cons_append]
      · rw [Function.update_noteq hi, sharePages_succ, if_neg (Ne.symm hi)]
    rw [← this]
    simpa using hpush

/-- The lists of `sharePages` have `n / NCPU` pages each, and the first
`n % NCPU` of them one more. -/
theorem sharePages_length (NCPU p0 : Nat) (hN : 0 < NCPU) :
    ∀ n, ∃ q r, n = NCPU * q + r ∧ r < NCPU ∧
      ∀ i, i < NCPU → (sharePages NCPU p0 n i).length = q + (if i < r then 1 else 0)
  | 0 => ⟨0, 0, by simp, hN, fun i _ => by simp [sharePages]⟩
  | n + 1 => by
    obtain ⟨q, r, hn, hr, hlen⟩ := sharePages_length NCPU p0 hN n
    have hmod : n % NCPU = r := by
      rw [hn, Nat.mul_add_mod, Nat.mod_eq_of_lt hr]
    by_cases hr1 : r + 1 < NCPU
    · refine ⟨q, r + 1, by omega, hr1, fun i hi => ?_⟩
      rw [sharePages_succ, hmod]
      by_cases hi2 : r = i
      · rw [if_pos hi2, List.length_cons, hlen i hi]
        subst hi2
        simp
      · rw [if_neg hi2, hlen i hi]
        by_cases h3 : i < r
        · rw [if_pos h3, if_pos (by omega)]
        · rw [if_neg h3, if_neg (by omega)]
    · refine ⟨q + 1, 0, by rw [Nat.mul_succ]; omega, hN, fun i hi => ?_⟩
      rw [sharePages_succ, hmod]
      by_cases hi2 : r = i
      · rw [if_pos hi2, List.length_cons, hlen i hi]
        subst hi2
        simp
      · rw [if_neg hi2, hlen i hi, if_pos (by omega)]
        simp

/-! ## The concrete states and a sequence of allocations -/

theorem rep_ks0 : Rep 2 ks0 (fun i => sharePages 2 4096 4 i) where
  list := by decide
  page := by decide
  nodup := by decide
  disjoint := by
    intro i hi j hj
    interval_cases i <;> interval_cases j <;> decide

theorem rep_ks4 : Rep 2 ks4 (fun i => if i = 0 then [4096] else [16384, 8192]) where
  list := by decide
  page := by decide
  nodup := by decide
  disjoint := by
    intro i hi j hj
    interval_cases i <;> interval_cases j <;> decide

/-- A sequence of `kalloc` calls on a state that satisfies the invariant: every
call returns, the invariant holds at the end, every page returned was free at
the start and is free no more, the pages returned are pairwise distinct, and no
call fails as long as free pages are left. -/
theorem kallocs_rep {NCPU : Nat} :
    ∀ (cpus : List Nat) {s : KState} {L : Nat → List Nat}, Rep NCPU s L →
      (∀ c ∈ cpus, c < NCPU) →
      ∃ rs s1 L1, kallocs NCPU cpus s = KRes.ret rs s1 ∧ Rep NCPU s1 L1 ∧
        rs.length = cpus.length ∧
        (∀ i, i < NCPU → ∀ q ∈ L1 i, q ∈ L i) ∧
        (∀ r ∈ rs, r ≠ 0 → (∃ i, i < NCPU ∧ r ∈ L i) ∧ ∀ i, i < NCPU → r ∉ L1 i) ∧
        (rs.filter (fun r => decide (r ≠ 0))).Nodup ∧
        (cpus.length ≤ total NCPU L → ∀ r ∈ rs, r ≠ 0)
  | [], s, L, hR, _ =>
    ⟨[], s, L, rfl, hR, rfl, fun _ _ _ h => h, fun r hr => by simp at hr, by simp,
      fun _ r hr => by simp at hr⟩
  | c :: cs, s, L, hR, hc => by
    have hcl : c < NCPU := hc c (List.mem_cons_self _ _)
    have hcs : ∀ d ∈ cs, d < NCPU := fun d hd => hc d (List.mem_cons_of_mem _ hd)
    rcases kalloc_rep hcl hR with ⟨hall, h⟩ | ⟨i, r, rest, s1, hi, hr, hL, h, hR1⟩
    · obtain ⟨rs, s2, L2, hk, hR2, hlen, hsub, hres, hnd, hcnt⟩ := kallocs_rep cs hR hcs
      refine ⟨0 :: rs, s2, L2, by simp only [kallocs, h, hk], hR2, by simp [hlen], hsub, ?_, ?_, ?_⟩
      · intro q hq hq0
        rcases List.mem_cons.mp hq with rfl | hq'
        · exact absurd rfl hq0
        · exact hres q hq' hq0
      · simpa using hnd
      · intro hle
        have := total_eq_zero hall
        simp at hle
        omega
    · obtain ⟨rs, s2, L2, hk, hR2, hlen, hsub, hres, hnd, hcnt⟩ := kallocs_rep cs hR1 hcs
      have hsubL : ∀ j, j < NCPU → ∀ q ∈ Function.update L i rest j, q ∈ L j := by
        intro j hj q hq
        by_cases hji : j = i
        · subst hji
          rw [Function.update_same] at hq
          rw [hL]; exact List.mem_cons_of_mem _ hq
        · rwa [Function.update_noteq hji] at hq
      have hrnot : ∀ j, j < NCPU → r ∉ Function.update L i rest j := by
        intro j hj
        by_cases hji : j = i
        · subst hji
          rw [Function.update_same]
          have := hR.nodup j hj
          rw [hL] at this
          exact (List.nodup_cons.mp this).1
        · rw [Function.update_noteq hji]
          exact hR.disjoint i hi j hj (Ne.symm hji) r (by rw [hL]; simp)
      refine ⟨r :: rs, s2, L2, by simp only [kallocs, h, hk], hR2, by simp [hlen],
        fun j hj q hq => hsubL j hj q (hsub j hj q hq), ?_, ?_, ?_⟩
      · intro q hq hq0
        rcases List.mem_cons.mp hq with rfl | hq'
        · exact ⟨⟨i, hi, by rw [hL]; simp⟩, fun j hj hm => hrnot j hj (hsub j hj q hm)⟩
        · obtain ⟨⟨j, hj, hm⟩, hout⟩ := hres q hq' hq0
          exact ⟨⟨j, hj, hsubL j hj q hm⟩, hout⟩
      · rw [List.filter_cons_of_pos (by simpa using hr)]
        refine List.nodup_cons.mpr ⟨fun hm => ?_, hnd⟩
        obtain ⟨hm1, hm2⟩ := List.mem_filter.mp hm
        obtain ⟨⟨j, hj, hmj⟩, _⟩ := hres r hm1 (by simpa using hm2)
        exact hrnot j hj hmj
      · intro hle q hq
        rcases List.mem_cons.mp hq with rfl | hq'
        · exact hr
        · have := total_update hi L rest
          rw [hL] at this
          simp only [List.length_cons] at this hle
          exact hcnt (by omega) q hq'

/-! ## The claims about the page allocator -/

/-- C12, as the code behaves: on a state that satisfies the representation
invariant, for every CPU index `c` and every page `p` that passes the check of
`kfree`, `kfree(p)` followed immediately by `kalloc()`, both on CPU `c`, returns `p`
and leaves every `kmem[i].freelist` pointer as it was; if moreover `p` is in no
free list when it is freed, every free list is the same after the pair as before. -/
theorem kfree_kalloc_roundtrip (NCPU kend PHYSTOP : Nat) (hk : 0 < kend)
    (hP : PHYSTOP ≤ 2 ^ 64) (s : KState) (L : Nat → List Nat) (hR : Rep NCPU s L)
    (c : Nat) (hc : c < NCPU) (p : Nat) (h1 : p % PGSIZE = 0) (h2 : kend ≤ p)
    (h3 : p < PHYSTOP) :
    ∃ s1 s2, kfree kend PHYSTOP c s p = KRes.ret () s1 ∧ kalloc NCPU c s1 = KRes.ret p s2 ∧
      s2.freelist = s.freelist ∧ ((∀ i, i < NCPU → p ∉ L i) → Rep NCPU s2 L) := by
  have hpage := isPage_of_valid hk hP h1 h2 h3
  have hp0 : p ≠ 0 := hpage.2.1
  have hhead : (pushPage s p c).freelist c = p := by rw [pushPage_freelist, if_pos rfl]
  have hka : kalloc NCPU c (pushPage s p c) = KRes.ret p
      (memset ((pushPage s p c).setFreelist c (load64 (pushPage s p c).mem p)) p 5 PGSIZE) := by
    unfold kalloc
    rw [hhead, if_pos hp0]
  refine ⟨_, _, kfreehelper_ok s c h1 h2 h3, hka, ?_, fun hnew => ?_⟩
  · funext j
    simp only [memset_freelist, setFreelist_freelist, pushPage_freelist]
    by_cases hj : j = c
    · rw [if_pos hj, pushPage_next s p c (hR.head_lt hc), hj]
    · rw [if_neg hj, if_neg hj]
  · have hR1 := hR.push hc hpage hnew
    obtain ⟨rest, hL, hR2⟩ := hR1.pop hc (by rw [hhead]; exact hp0)
    rw [hhead] at hR2 hL
    rw [Function.update_same] at hL
    obtain rfl : L c = rest := by simpa using hL
    rw [Function.update_idem, Function.update_eq_self] at hR2
    exact hR2

/-- C12, witness: `kalloc` on CPU 0 has taken page `0x3000` out of `ks0`; in the
state `ks4` it leaves, that page is in no list. -/
theorem kfree_kalloc_roundtrip_witness :
    Rep 2 ks4 (fun i => if i = 0 then [4096] else [16384, 8192]) ∧
    ∃ s1 s2, kfree 4096 20480 0 ks4 12288 = KRes.ret () s1 ∧
      kalloc 2 0 s1 = KRes.ret 12288 s2 ∧ s2.freelist = ks4.freelist ∧
      ((∀ i, i < 2 → 12288 ∉ (fun i => if i = 0 then [4096] else [16384, 8192]) i) →
        Rep 2 s2 (fun i => if i = 0 then [4096] else [16384, 8192])) :=
  ⟨rep_ks4,
    kfree_kalloc_roundtrip 2 4096 20480 (by decide) (by decide) ks4 _ rep_ks4 0 (by decide)
      12288 (by decide) (by decide) (by decide)⟩

/-- C12, counterexample: in `ks0` list 0 is `0x3000, 0x1000`.  Page `0x1000` passes
the check of `kfree`; after `kfree(0x1000)` and `kalloc()` on CPU 0, which returns
`0x1000`, list 0 is no longer `0x3000, 0x1000`: the page `0x1000` is still linked
behind `0x3000`, and its `next` pointer is the fill pattern of `kalloc`. -/
theorem kfree_kalloc_double_free :
    ListAt ks0.mem (ks0.freelist 0) [12288, 4096] ∧
    4096 % PGSIZE = 0 ∧ 4096 ≤ 4096 ∧ 4096 < 20480 ∧
    kfree 4096 20480 0 ks0 4096 = KRes.ret () ks1 ∧ kalloc 2 0 ks1 = KRes.ret 4096 ks2 ∧
    ¬ ListAt ks2.mem (ks2.freelist 0) [12288, 4096] ∧
    load64 ks2.mem 4096 = 361700864190383365 :=
  ⟨by decide, by decide, by decide, by decide, rfl, rfl, by decide, by decide⟩

/-- C13. When every per-CPU free list is empty, for every page `p` that passes the
check of `kfree` and every pair of CPU indices `a` and `b`, equal or not,
`kfree(p)` on CPU `a` followed by `kalloc()` on CPU `b` returns `p` and leaves
every list empty again. -/
theorem kfree_kalloc_any_cpu (NCPU kend PHYSTOP : Nat) (hk : 0 < kend) (s : KState)
    (hempty : ∀ i, i < NCPU → s.freelist i = 0) (a b : Nat) (ha : a < NCPU) (hb : b < NCPU)
    (p : Nat) (h1 : p % PGSIZE = 0) (h2 : kend ≤ p) (h3 : p < PHYSTOP) :
    ∃ s1 s2, kfree kend PHYSTOP a s p = KRes.ret () s1 ∧ kalloc NCPU b s1 = KRes.ret p s2 ∧
      ∀ i, i < NCPU → s2.freelist i = 0 := by
  have hp0 : p ≠ 0 := by omega
  have hnext : load64 (pushPage s p a).mem p = 0 := by
    rw [pushPage_next s p a (by rw [hempty a ha]; decide), hempty a ha]
  have hheads : ∀ i, i < NCPU → ((pushPage s p a).freelist i ≠ 0 ↔ i = a) := by
    intro i hi
    rw [pushPage_freelist]
    by_cases hia : i = a
    · simp [hia, hp0]
    · simp [hia, hempty i hi]
  rcases kalloc_cases hb (pushPage s p a) with ⟨hall, _⟩ | ⟨j, hj, hne, _, hka⟩
  · exact absurd (hall a ha) ((hheads a ha).mpr rfl)
  · have hi : (b + j) % NCPU < NCPU := Nat.mod_lt _ (by omega)
    have hia := (hheads _ hi).mp hne
    rw [hia] at hka
    have hhead : (pushPage s p a).freelist a = p := by rw [pushPage_freelist, if_pos rfl]
    rw [hhead] at hka
    refine ⟨pushPage s p a, _, kfreehelper_ok s a h1 h2 h3, hka, fun i hi' => ?_⟩
    simp only [memset_freelist, setFreelist_freelist, pushPage_freelist]
    by_cases hi2 : i = a
    · rw [if_pos hi2, hnext]
    · rw [if_neg hi2, if_neg hi2, hempty i hi']

/-- C13, witness: with 2 CPUs and every list empty, page `0x1000` freed on CPU 0 is
returned by `kalloc` on CPU 1. -/
theorem kfree_kalloc_any_cpu_witness :
    (∀ i, i < 2 → kboot.freelist i = 0) ∧
    ∃ s1 s2, kfree 4096 20480 0 kboot 4096 = KRes.ret () s1 ∧
      kalloc 2 1 s1 = KRes.ret 4096 s2 ∧ ∀ i, i < 2 → s2.freelist i = 0 :=
  ⟨by decide,
    kfree_kalloc_any_cpu 2 4096 20480 (by decide) kboot (by decide) 0 1 (by decide)
      (by decide) 4096 (by decide) (by decide) (by decide)⟩

/-- C14. On a state that satisfies the representation invariant and for every
calling CPU index, `kalloc()` returns; it returns 0 exactly when all `NCPU` free
lists are empty, and then the state is unchanged; whenever at least one list is
non-empty it returns a non-zero page and the number of free pages over all lists
drops by exactly one. -/
theorem kalloc_none_iff (NCPU id : Nat) (hid : id < NCPU) (s : KState) (L : Nat → List Nat)
    (hR : Rep NCPU s L) :
    ∃ r s1, kalloc NCPU id s = KRes.ret r s1 ∧
      (r = 0 ↔ ∀ i, i < NCPU → L i = []) ∧
      (r = 0 ↔ ∀ i, i < NCPU → s.freelist i = 0) ∧
      (r = 0 → s1 = s) ∧
      (r ≠ 0 → ∃ L1, Rep NCPU s1 L1 ∧ total NCPU L1 + 1 = total NCPU L) := by
  have hiff : (∀ i, i < NCPU → L i = []) ↔ ∀ i, i < NCPU → s.freelist i = 0 :=
    ⟨fun h i hi => (hR.list i hi).eq_nil_iff.mp (h i hi),
      fun h i hi => (hR.list i hi).eq_nil_iff.mpr (h i hi)⟩
  rcases kalloc_rep hid hR with ⟨hall, h⟩ | ⟨i, r, rest, s1, hi, hr, hL, h, hR1⟩
  · exact ⟨0, s, h, by simpa using hall, by simpa using hiff.mp hall, fun _ => rfl,
      fun hne => absurd rfl hne⟩
  · have hnot : ¬ ∀ i, i < NCPU → L i = [] := fun hall => by
      have := hall i hi; rw [hL] at this; simp at this
    refine ⟨r, s1, h, by simp [hr, hnot], ?_, fun e => absurd e hr, fun _ => ⟨_, hR1, ?_⟩⟩
    · have : ¬ ∀ i, i < NCPU → s.freelist i = 0 := fun e => hnot (hiff.mpr e)
      simp [hr, this]
    · have := total_update hi L rest
      rw [hL] at this
      simp only [List.length_cons] at this
      omega

/-- C14, witness: in `ks0` four pages are free, and `kalloc` on CPU 0 returns one. -/
theorem kalloc_none_iff_witness :
    Rep 2 ks0 (fun i => sharePages 2 4096 4 i) ∧
    ∃ r s1, kalloc 2 0 ks0 = KRes.ret r s1 ∧
      (r = 0 ↔ ∀ i, i < 2 → (fun i => sharePages 2 4096 4 i) i = []) :=
  ⟨rep_ks0,
    (kalloc_none_iff 2 0 (by decide) ks0 _ rep_ks0).imp
      (fun _ h => h.imp (fun _ g => ⟨g.1, g.2.1⟩))⟩

/-- C15. No double allocation, sequential form.  On a state whose free lists are
chains of page frames, duplicate-free and pairwise disjoint (the invariant
`Rep`): `kalloc` keeps that property and the page it returns is in no free list
afterwards; every sequence of `kalloc` calls with no `kfree` in between returns
pairwise distinct pages (0, the result of a call that finds every list empty, is
not a page), and returns no 0 when it is no longer than the number of free
pages; `kfree(p)` keeps the property whenever `p` passes its check and is not
already in a free list. -/
theorem no_double_alloc (NCPU : Nat) (s : KState) (L : Nat → List Nat) (hR : Rep NCPU s L) :
    (∀ id, id < NCPU → ∃ r s1 L1, kalloc NCPU id s = KRes.ret r s1 ∧ Rep NCPU s1 L1 ∧
      (r ≠ 0 → ∀ i, i < NCPU → r ∉ L1 i)) ∧
    (∀ cpus : List Nat, (∀ c ∈ cpus, c < NCPU) →
      ∃ rs s1 L1, kallocs NCPU cpus s = KRes.ret rs s1 ∧ Rep NCPU s1 L1 ∧
        rs.length = cpus.length ∧
        (rs.filter (fun r => decide (r ≠ 0))).Nodup ∧
        (∀ r ∈ rs, r ≠ 0 → ∀ i, i < NCPU → r ∉ L1 i) ∧
        (cpus.length ≤ total NCPU L → (∀ r ∈ rs, r ≠ 0) ∧ rs.Nodup)) ∧
    (∀ kend PHYSTOP c p, 0 < kend → PHYSTOP ≤ 2 ^ 64 → c < NCPU →
      p % PGSIZE = 0 → kend ≤ p → p < PHYSTOP → (∀ i, i < NCPU → p ∉ L i) →
      ∃ s1, kfree kend PHYSTOP c s p = KRes.ret () s1 ∧
        Rep NCPU s1 (Function.update L c (p :: L c))) := by
  refine ⟨fun id hid => ?_, fun cpus hc => ?_, ?_⟩
  · obtain ⟨rs, s1, L1, hk, hR1, hlen, _, hres, _, _⟩ :=
      kallocs_rep [id] hR (fun c hc => by simp at hc; omega)
    obtain ⟨r, s2, hka⟩ := kalloc_returns hid s
    simp only [kallocs, hka] at hk
    obtain ⟨rfl, rfl⟩ : [r] = rs ∧ s2 = s1 := by simpa using hk
    exact ⟨r, s2, L1, hka, hR1, fun hr => (hres r (by simp) hr).2⟩
  · obtain ⟨rs, s1, L1, hk, hR1, hlen, _, hres, hnd, hcnt⟩ := kallocs_rep cpus hR hc
    refine ⟨rs, s1, L1, hk, hR1, hlen, hnd, fun r hr h0 => (hres r hr h0).2, fun hle => ?_⟩
    have hall := hcnt hle
    refine ⟨hall, ?_⟩
    have : rs.filter (fun r => decide (r ≠ 0)) = rs :=
      List.filter_eq_self.mpr (fun r hr => by simpa using hall r hr)
    rwa [this] at hnd
  · intro kend PHYSTOP c p hk hP hc h1 h2 h3 hnew
    exact ⟨_, kfreehelper_ok s c h1 h2 h3, hR.push hc (isPage_of_valid hk hP h1 h2 h3) hnew⟩

/-- C15, witness: five calls of `kalloc` on `ks0`, where four pages are free. -/
theorem no_double_alloc_witness :
    Rep 2 ks0 (fun i => sharePages 2 4096 4 i) ∧
    ∃ rs s1 L1, kallocs 2 [0, 1, 0, 0, 1] ks0 = KRes.ret rs s1 ∧ Rep 2 s1 L1 ∧
      rs.length = [0, 1, 0, 0, 1].length ∧
      (rs.filter (fun r => decide (r ≠ 0))).Nodup :=
  ⟨rep_ks0,
    ((no_double_alloc 2 ks0 _ rep_ks0).2.1 [0, 1, 0, 0, 1] (by decide)).imp
      (fun _ h => h.imp (fun _ g => g.imp (fun _ f => ⟨f.1, f.2.1, f.2.2.1, f.2.2.2.1⟩)))⟩

/-- C16, as the code behaves: `kfreehelper(pa, icpu)` stops with the fatal error
"kfree" exactly when `pa` is not a multiple of `PGSIZE`, or `pa < end`, or
`pa >= PHYSTOP`, and it does so before it has changed any list or any byte.
Otherwise it returns, `kmem[icpu].freelist` is `pa`, the page at `pa` holds the
former head as its `next` pointer, no other head and no byte outside the page
changes; and if `pa` was in no free list, list `icpu` is `pa` followed by the
former list and every other list is unchanged. -/
theorem kfreehelper_spec (NCPU kend PHYSTOP : Nat) (s : KState) (pa icpu : Nat) :
    ((∃ t, kfreehelper kend PHYSTOP s pa icpu = KRes.panic "kfree" t) ↔
      (pa % PGSIZE ≠ 0 ∨ pa < kend ∨ pa ≥ PHYSTOP)) ∧
    (∀ m t, kfreehelper kend PHYSTOP s pa icpu = KRes.panic m t → m = "kfree" ∧ t = s) ∧
    (¬ (pa % PGSIZE ≠ 0 ∨ pa < kend ∨ pa ≥ PHYSTOP) →
      ∃ s1, kfreehelper kend PHYSTOP s pa icpu = KRes.ret () s1 ∧
        s1.freelist icpu = pa ∧ (∀ j, j ≠ icpu → s1.freelist j = s.freelist j) ∧
        (s.freelist icpu < 2 ^ 64 → load64 s1.mem pa = s.freelist icpu) ∧
        (∀ x, ¬ (pa ≤ x ∧ x < pa + PGSIZE) → s1.mem x = s.mem x) ∧
        ∀ L, Rep NCPU s L → 0 < kend → PHYSTOP ≤ 2 ^ 64 → icpu < NCPU →
          (∀ i, i < NCPU → pa ∉ L i) →
          Rep NCPU s1 (Function.update L icpu (pa :: L icpu))) := by
  by_cases hbad : pa % PGSIZE ≠ 0 ∨ pa < kend ∨ pa ≥ PHYSTOP
  · have hp := kfreehelper_bad s icpu hbad
    refine ⟨⟨fun _ => hbad, fun _ => ⟨s, hp⟩⟩, fun m t h => ?_, fun hn => absurd hbad hn⟩
    rw [hp] at h
    simp at h
    exact ⟨h.1.symm, h.2.symm⟩
  · have h1 : pa % PGSIZE = 0 := by omega
    have h2 : kend ≤ pa := by omega
    have h3 : pa < PHYSTOP := by omega
    have hok := kfreehelper_ok s icpu h1 h2 h3
    refine ⟨⟨fun ⟨t, ht⟩ => ?_, fun h => absurd h hbad⟩, fun m t h => ?_, fun _ => ?_⟩
    · rw [hok] at ht; simp at ht
    · rw [hok] at h; simp at h
    · refine ⟨_, hok, by rw [pushPage_freelist, if_pos rfl],
        fun j hj => by rw [pushPage_freelist, if_neg hj],
        fun hh => pushPage_next s pa icpu hh,
        fun x hx => pushPage_mem_out s pa icpu x hx,
        fun L hR hk hP hc hnew => hR.push hc (isPage_of_valid hk hP h1 h2 h3) hnew⟩

/-- C16, witness: page `0x3000`, which `kalloc` has taken out of `ks0`, is freed
onto list 1 of `ks4`. -/
theorem kfreehelper_spec_witness :
    ¬ (12288 % PGSIZE ≠ 0 ∨ 12288 < 4096 ∨ 12288 ≥ 20480) ∧
    ∃ s1, kfreehelper 4096 20480 ks4 12288 1 = KRes.ret () s1 ∧ s1.freelist 1 = 12288 :=
  ⟨by decide,
    ((kfreehelper_spec 2 4096 20480 ks4 12288 1).2.2 (by decide)).imp
      (fun _ h => ⟨h.1, h.2.1⟩)⟩

/-- C16, counterexample: in `ks0` list 1 is `0x4000, 0x2000` and list 0 is
`0x3000, 0x1000`.  Page `0x2000` passes the check; `kfreehelper(0x2000, 0)` returns,
and list 1, another list than the one freed onto, has changed: it now runs on
through the former list 0. -/
theorem kfreehelper_double_free :
    ListAt ks0.mem (ks0.freelist 1) [16384, 8192] ∧
    ¬ (8192 % PGSIZE ≠ 0 ∨ 8192 < 4096 ∨ 8192 ≥ 20480) ∧
    kfreehelper 4096 20480 ks0 8192 0 = KRes.ret () ks3 ∧
    ¬ ListAt ks3.mem (ks3.freelist 1) [16384, 8192] ∧
    ListAt ks3.mem (ks3.freelist 1) [16384, 8192, 12288, 4096] :=
  ⟨by decide, by decide, rfl, by decide, by decide⟩

/-- C17, as the code behaves: `freerange(pa_start, pa_end)` with `end <= pa_start`
and `pa_end <= PHYSTOP`, where `pa_start` is at least two pages and `pa_end`
more than one page below `2^64` (so that neither `PGROUNDUP` nor `p + PGSIZE`
wraps round), returns, and what it has done is to free the pages
`PGROUNDUP(pa_start) + k * PGSIZE` for `k = 0, 1, ..., n - 1` in this order, each
once, the `k`-th onto list `k % NCPU`, where `k < n` exactly when
`PGROUNDUP(pa_start) + (k + 1) * PGSIZE <= pa_end`.  Started with every list
empty, it leaves on list `i` the pages `k < n` with `k % NCPU = i` and nothing
else, lists that are chains of distinct pages and pairwise disjoint, and the
lengths of two lists differ by at most one. -/
theorem freerange_spec (NCPU kend PHYSTOP : Nat) (hN : 0 < NCPU) (hk : 0 < kend)
    (s : KState) (pa_start pa_end : Nat) (h1 : kend ≤ pa_start) (h2 : pa_end ≤ PHYSTOP)
    (h3 : pa_start + 2 * PGSIZE ≤ 2 ^ 64) (hP : pa_end + PGSIZE < 2 ^ 64) :
    ∃ n, (∀ k, k < n ↔ PGROUNDUP pa_start + (k + 1) * PGSIZE ≤ pa_end) ∧
      freerange NCPU kend PHYSTOP s pa_start pa_end =
        KRes.ret () ((List.range n).foldl
          (fun t k => pushPage t (PGROUNDUP pa_start + k * PGSIZE) (k % NCPU)) s) ∧
      (∀ k, k < n → ∀ t, kfreehelper kend PHYSTOP t (PGROUNDUP pa_start + k * PGSIZE) (k % NCPU) =
        KRes.ret () (pushPage t (PGROUNDUP pa_start + k * PGSIZE) (k % NCPU))) ∧
      ((∀ i, i < NCPU → s.freelist i = 0) →
        Rep NCPU ((freerange NCPU kend PHYSTOP s pa_start pa_end).state s)
          (fun i => sharePages NCPU (PGROUNDUP pa_start) n i) ∧
        (∀ i q, q ∈ sharePages NCPU (PGROUNDUP pa_start) n i ↔
          ∃ k, k < n ∧ k % NCPU = i ∧ q = PGROUNDUP pa_start + k * PGSIZE) ∧
        ∀ i j, i < NCPU → j < NCPU →
          (sharePages NCPU (PGROUNDUP pa_start) n i).length ≤
            (sharePages NCPU (PGROUNDUP pa_start) n j).length + 1) := by
  have e : PGSIZE = 4096 := rfl
  obtain ⟨ha, hge, hlt⟩ := PGROUNDUP_spec pa_start (by rw [e] at h3 ⊢; omega)
  generalize hp0 : PGROUNDUP pa_start = p0 at ha hge hlt ⊢
  have hn : ∀ k, k < (pa_end - p0) / PGSIZE ↔ p0 + (k + 1) * PGSIZE ≤ pa_end := by
    intro k; rw [e]; omega
  have hrun : freerange NCPU kend PHYSTOP s pa_start pa_end =
      KRes.ret () ((List.range ((pa_end - p0) / PGSIZE)).foldl
        (fun t k => pushPage t (p0 + k * PGSIZE) (k % NCPU)) s) := by
    unfold freerange
    rw [hp0, freerangeLoop_eq h2 ((pa_end - p0) / PGSIZE) _ p0 0 s
      (by rw [e] at hP ⊢; omega) ha (by omega) (fun h => by rw [e] at h ⊢; omega)
      (by rw [e]; omega) (by rw [e] at hP h3 hlt ⊢; omega) (by rw [e] at hP ⊢; omega),
      pushRange_eq_foldl]
    simp only [Nat.zero_add]
  refine ⟨(pa_end - p0) / PGSIZE, hn, hrun, fun k hk2 t => ?_, fun hempty => ⟨?_, ?_, ?_⟩⟩
  · have := (hn k).mp hk2
    exact kfreehelper_ok t (k % NCPU) (by rw [Nat.add_mul_mod_self_right]; exact ha)
      (by omega) (by rw [e] at this ⊢; omega)
  · rw [hrun]
    have hR : Rep NCPU s (fun _ => []) :=
      ⟨fun i hi => hempty i hi, fun _ _ p hp => by simp at hp, fun _ _ => List.nodup_nil,
        fun _ _ _ _ _ p hp => by simp at hp⟩
    have := rep_foldl_push hN ha (by omega : 0 < p0) hR ((pa_end - p0) / PGSIZE)
      (fun h => by rw [e] at h hP ⊢; omega) (fun _ _ _ _ hm => by simp at hm)
    simpa [KRes.state] using this
  · exact fun i q => mem_sharePages
  · intro i j hi hj
    obtain ⟨q, r, _, _, hlen⟩ := sharePages_length NCPU p0 hN ((pa_end - p0) / PGSIZE)
    rw [hlen i hi, hlen j hj]
    split_ifs <;> omega

/-- C17, witness: `kinit` with two CPUs, `end = 0x1000` and `PHYSTOP = 0x5000`
frees four pages. -/
theorem freerange_spec_witness :
    ∃ n, (∀ k, k < n ↔ PGROUNDUP 4096 + (k + 1) * PGSIZE ≤ 20480) ∧
      freerange 2 4096 20480 kboot 4096 20480 =
        KRes.ret () ((List.range n).foldl
          (fun t k => pushPage t (PGROUNDUP 4096 + k * PGSIZE) (k % 2)) kboot) :=
  (freerange_spec 2 4096 20480 (by decide) (by decide) kboot 4096 20480
    (by decide) (by decide) (by decide) (by decide)).imp (fun _ h => ⟨h.1, h.2.1⟩)

/-- C17, counterexample: with `end = 0x1000` and `PHYSTOP = 0x5000`, the call
`freerange(2^64 - 1, 0x5000)` meets `end <= pa_start` and `pa_end <= PHYSTOP`.
`PGROUNDUP` wraps round to 0, the loop starts at page 0, and `kfreehelper(0, 0)`
stops the kernel with "kfree" before any page is freed. -/
theorem freerange_wraps :
    4096 ≤ 2 ^ 64 - 1 ∧ 20480 ≤ 20480 ∧ PGROUNDUP (2 ^ 64 - 1) = 0 ∧
    PGROUNDUP (2 ^ 64 - 1) + (0 + 1) * PGSIZE ≤ 20480 ∧
    freerange 2 4096 20480 kboot (2 ^ 64 - 1) 20480 = KRes.panic "kfree" kboot :=
  ⟨by decide, by decide, by decide, by decide, rfl⟩

/-- C18. Whenever `kalloc()` returns a non-zero page, every one of the `PGSIZE`
bytes of that page is 5, the first eight, which held the `next` pointer, included,
whatever the state was before.  The byte `kfreehelper` fills a page with is 1,
another one: after `kfreehelper` every byte of the page behind the `next`
pointer is 1. -/
theorem kalloc_poison (NCPU kend PHYSTOP : Nat) (s : KState) :
    (∀ id r s1, kalloc NCPU id s = KRes.ret r s1 → r ≠ 0 →
      ∀ x, r ≤ x → x < r + PGSIZE → s1.mem x = 5) ∧
    (∀ pa icpu s1, kfreehelper kend PHYSTOP s pa icpu = KRes.ret () s1 →
      ∀ x, pa + 8 ≤ x → x < pa + PGSIZE → s1.mem x = 1 ∧ s1.mem x ≠ 5) := by
  constructor
  · intro id r s1 h hr x hx1 hx2
    unfold kalloc at h
    split_ifs at h with h0
    · simp only [KRes.ret.injEq] at h
      obtain ⟨rfl, rfl⟩ := h
      simp [hx1, hx2]
    · cases hst : steal NCPU id NCPU ((id + 1) % NCPU) s with
      | none => rw [hst] at h; simp at h
      | some q =>
        obtain ⟨r2, s2⟩ := q
        rw [hst] at h
        simp only at h
        split_ifs at h with h2
        · simp only [KRes.ret.injEq] at h
          obtain ⟨rfl, rfl⟩ := h
          simp [hx1, hx2]
        · simp only [KRes.ret.injEq] at h
          exact absurd h.1.symm hr
  · intro pa icpu s1 h x hx1 hx2
    unfold kfreehelper at h
    split_ifs at h
    simp only [KRes.ret.injEq, true_and] at h
    subst h
    rw [pushPage_mem_in s pa icpu x hx1 hx2]
    exact ⟨rfl, by decide⟩

/-- C18, witness: `kalloc` on CPU 0 of `ks0` returns page `0x3000`. -/
theorem kalloc_poison_witness :
    kalloc 2 0 ks0 = KRes.ret 12288 ks4 ∧
    ∀ x, 12288 ≤ x → x < 12288 + PGSIZE → ks4.mem x = 5 :=
  ⟨rfl, (kalloc_poison 2 4096 20480 ks0).1 0 12288 ks4 rfl (by decide)⟩

/-- C19. Steal order, for a calling CPU `id < NCPU`.  `kalloc` returns (its scan
of the other lists ends).  When list `id` is non-empty, `kalloc` pops its head and
writes no other head.  When it is empty and `j` is the smallest offset in
`1..NCPU-1` such that list `(id + j) % NCPU` is non-empty, `kalloc` returns the
head of that list and pops it, and writes no other head; when there is no such
offset it returns 0 and changes nothing.  On a state that satisfies the
representation invariant the list popped loses only that page and every other
list is unchanged. -/
theorem kalloc_steal_order (NCPU id : Nat) (hid : id < NCPU) (s : KState) :
    (∃ r s1, kalloc NCPU id s = KRes.ret r s1) ∧
    (s.freelist id ≠ 0 →
      kalloc NCPU id s = KRes.ret (s.freelist id)
        (memset (s.setFreelist id (load64 s.mem (s.freelist id))) (s.freelist id) 5 PGSIZE)) ∧
    (s.freelist id = 0 → ∀ j, 1 ≤ j → j < NCPU → s.freelist ((id + j) % NCPU) ≠ 0 →
      (∀ k, 1 ≤ k → k < j → s.freelist ((id + k) % NCPU) = 0) →
      kalloc NCPU id s = KRes.ret (s.freelist ((id + j) % NCPU))
        (memset (s.setFreelist ((id + j) % NCPU) (load64 s.mem (s.freelist ((id + j) % NCPU))))
          (s.freelist ((id + j) % NCPU)) 5 PGSIZE)) ∧
    (s.freelist id = 0 → (∀ j, 1 ≤ j → j < NCPU → s.freelist ((id + j) % NCPU) = 0) →
      kalloc NCPU id s = KRes.ret 0 s) ∧
    (∀ L, Rep NCPU s L → ∀ r s1, kalloc NCPU id s = KRes.ret r s1 → r ≠ 0 →
      ∃ i rest, i < NCPU ∧ L i = r :: rest ∧ s.freelist i = r ∧
        Rep NCPU s1 (Function.update L i rest)) := by
  have hmod0 : (id + 0) % NCPU = id := by rw [Nat.add_zero, Nat.mod_eq_of_lt hid]
  refine ⟨kalloc_returns hid s, fun h0 => ?_, fun h0 j hj1 hj2 hne hmin => ?_,
    fun h0 hall => ?_, fun L hR r s1 hka hr => ?_⟩
  · unfold kalloc; rw [if_pos h0]
  · rcases kalloc_cases hid s with ⟨hall, _⟩ | ⟨j2, hj, hne2, hmin2, hka⟩
    · exact absurd (hall _ (Nat.mod_lt _ (by omega))) hne
    · have hj20 : j2 ≠ 0 := by
        intro e; rw [e, hmod0] at hne2; exact hne2 h0
      obtain rfl : j2 = j := by
        rcases Nat.lt_trichotomy j2 j with h | h | h
        · exact absurd (hmin j2 (by omega) h) hne2
        · exact h
        · exact absurd (hmin2 j h) hne
      exact hka
  · rcases kalloc_cases hid s with ⟨_, hka⟩ | ⟨j2, hj, hne2, _, _⟩
    · exact hka
    · by_cases hj20 : j2 = 0
      · rw [hj20, hmod0] at hne2; exact absurd h0 hne2
      · exact absurd (hall j2 (by omega) hj) hne2
  · rcases kalloc_rep hid hR with ⟨_, h⟩ | ⟨i, r2, rest, s2, hi, _, hL, h, hR1⟩
    · rw [h] at hka; simp at hka; exact absurd hka.1.symm hr
    · rw [h] at hka
      simp only [KRes.ret.injEq] at hka
      obtain ⟨rfl, rfl⟩ := hka
      have hl := hR.list i hi
      rw [hL] at hl
      exact ⟨i, rest, hi, hL, hl.1, hR1⟩

/-- C19, witness: once `kalloc` on CPU 0 has emptied list 0 of `ks0`, the next call
on CPU 0 steals the head of list 1. -/
theorem kalloc_steal_order_witness :
    ((kalloc 2 0 ks4).state ks4).freelist 0 = 0 ∧
    ((kalloc 2 0 ks4).state ks4).freelist ((0 + 1) % 2) ≠ 0 ∧
    kalloc 2 0 ((kalloc 2 0 ks4).state ks4) =
      KRes.ret (((kalloc 2 0 ks4).state ks4).freelist ((0 + 1) % 2))
        (memset (((kalloc 2 0 ks4).state ks4).setFreelist ((0 + 1) % 2)
          (load64 ((kalloc 2 0 ks4).state ks4).mem
            (((kalloc 2 0 ks4).state ks4).freelist ((0 + 1) % 2))))
          (((kalloc 2 0 ks4).state ks4).freelist ((0 + 1) % 2)) 5 PGSIZE) :=
  ⟨by decide, by decide,
    (kalloc_steal_order 2 0 (by decide) ((kalloc 2 0 ks4).state ks4)).2.2.1 (by decide) 1
      (by decide) (by decide) (by decide) (fun k h1 h2 => by omega)⟩

end Kalloc
